import Mathlib

/-!  Verification of the ctmdp repository's transition-system algebra.

The Python sources are shallowly embedded: labels (state labels, action
labels, automaton states) become the inductive type of Python values
`PyVal`; Python dicts become association lists with Python's insert
semantics (updating a key keeps its position, a fresh key is appended);
floats become rationals; code that raises becomes `Option`-valued.  -/

namespace Ctmdp

/-- Python values used as labels in the repository: integers, strings and
tuples (pairs). -/
inductive PyVal where
  | i : Int → PyVal
  | s : String → PyVal
  | pr : PyVal → PyVal → PyVal
deriving DecidableEq, Repr

/-- Association list with Python dict semantics; `V` is the value type,
keys are Python values. -/
abbrev Dict (V : Type) := List (PyVal × V)

/-- Lookup of the first binding of a key, mirroring a Python dict read
(`d[k]` / `d.get(k)`); a Python dict has at most one binding per key. -/
def dget? {V : Type} (d : Dict V) (k : PyVal) : Option V :=
  match d with
  | [] => none
  | p :: ps => if p.1 = k then some p.2 else dget? ps k

/-- Python membership test `k in d`. -/
def dmem {V : Type} (d : Dict V) (k : PyVal) : Bool := (dget? d k).isSome

/-- Python `d.get(k, v0)` with a default. -/
def dgetD {V : Type} (d : Dict V) (k : PyVal) (v0 : V) : V := (dget? d k).getD v0

/-- Python dict assignment `d[k] = v`: an existing key keeps its position
and gets the new value, a fresh key is appended at the end. -/
def dset {V : Type} (d : Dict V) (k : PyVal) (v : V) : Dict V :=
  if dmem d k then d.map (fun p => if p.1 = k then (k, v) else p) else d ++ [(k, v)]

/-- Key list of a dict, in iteration order. -/
def dkeys {V : Type} (d : Dict V) : List PyVal := d.map Prod.fst

/-! The data model of ctmdp/mdp.py: an `Action` stores a measure (target
label to weight) and a reward; a state is its dict of actions; an `MDP`
stores its states dict together with the start state and goal list set by
`MDP.__init__`. -/

/-- Embedding of the `Action` object of ctmdp/mdp.py: a measure mapping
target state labels to weights, and a scalar reward. -/
structure ActionData where
  measure : Dict ℚ
  reward : ℚ
deriving DecidableEq, Repr

/-- Actions of one state, keyed by action label (`State.actions`). -/
abbrev StateActs := Dict ActionData

/-- Embedding of the `MDP` object of ctmdp/mdp.py. -/
structure MDP where
  states : Dict StateActs
  start : PyVal
  goals : List PyVal
deriving DecidableEq, Repr

/-- One entry of a declarative description, the three shapes dispatched on
by `MDP.__init__`: a (measure, reward) tuple, a bare measure dict, or a
single deterministic target. -/
inductive ActionDesc where
  | withReward : Dict ℚ → ℚ → ActionDesc
  | dist : Dict ℚ → ActionDesc
  | det : PyVal → ActionDesc
deriving DecidableEq, Repr

/-- A declarative description: state label to action label to entry. -/
abbrev Desc := Dict (Dict ActionDesc)

/-- Resolution of one description entry into an action, as in the
three-way `isinstance` dispatch of `MDP.__init__` (reward defaults to 0,
a bare target becomes a one-point measure of weight 1). -/
def resolveAction : ActionDesc → ActionData
  | .withReward m r => ⟨m, r⟩
  | .dist m => ⟨m, 0⟩
  | .det t => ⟨[(t, 1)], 0⟩

/-- The state-building loop of `MDP.__init__`: each description entry is
materialized and inserted in iteration order. -/
def buildStates (desc : Desc) : Dict StateActs :=
  desc.foldl
    (fun acc p =>
      dset acc p.1 (p.2.foldl (fun sa q => dset sa q.1 (resolveAction q.2)) []))
    []

/-- Embedding of the `MDP.first_state` property,
`list(self.states.values())[0]`: fails (IndexError) on an empty model. -/
def firstState? (states : Dict StateActs) : Option PyVal := (dkeys states).head?

/-- Embedding of the `MDP.last_state` property,
`list(self.states.values())[-1]`: fails (IndexError) on an empty model. -/
def lastState? (states : Dict StateActs) : Option PyVal := (dkeys states).getLast?

/-- Embedding of `MDP.__init__`: build the states from the description,
then set `start` to the first state and `goals` to the singleton list of
the last state; on an empty description the reads of `first_state` and
`last_state` fail, so no model is produced. -/
def MDP.ofDesc (desc : Desc) : Option MDP :=
  let sts := buildStates desc
  match firstState? sts, lastState? sts with
  | some f, some l => some ⟨sts, f, [l]⟩
  | _, _ => none

/-! Basic dict lemmas. -/

theorem dget?_cons {V : Type} (p : PyVal × V) (ps : Dict V) (k : PyVal) :
    dget? (p :: ps) k = if p.1 = k then some p.2 else dget? ps k := rfl

theorem dkeys_cons {V : Type} (p : PyVal × V) (ps : Dict V) :
    dkeys (p :: ps) = p.1 :: dkeys ps := rfl

theorem dget?_eq_none {V : Type} (d : Dict V) (k : PyVal) :
    dget? d k = none ↔ k ∉ dkeys d := by
  induction d with
  | nil => simp [dget?, dkeys]
  | cons p ps ih =>
    rw [dget?_cons, dkeys_cons]
    by_cases h : p.1 = k
    · simp [h]
    · rw [if_neg h, ih]
      constructor
      · intro hk hc
        rcases List.mem_cons.1 hc with hc1 | hc1
        · exact h hc1.symm
        · exact hk hc1
      · intro hk hc
        exact hk (List.mem_cons.2 (Or.inr hc))

theorem dkeys_dset {V : Type} (d : Dict V) (k : PyVal) (v : V) :
    dkeys (dset d k v) = if dmem d k then dkeys d else dkeys d ++ [k] := by
  by_cases h : dmem d k
  · rw [dset, if_pos h, if_pos h, dkeys, dkeys, List.map_map]
    apply List.map_congr_left
    intro p _
    by_cases hp : p.1 = k <;> simp [hp]
  · rw [dset, if_neg h, if_neg h, dkeys, dkeys, List.map_append]
    rfl

theorem dget?_append_right {V : Type} (d e : Dict V) (k : PyVal)
    (h : k ∉ dkeys d) : dget? (d ++ e) k = dget? e k := by
  induction d with
  | nil => rfl
  | cons p ps ih =>
    rw [dkeys_cons, List.mem_cons] at h
    push_neg at h
    rw [List.cons_append, dget?_cons, if_neg (fun hh => h.1 hh.symm)]
    exact ih h.2

theorem dget?_dset_self {V : Type} (d : Dict V) (k : PyVal) (v : V) :
    dget? (dset d k v) k = some v := by
  by_cases h : dmem d k
  · rw [dset, if_pos h]
    induction d with
    | nil => simp [dmem, dget?] at h
    | cons p ps ih =>
      rw [List.map_cons]
      by_cases hp : p.1 = k
      · rw [if_pos hp, dget?_cons, if_pos rfl]
      · rw [if_neg hp, dget?_cons, if_neg hp]
        exact ih (by
          have := h
          rw [dmem, dget?_cons, if_neg hp] at this
          exact this)
  · rw [dset, if_neg h]
    have hnone : dget? d k = none := by
      cases hd : dget? d k with
      | none => rfl
      | some w => rw [dmem, hd] at h; exact absurd rfl h
    rw [dget?_append_right _ _ _ ((dget?_eq_none d k).1 hnone)]
    rw [dget?_cons, if_pos rfl]

theorem dget?_map_update_ne {V : Type} (d : Dict V) (k k' : PyVal) (v : V)
    (h : k' ≠ k) :
    dget? (d.map (fun p => if p.1 = k then (k, v) else p)) k' = dget? d k' := by
  induction d with
  | nil => rfl
  | cons p ps ih =>
    rw [List.map_cons]
    by_cases hp : p.1 = k
    · rw [if_pos hp, dget?_cons, dget?_cons,
        if_neg (fun hh : k = k' => h hh.symm),
        if_neg (fun hh : p.1 = k' => h (hp ▸ hh).symm)]
      exact ih
    · rw [if_neg hp, dget?_cons, dget?_cons]
      by_cases hq : p.1 = k'
      · rw [if_pos hq, if_pos hq]
      · rw [if_neg hq, if_neg hq]
        exact ih

theorem dget?_dset_ne {V : Type} (d : Dict V) (k k' : PyVal) (v : V)
    (h : k' ≠ k) : dget? (dset d k v) k' = dget? d k' := by
  by_cases hm : dmem d k
  · rw [dset, if_pos hm]
    exact dget?_map_update_ne d k k' v h
  · rw [dset, if_neg hm]
    induction d with
    | nil => rw [List.nil_append, dget?_cons, dget?,
        if_neg (fun hh : k = k' => h hh.symm)]
    | cons p ps ih =>
      rw [List.cons_append, dget?_cons, dget?_cons]
      by_cases hq : p.1 = k'
      · rw [if_pos hq, if_pos hq]
      · rw [if_neg hq, if_neg hq]
        exact ih (by
          have := hm
          rw [dmem, dget?_cons] at this
          by_cases hpk : p.1 = k
          · rw [if_pos hpk] at this; simp at this
          · rw [if_neg hpk] at this; exact this)

/-! Claim C10: start and goal initialization in `MDP.__init__`. -/

theorem buildStates_keys (desc : Desc) (h : (dkeys desc).Nodup) :
    dkeys (buildStates desc) = dkeys desc := by
  suffices H : ∀ acc : Dict StateActs,
      (dkeys desc).Nodup →
      (∀ k ∈ dkeys desc, ¬ dmem acc k) →
      dkeys (desc.foldl
        (fun acc p =>
          dset acc p.1 (p.2.foldl (fun sa q => dset sa q.1 (resolveAction q.2)) []))
        acc) = dkeys acc ++ dkeys desc by
    simpa [buildStates] using H [] h (by simp [dmem, dget?])
  clear h
  induction desc with
  | nil => intro acc _ _; simp [dkeys]
  | cons p ps ih =>
    intro acc hnd hacc
    have hp : ¬ dmem acc p.1 := hacc p.1 (by simp [dkeys])
    simp only [dkeys, List.map_cons, List.nodup_cons] at hnd
    simp only [List.foldl_cons]
    rw [ih _ hnd.2]
    · rw [dkeys_dset, if_neg hp]
      simp [dkeys]
    · intro k hk
      have hne : k ≠ p.1 := fun hh => hnd.1 (hh ▸ hk)
      rw [dmem, dget?_dset_ne _ _ _ _ hne]
      refine hacc k ?_
      rw [dkeys_cons, List.mem_cons]
      exact Or.inr hk

/-- Description of the two-state path model (path_mdp(2) of
ctmdp/constructors/path.py): state 0 has the deterministic action next to
state 1, state 1 has the deterministic action prev to state 0. -/
def descEx : Desc :=
  [(PyVal.i 0, [(PyVal.s "next", ActionDesc.det (PyVal.i 1))]),
   (PyVal.i 1, [(PyVal.s "prev", ActionDesc.det (PyVal.i 0))])]

/-- C10: for every non-empty declarative description (whose state labels
are distinct, as a Python dict guarantees), the model built by
`MDP.__init__` has its start state set to the first state in description
iteration order and its goal list set to exactly the single last state in
iteration order; on the empty description the reads of `first_state` and
`last_state` fail, so no model is produced. -/
theorem C10_start_goal_initialization :
    (∀ desc : Desc, (dkeys desc).Nodup → desc ≠ [] →
      ∃ M : MDP, MDP.ofDesc desc = some M ∧
        (dkeys desc).head? = some M.start ∧
        ∃ g, (dkeys desc).getLast? = some g ∧ M.goals = [g]) ∧
    MDP.ofDesc [] = none ∧
    firstState? (buildStates []) = none ∧ lastState? (buildStates []) = none := by
  refine ⟨?_, rfl, rfl, rfl⟩
  intro desc hnd hne
  have hk := buildStates_keys desc hnd
  cases hl : dkeys desc with
  | nil =>
    exfalso
    apply hne
    cases desc with
    | nil => rfl
    | cons p ps => rw [dkeys_cons] at hl; exact absurd hl (List.cons_ne_nil _ _)
  | cons a rest =>
    have hgl2 : (a :: rest).getLast? = some ((a :: rest).getLast (by simp)) :=
      List.getLast?_eq_getLast _ (by simp)
    refine ⟨⟨buildStates desc, a, [(a :: rest).getLast (by simp)]⟩, ?_, rfl, _, hgl2, rfl⟩
    rw [MDP.ofDesc]
    have h1 : firstState? (buildStates desc) = some a := by
      rw [firstState?, hk, hl]; rfl
    have h2 : lastState? (buildStates desc) = some ((a :: rest).getLast (by simp)) := by
      rw [lastState?, hk, hl, hgl2]
    rw [h1, h2]

/-- Witness for C10 at the two-state path description. -/
theorem C10_start_goal_initialization_witness :
    ∃ M : MDP, MDP.ofDesc descEx = some M ∧
      (dkeys descEx).head? = some M.start ∧
      ∃ g, (dkeys descEx).getLast? = some g ∧ M.goals = [g] :=
  C10_start_goal_initialization.1 descEx (by decide) (by decide)

/-! Embedding of the exact morphism validator `MDPMorphism` of
ctmdp/mdp.py. -/

/-- Lookup of a binding that is known to be in a dict with unique keys. -/
theorem dget?_of_mem_nodup {V : Type} {d : Dict V} {k : PyVal} {v : V}
    (hnd : (dkeys d).Nodup) (hm : (k, v) ∈ d) : dget? d k = some v := by
  induction d with
  | nil => exact absurd hm (List.not_mem_nil _)
  | cons p ps ih =>
    rw [dkeys_cons, List.nodup_cons] at hnd
    rcases List.mem_cons.1 hm with rfl | hm2
    · rw [dget?_cons, if_pos rfl]
    · rw [dget?_cons]
      have hk : k ∈ dkeys ps := by
        rw [dkeys, List.mem_map]; exact ⟨(k, v), hm2, rfl⟩
      rw [if_neg (fun hh => hnd.1 (by rw [hh]; exact hk))]
      exact ih hnd.2 hm2

/-- Pushforward of a measure under the state map f, as in
`MDPMorphism.pushforward`: every weight is regrouped by the image of its
key, accumulating with result[s2] = result.get(s2, 0) + prob. -/
def pushforward (f : PyVal → PyVal) (measure : Dict ℚ) : Dict ℚ :=
  measure.foldl (fun acc p => dset acc (f p.1) (dgetD acc (f p.1) 0 + p.2)) []

/-- Accumulated weight of the pushforward at one key: the sum of the
weights of all entries whose key maps to it. -/
theorem pushforward_spec (f : PyVal → PyVal) (m : Dict ℚ) (k : PyVal) :
    dgetD (pushforward f m) k 0 =
      ((m.filter fun p => f p.1 = k).map Prod.snd).sum := by
  suffices H : ∀ (l : Dict ℚ) (acc : Dict ℚ),
      dgetD (l.foldl (fun acc p => dset acc (f p.1) (dgetD acc (f p.1) 0 + p.2)) acc) k 0
        = dgetD acc k 0 + ((l.filter fun p => f p.1 = k).map Prod.snd).sum by
    rw [pushforward, H m []]
    simp [dgetD, dget?]
  intro l
  induction l with
  | nil => intro acc; simp
  | cons p ps ih =>
    intro acc
    rw [List.foldl_cons, ih]
    by_cases hp : f p.1 = k
    · rw [List.filter_cons_of_pos (by simpa using hp), List.map_cons, List.sum_cons]
      rw [dgetD, hp, dget?_dset_self, Option.getD_some]
      ring
    · rw [List.filter_cons_of_neg (by simpa using hp)]
      rw [dgetD, dget?_dset_ne _ _ _ _ (fun hh => hp hh.symm)]
      rfl

/-- Unfolding of a defaulted lookup over a cons cell. -/
theorem dgetD_cons {V : Type} (p : PyVal × V) (ps : Dict V) (k : PyVal) (v0 : V) :
    dgetD (p :: ps) k v0 = if p.1 = k then p.2 else dgetD ps k v0 := by
  rw [dgetD, dget?_cons]
  by_cases h : p.1 = k
  · rw [if_pos h, if_pos h, Option.getD_some]
  · rw [if_neg h, if_neg h]; rfl

/-- Accumulated weight at a key of a dict with unique keys. -/
theorem filter_sum_of_nodup (m : Dict ℚ) (k : PyVal)
    (hnd : (dkeys m).Nodup) :
    ((m.filter fun p => p.1 = k).map Prod.snd).sum = dgetD m k 0 := by
  induction m with
  | nil => simp [dgetD, dget?]
  | cons p ps ih =>
    rw [dkeys_cons, List.nodup_cons] at hnd
    by_cases hp : p.1 = k
    · rw [List.filter_cons_of_pos (by simpa using hp), List.map_cons, List.sum_cons,
        dgetD_cons, if_pos hp]
      have hnil : (ps.filter fun q => decide (q.1 = k)) = [] := by
        rw [List.filter_eq_nil_iff]
        intro q hq hqk
        apply hnd.1
        have hq1 : q.1 = k := by simpa using hqk
        rw [dkeys, List.mem_map]
        exact ⟨q, hq, by rw [hq1, hp]⟩
      rw [hnil]
      simp
    · rw [List.filter_cons_of_neg (by simpa using hp), ih hnd.2,
        dgetD_cons, if_neg hp]

/-- Tolerance default of `MDPMorphism._measures_equal`. -/
def tol : ℚ := 1 / 1000000

/-- Embedding of `MDPMorphism._measures_equal`: agreement within the
absolute tolerance at every key of the union of the two key sets. -/
def measuresEqual (m1 m2 : Dict ℚ) : Bool :=
  (dkeys m1 ++ dkeys m2).all fun k => |dgetD m1 k 0 - dgetD m2 k 0| < tol

/-- Check of one source action inside `MDPMorphism.is_valid`: lookup of
the mapped action at the mapped state (the caught KeyError giving False),
exact reward comparison, and tolerance comparison of the pushforward
measure with the mapped measure. -/
def actionCheck (target : MDP) (f g : PyVal → PyVal) (s1 : PyVal)
    (pa : PyVal × ActionData) : Bool :=
  match dget? target.states (f s1) with
  | none => false
  | some tacts =>
    match dget? tacts (g pa.1) with
    | none => false
    | some a2 =>
      decide (pa.2.reward = a2.reward) &&
        measuresEqual (pushforward f pa.2.measure) a2.measure

/-- Embedding of `MDPMorphism.is_valid` for a source model, a target
model, a state-label map f and an action-label map g. -/
def isValid (source target : MDP) (f g : PyVal → PyVal) : Bool :=
  source.states.all fun ps => ps.2.all fun pa => actionCheck target f g ps.1 pa

/-- Characterization of the per-action check. -/
theorem actionCheck_iff (target : MDP) (f g : PyVal → PyVal) (s1 : PyVal)
    (pa : PyVal × ActionData) :
    actionCheck target f g s1 pa = true ↔
      ∃ tacts, dget? target.states (f s1) = some tacts ∧
        ∃ a2, dget? tacts (g pa.1) = some a2 ∧
          pa.2.reward = a2.reward ∧
          ∀ k ∈ dkeys (pushforward f pa.2.measure) ++ dkeys a2.measure,
            |dgetD (pushforward f pa.2.measure) k 0 - dgetD a2.measure k 0| < tol := by
  rw [actionCheck]
  cases ht : dget? target.states (f s1) with
  | none =>
    constructor
    · intro h; exact absurd h (by simp)
    · rintro ⟨t2, ht2, -⟩
      exact absurd ht2 (by simp)
  | some tacts =>
    cases ha : dget? tacts (g pa.1) with
    | none =>
      constructor
      · intro h
        have h2 : (match dget? tacts (g pa.1) with
            | none => false
            | some a2 => decide (pa.2.reward = a2.reward) &&
                measuresEqual (pushforward f pa.2.measure) a2.measure) = true := h
        rw [ha] at h2
        exact absurd h2 (by simp)
      · rintro ⟨t2, ht2, a2, ha2, -⟩
        cases ht2
        rw [ha] at ha2
        exact absurd ha2 (by simp)
    | some a2 =>
      constructor
      · intro h
        have h4 : (decide (pa.2.reward = a2.reward) &&
            measuresEqual (pushforward f pa.2.measure) a2.measure) = true := by
          have h3 : (match dget? tacts (g pa.1) with
              | none => false
              | some c2 => decide (pa.2.reward = c2.reward) &&
                  measuresEqual (pushforward f pa.2.measure) c2.measure) = true := h
          rw [ha] at h3
          exact h3
        simp only [Bool.and_eq_true, decide_eq_true_eq] at h4
        refine ⟨tacts, rfl, a2, ha, h4.1, ?_⟩
        have h2 := h4.2
        rw [measuresEqual, List.all_eq_true] at h2
        intro k hk
        simpa using h2 k hk
      · rintro ⟨t2, ht2, b2, hb2, hr, hm⟩
        cases ht2
        rw [ha] at hb2
        cases hb2
        show (match dget? tacts (g pa.1) with
            | none => false
            | some c2 => decide (pa.2.reward = c2.reward) &&
                measuresEqual (pushforward f pa.2.measure) c2.measure) = true
        rw [ha]
        show (decide (pa.2.reward = a2.reward) &&
            measuresEqual (pushforward f pa.2.measure) a2.measure) = true
        simp only [Bool.and_eq_true, decide_eq_true_eq]
        refine ⟨hr, ?_⟩
        rw [measuresEqual, List.all_eq_true]
        intro k hk
        simpa using hm k hk

/-- The validity condition of claim C7, stated logically: for every source
action, the mapped action exists at the mapped state, rewards agree
exactly, and the pushforward of the measure agrees with the mapped
measure within the absolute tolerance at every label of the union of
their key sets. -/
def ValidCond (source target : MDP) (f g : PyVal → PyVal) : Prop :=
  ∀ ps ∈ source.states, ∀ pa ∈ ps.2,
    ∃ tacts, dget? target.states (f ps.1) = some tacts ∧
      ∃ a2, dget? tacts (g pa.1) = some a2 ∧
        pa.2.reward = a2.reward ∧
        ∀ k ∈ dkeys (pushforward f pa.2.measure) ++ dkeys a2.measure,
          |dgetD (pushforward f pa.2.measure) k 0 - dgetD a2.measure k 0| < tol

/-- Well-formedness every model built from a Python dict description has:
state labels are unique, each state's action labels are unique, and each
measure's keys are unique. -/
def MDP.NodupKeys (M : MDP) : Prop :=
  (dkeys M.states).Nodup ∧
    ∀ ps ∈ M.states, (dkeys ps.2).Nodup ∧ ∀ pa ∈ ps.2, (dkeys pa.2.measure).Nodup

instance (M : MDP) : Decidable M.NodupKeys := by
  unfold MDP.NodupKeys
  infer_instance

/-- C7: `is_valid` returns True exactly when every source action maps to
an existing action of equal reward whose measure matches the pushforward
within tolerance 1e-6 on the union of key sets (a failed lookup gives
False, not an exception), and the identity morphism from any model with
dict-unique keys to itself is valid. -/
theorem C7_exact_morphism_check :
    (∀ (source target : MDP) (f g : PyVal → PyVal),
      isValid source target f g = true ↔ ValidCond source target f g) ∧
    (∀ M : MDP, M.NodupKeys → isValid M M id id = true) := by
  have hiff : ∀ (source target : MDP) (f g : PyVal → PyVal),
      isValid source target f g = true ↔ ValidCond source target f g := by
    intro source target f g
    rw [isValid, List.all_eq_true, ValidCond]
    constructor
    · intro h ps hps pa hpa
      have h2 := h ps hps
      rw [List.all_eq_true] at h2
      exact (actionCheck_iff target f g ps.1 pa).1 (h2 pa hpa)
    · intro h ps hps
      rw [List.all_eq_true]
      intro pa hpa
      exact (actionCheck_iff target f g ps.1 pa).2 (h ps hps pa hpa)
  refine ⟨hiff, ?_⟩
  intro M hM
  rw [hiff]
  intro ps hps pa hpa
  refine ⟨ps.2, by rw [id_eq]; exact dget?_of_mem_nodup hM.1 (by
      rcases ps with ⟨k, v⟩; exact hps), ?_⟩
  obtain ⟨hnd2, hnd3⟩ := hM.2 ps hps
  refine ⟨pa.2, by rw [id_eq]; exact dget?_of_mem_nodup hnd2 (by
      rcases pa with ⟨k, v⟩; exact hpa), rfl, ?_⟩
  intro k _
  have hpf : dgetD (pushforward id pa.2.measure) k 0 = dgetD pa.2.measure k 0 := by
    rw [pushforward_spec]
    have : (pa.2.measure.filter fun p => id p.1 = k) =
        (pa.2.measure.filter fun p => p.1 = k) := by
      apply List.filter_congr
      intro q _
      rw [id_eq]
    rw [this, filter_sum_of_nodup _ _ (hnd3 pa hpa)]
  rw [hpf, sub_self, abs_zero]
  rw [tol]
  norm_num

/-- Witness for C7: the identity morphism on the two-state path model is
exact-valid. -/
theorem C7_exact_morphism_check_witness :
    isValid ⟨buildStates descEx, PyVal.i 0, [PyVal.i 1]⟩
      ⟨buildStates descEx, PyVal.i 0, [PyVal.i 1]⟩ id id = true :=
  C7_exact_morphism_check.2 ⟨buildStates descEx, PyVal.i 0, [PyVal.i 1]⟩ (by decide)

/-! Generic lemmas about dict comprehensions: a fold of dict assignments
over fresh keys appends the new bindings in iteration order. -/

theorem dget?_append {V : Type} (a b : Dict V) (k : PyVal) :
    dget? (a ++ b) k = ((dget? a k).orElse fun _ => dget? b k) := by
  induction a with
  | nil => rfl
  | cons p ps ih =>
    rw [List.cons_append, dget?_cons, dget?_cons]
    by_cases hp : p.1 = k
    · rw [if_pos hp, if_pos hp]; rfl
    · rw [if_neg hp, if_neg hp, ih]

theorem dmem_append {V : Type} (a b : Dict V) (k : PyVal) :
    dmem (a ++ b) k = (dmem a k || dmem b k) := by
  rw [dmem, dmem, dmem, dget?_append]
  cases dget? a k <;> rfl

theorem foldl_dset_eq_append {V : Type} (l : List (PyVal × V)) (acc : Dict V)
    (hnd : (dkeys l).Nodup) (hdisj : ∀ k ∈ dkeys l, ¬ dmem acc k) :
    l.foldl (fun a q => dset a q.1 q.2) acc = acc ++ l := by
  induction l generalizing acc with
  | nil => simp
  | cons p ps ih =>
    rw [dkeys_cons, List.nodup_cons] at hnd
    rw [List.foldl_cons]
    have hp : ¬ dmem acc p.1 := hdisj p.1 (by rw [dkeys_cons]; exact List.mem_cons_self _ _)
    rw [dset, if_neg hp, ih _ hnd.2]
    · rw [List.append_assoc]; rfl
    · intro k hk
      rw [dmem_append]
      have h1 : ¬ dmem acc k = true :=
        hdisj k (by rw [dkeys_cons]; exact List.mem_cons.2 (Or.inr hk))
      have h2 : ¬ dmem [(p.1, p.2)] k = true := by
        rw [dmem, dget?_cons, if_neg (fun hh => hnd.1 (by rw [hh]; exact hk))]
        simp [dget?]
      simp only [Bool.or_eq_true]
      rintro (h | h)
      · exact h1 h
      · exact h2 h

/-- A dict comprehension over a list with distinct fresh keys is the list
of its bindings in iteration order. -/
theorem foldl_dset_eq_self {V : Type} (l : List (PyVal × V))
    (hnd : (dkeys l).Nodup) :
    l.foldl (fun a q => dset a q.1 q.2) [] = l := by
  rw [foldl_dset_eq_append l [] hnd (by intro k _; rw [dmem, dget?]; simp)]
  rfl

theorem dget?_mapVal {V W : Type} (d : Dict V) (f : V → W) (k : PyVal) :
    dget? (d.map (fun p => (p.1, f p.2))) k = (dget? d k).map f := by
  induction d with
  | nil => rfl
  | cons p ps ih =>
    rw [List.map_cons, dget?_cons, dget?_cons]
    by_cases hp : p.1 = k
    · rw [if_pos hp, if_pos hp]; rfl
    · rw [if_neg hp, if_neg hp, ih]

theorem dkeys_mapVal {V W : Type} (d : Dict V) (f : V → W) :
    dkeys (d.map (fun p => (p.1, f p.2))) = dkeys d := by
  rw [dkeys, dkeys, List.map_map]
  rfl

/-- Resolution of one state's action descriptions, the inner loop of
`MDP.__init__`. -/
def resolveActs (acts : Dict ActionDesc) : StateActs :=
  acts.foldl (fun sa q => dset sa q.1 (resolveAction q.2)) []

theorem resolveActs_eq_map (acts : Dict ActionDesc)
    (hnd : (dkeys acts).Nodup) :
    resolveActs acts = acts.map (fun q => (q.1, resolveAction q.2)) := by
  have h1 : resolveActs acts =
      (acts.map (fun q => (q.1, resolveAction q.2))).foldl
        (fun a q => dset a q.1 q.2) [] := by
    rw [List.foldl_map]
    rfl
  rw [h1]
  exact foldl_dset_eq_self _ (by rw [dkeys_mapVal]; exact hnd)

theorem buildStates_eq_map (desc : Desc) (hnd : (dkeys desc).Nodup) :
    buildStates desc = desc.map (fun p => (p.1, resolveActs p.2)) := by
  have h1 : buildStates desc =
      (desc.map (fun p => (p.1, resolveActs p.2))).foldl
        (fun a q => dset a q.1 q.2) [] := by
    rw [List.foldl_map]
    rfl
  rw [h1]
  exact foldl_dset_eq_self _ (by rw [dkeys_mapVal]; exact hnd)

theorem buildStates_get (desc : Desc) (hnd : (dkeys desc).Nodup) (k : PyVal) :
    dget? (buildStates desc) k = (dget? desc k).map resolveActs := by
  rw [buildStates_eq_map desc hnd, dget?_mapVal]

/-! Embedding of the Product Engine: box_product.py (a working binary box
product) and products.py (whose measure code reads a label attribute off
plain measure keys and therefore raises). -/

/-- String a Python f-string produces for a label; action labels in this
repository are strings, for which formatting is the identity. -/
def pyFormat : PyVal → String
  | .s t => t
  | .i n => toString n
  | .pr a b => "(" ++ pyFormat a ++ ", " ++ pyFormat b ++ ")"

/-- Embedding of labels_postfix: an empty operand name contributes no
suffix, otherwise a dash and the name. -/
def labelsDash (l : String) : String := if l = "" then "" else "-" ++ l

/-- Origin of a binding of a dict assignment. -/
theorem mem_dset {V : Type} {d : Dict V} {k : PyVal} {v : V} {p : PyVal × V}
    (h : p ∈ dset d k v) : p ∈ d ∨ p = (k, v) := by
  rw [dset] at h
  by_cases hm : dmem d k
  · rw [if_pos hm] at h
    rcases List.mem_map.1 h with ⟨q, hq, hqe⟩
    by_cases hqk : q.1 = k
    · rw [if_pos hqk] at hqe
      exact Or.inr hqe.symm
    · rw [if_neg hqk] at hqe
      exact Or.inl (hqe ▸ hq)
  · rw [if_neg hm] at h
    rcases List.mem_append.1 h with h1 | h1
    · exact Or.inl h1
    · exact Or.inr (List.mem_singleton.1 h1)

/-- Origin of a binding of a dict comprehension: it is one of the
inserted pairs or a binding of the initial dict. -/
theorem mem_foldl_dset {V : Type} (l : List (PyVal × V)) (acc : Dict V)
    {p : PyVal × V} (h : p ∈ l.foldl (fun a q => dset a q.1 q.2) acc) :
    p ∈ acc ∨ p ∈ l := by
  induction l generalizing acc with
  | nil => exact Or.inl h
  | cons q qs ih =>
    rw [List.foldl_cons] at h
    rcases ih _ h with h1 | h1
    · rcases mem_dset h1 with h2 | h2
      · exact Or.inl h2
      · exact Or.inr (List.mem_cons.2 (Or.inl h2))
    · exact Or.inr (List.mem_cons.2 (Or.inr h1))

/-- Embedding of _bp_action_data of box_product.py at index 0: each
action of the first component keeps its reward, is suffixed with the
first operand name, and its measure keys k become the pairs
(k, second-component label) (switch_states is the identity at index 0). -/
def bpData0 (acts : StateActs) (l0 : String) (tLabel : PyVal) : Dict ActionDesc :=
  acts.foldl (fun acc pa =>
    dset acc (PyVal.s (pyFormat pa.1 ++ labelsDash l0))
      (ActionDesc.withReward
        (pa.2.measure.foldl (fun mm p => dset mm (PyVal.pr p.1 tLabel) p.2) [])
        pa.2.reward)) []

/-- Embedding of _bp_action_data of box_product.py at index 1: each
action of the second component keeps its reward, is suffixed with the
second operand name, and its measure keys k become the pairs
(first-component label, k) (switch_states reverses at index 1). -/
def bpData1 (acts : StateActs) (l1 : String) (sLabel : PyVal) : Dict ActionDesc :=
  acts.foldl (fun acc pa =>
    dset acc (PyVal.s (pyFormat pa.1 ++ labelsDash l1))
      (ActionDesc.withReward
        (pa.2.measure.foldl (fun mm p => dset mm (PyVal.pr sLabel p.1) p.2) [])
        pa.2.reward)) []

/-- Python dict union d1 | d2: bindings of the second override and extend
those of the first. -/
def dunion {V : Type} (d1 d2 : Dict V) : Dict V :=
  d2.foldl (fun a p => dset a p.1 p.2) d1

/-- Embedding of box_product of box_product.py: the description maps each
pair of component states to the union of the two suffixed action sets,
index 0 from the first component and index 1 from the second. -/
def boxDesc (M1 M2 : MDP) (l0 l1 : String) : Desc :=
  M1.states.foldl (fun acc p1 =>
    M2.states.foldl (fun acc2 p2 =>
      dset acc2 (PyVal.pr p1.1 p2.1)
        (dunion (bpData0 p1.2 l0 p2.1) (bpData1 p2.2 l1 p1.1))) acc) []

/-- Embedding of box_product of box_product.py including the final MDP
construction. -/
def boxProductPy (M1 M2 : MDP) (l0 l1 : String) : Option MDP :=
  MDP.ofDesc (boxDesc M1 M2 l0 l1)

/-- Attribute read v.label as products.py performs it on measure keys: a
measure key is a plain label (an int, a string or a tuple), none of which
carries a label attribute, so the read raises AttributeError (only State
objects carry the attribute, and measure keys of a model built from a
description are labels, which Action.transition and reachable_states rely
on when indexing mdp.states with them). -/
def labelAttr (_ : PyVal) : Option PyVal := none

/-- Embedding of product_measure of products.py as written: the key
expression reads s1.label and s2.label off the measure keys, so the
comprehension raises as soon as its body runs, i.e. whenever both
measures are non-empty. -/
def product_measure (m1 m2 : Dict ℚ) : Option (Dict ℚ) :=
  m1.foldl (fun acc p1 =>
    m2.foldl (fun acc2 p2 => do
      let a ← acc2
      let k1 ← labelAttr p1.1
      let k2 ← labelAttr p2.1
      pure (dset a (PyVal.pr k1 k2) ((p1.2 + p2.2) / 2))) acc) (some [])

/-- Embedding of _cartesian_product of products.py as written: for each
pair of component states, one action per pair of component actions,
labelled by the separator-joined action labels, with measures from
product_measure; the built description feeds MDP.__init__. -/
def cartesianDescPy (M1 M2 : MDP) (sep : String) : Option Desc :=
  M1.states.foldl (fun acc p1 =>
    M2.states.foldl (fun acc2 p2 => do
      let a ← acc2
      let ad ← p1.2.foldl (fun ad pa1 =>
        p2.2.foldl (fun ad2 pa2 => do
          let d ← ad2
          let m ← product_measure pa1.2.measure pa2.2.measure
          pure (dset d (PyVal.s (pyFormat pa1.1 ++ sep ++ pyFormat pa2.1))
            (ActionDesc.dist m))) ad) (some [])
      pure (dset a (PyVal.pr p1.1 p2.1) ad)) acc) (some [])

/-- Embedding of _cartesian_product of products.py including the final
MDP construction. -/
def cartesianProductPy (M1 M2 : MDP) (sep : String) : Option MDP := do
  let d ← cartesianDescPy M1 M2 sep
  MDP.ofDesc d

/-- Embedding of _bp_action_data of products.py at index 0 as written:
identical to the box_product.py version except that the measure
comprehension reads s.label off each measure key, failing on any
non-empty measure. -/
def bpDataPy0 (acts : StateActs) (l0 : String) (tLabel : PyVal) :
    Option (Dict ActionDesc) :=
  acts.foldl (fun acc pa => do
    let a ← acc
    let m ← pa.2.measure.foldl (fun mm p => do
        let d ← mm
        let k ← labelAttr p.1
        pure (dset d (PyVal.pr k tLabel) p.2)) (some [])
    pure (dset a (PyVal.s (pyFormat pa.1 ++ labelsDash l0))
      (ActionDesc.withReward m pa.2.reward))) (some [])

/-- Embedding of _bp_action_data of products.py at index 1 as written. -/
def bpDataPy1 (acts : StateActs) (l1 : String) (sLabel : PyVal) :
    Option (Dict ActionDesc) :=
  acts.foldl (fun acc pa => do
    let a ← acc
    let m ← pa.2.measure.foldl (fun mm p => do
        let d ← mm
        let k ← labelAttr p.1
        pure (dset d (PyVal.pr sLabel k) p.2)) (some [])
    pure (dset a (PyVal.s (pyFormat pa.1 ++ labelsDash l1))
      (ActionDesc.withReward m pa.2.reward))) (some [])

/-- Embedding of _box_product of products.py as written (the binary
operator the n-ary box_product of products.py folds over). -/
def boxDescProductsPy (M1 M2 : MDP) (l0 l1 : String) : Option Desc :=
  M1.states.foldl (fun acc p1 =>
    M2.states.foldl (fun acc2 p2 => do
      let a ← acc2
      let d0 ← bpDataPy0 p1.2 l0 p2.1
      let d1 ← bpDataPy1 p2.2 l1 p1.1
      pure (dset a (PyVal.pr p1.1 p2.1) (dunion d0 d1))) acc) (some [])

/-- Embedding of _box_product of products.py including the final MDP
construction. -/
def boxProductProductsPy (M1 M2 : MDP) (l0 l1 : String) : Option MDP := do
  let d ← boxDescProductsPy M1 M2 l0 l1
  MDP.ofDesc d

/-- Measure of the cartesian product as the spec describes it and as
products.py evidently intends it: product_measure with the
label-attribute slip repaired the way box_product.py repairs the same
slip (a measure key already is the label): every pair of targets gets
the averaged weight (w1 + w2) / 2. -/
def product_measure_fixed (m1 m2 : Dict ℚ) : Dict ℚ :=
  m1.foldl (fun acc p1 =>
    m2.foldl (fun acc2 p2 =>
      dset acc2 (PyVal.pr p1.1 p2.1) ((p1.2 + p2.2) / 2)) acc) []

/-- Action dict of one product state of the intended cartesian product:
one action per pair of component actions, labelled with the joined
labels, with the averaged measure; the entries are bare measure dicts,
so rewards resolve to 0. -/
def cartesianActs (sep : String) (acts1 acts2 : StateActs) : Dict ActionDesc :=
  acts1.foldl (fun ad pa1 =>
    acts2.foldl (fun ad2 pa2 =>
      dset ad2 (PyVal.s (pyFormat pa1.1 ++ sep ++ pyFormat pa2.1))
        (ActionDesc.dist
          (product_measure_fixed pa1.2.measure pa2.2.measure))) ad) []

/-- Description of the intended cartesian product (the label slip of
product_measure repaired, everything else as in _cartesian_product). -/
def cartesianDescFixed (M1 M2 : MDP) (sep : String) : Desc :=
  M1.states.foldl (fun acc p1 =>
    M2.states.foldl (fun acc2 p2 =>
      dset acc2 (PyVal.pr p1.1 p2.1) (cartesianActs sep p1.2 p2.2)) acc) []

/-- The two-state path model path_mdp(2) as a concrete input. -/
def mdpP2 : MDP := ⟨buildStates descEx, PyVal.i 0, [PyVal.i 1]⟩

/-! Normal forms of the nested dict comprehensions of the product
builders. -/

theorem dget?_some_mem {V : Type} {d : Dict V} {k : PyVal} {v : V}
    (h : dget? d k = some v) : (k, v) ∈ d := by
  induction d with
  | nil => exact absurd h (by rw [dget?]; simp)
  | cons p ps ih =>
    rw [dget?_cons] at h
    by_cases hp : p.1 = k
    · rw [if_pos hp] at h
      rcases p with ⟨pk, pv⟩
      cases hp
      cases h
      exact List.mem_cons_self _ _
    · rw [if_neg hp] at h
      exact List.mem_cons.2 (Or.inr (ih h))

theorem dkeys_append {V : Type} (a b : Dict V) :
    dkeys (a ++ b) = dkeys a ++ dkeys b := List.map_append _ _ _

theorem PyVal_s_injective : Function.Injective PyVal.s := by
  intro a b h
  injection h

theorem PyVal_pr_left_injective (x : PyVal) :
    Function.Injective (fun y => PyVal.pr x y) := by
  intro a b h
  injection h

/-- A nested dict comprehension whose keys are globally distinct produces
the concatenation of its groups in iteration order. -/
theorem foldl_dset_join {α V : Type} (A : List α) (g : α → List (PyVal × V))
    (acc : Dict V)
    (hnd : (dkeys ((A.map g).flatten)).Nodup)
    (hdisj : ∀ k ∈ dkeys ((A.map g).flatten), ¬ dmem acc k) :
    A.foldl (fun a2 x => (g x).foldl (fun a q => dset a q.1 q.2) a2) acc =
      acc ++ ((A.map g).flatten) := by
  induction A generalizing acc with
  | nil => simp
  | cons x xs ih =>
    rw [List.map_cons, List.flatten_cons, dkeys_append] at hnd hdisj
    rw [List.map_cons, List.flatten_cons, List.foldl_cons]
    have hnd1 : (dkeys (g x)).Nodup := (List.nodup_append.1 hnd).1
    have hnd2 : (dkeys ((xs.map g).flatten)).Nodup := (List.nodup_append.1 hnd).2.1
    have hdisjx : List.Disjoint (dkeys (g x)) (dkeys ((xs.map g).flatten)) :=
      (List.nodup_append.1 hnd).2.2
    rw [foldl_dset_eq_append (g x) acc hnd1
      (fun k hk => hdisj k (List.mem_append.2 (Or.inl hk)))]
    rw [ih (acc ++ g x) hnd2 ?hdd]
    · rw [List.append_assoc]
    case hdd =>
      intro k hk
      rw [dmem_append]
      simp only [Bool.or_eq_true]
      rintro (h | h)
      · exact hdisj k (List.mem_append.2 (Or.inr hk)) h
      · rw [dmem] at h
        cases hd : dget? (g x) k with
        | none => rw [hd] at h; exact absurd h (by simp)
        | some w =>
          have : k ∈ dkeys (g x) := by
            rw [dkeys, List.mem_map]
            exact ⟨(k, w), dget?_some_mem hd, rfl⟩
          exact hdisjx this hk

/-- Keys of the nested product comprehension are distinct when both
component key lists are: the pair constructor is injective. -/
theorem prJoin_keys_nodup {α β V : Type} (A : List (PyVal × α)) (B : List (PyVal × β))
    (val : PyVal × α → PyVal × β → V)
    (hA : (A.map Prod.fst).Nodup) (hB : (B.map Prod.fst).Nodup) :
    (dkeys ((A.map (fun x => B.map (fun y => (PyVal.pr x.1 y.1, val x y)))).flatten)).Nodup := by
  rw [dkeys, List.map_flatten, List.map_map]
  have hinner : ∀ x : PyVal × α,
      (List.map Prod.fst ∘ fun x => B.map fun y => (PyVal.pr x.1 y.1, val x y)) x =
        (B.map Prod.fst).map (fun b => PyVal.pr x.1 b) := by
    intro x
    simp only [Function.comp_apply, List.map_map]
    rfl
  rw [List.nodup_flatten]
  constructor
  · intro l hl
    rcases List.mem_map.1 hl with ⟨x, _, rfl⟩
    rw [hinner x]
    exact hB.map (PyVal_pr_left_injective x.1)
  · have hA2 : List.Pairwise (fun x y : PyVal × α => x.1 ≠ y.1) A :=
      (List.pairwise_map.1 hA)
    refine (List.pairwise_map.2 ?_)
    refine hA2.imp ?_
    intro x y hxy
    rw [hinner x, hinner y]
    intro k hk1 hk2
    rcases List.mem_map.1 hk1 with ⟨b1, _, rfl⟩
    rcases List.mem_map.1 hk2 with ⟨b2, _, he⟩
    injection he with he1 he2
    exact hxy he1.symm

/-- Lookup in a nested pair-keyed dict comprehension. -/
theorem dget?_prDesc {α β V : Type} (A : List (PyVal × α)) (B : List (PyVal × β))
    (val : PyVal × α → PyVal × β → V)
    (hA : (A.map Prod.fst).Nodup) (hB : (B.map Prod.fst).Nodup)
    {a b : PyVal} {x : α} {y : β}
    (ha : dget? A a = some x) (hb : dget? B b = some y) :
    dget? (A.foldl (fun acc p1 => B.foldl (fun acc2 p2 =>
        dset acc2 (PyVal.pr p1.1 p2.1) (val p1 p2)) acc) []) (PyVal.pr a b) =
      some (val (a, x) (b, y)) := by
  have hbody : (fun (acc : Dict V) (p1 : PyVal × α) => B.foldl (fun acc2 p2 =>
      dset acc2 (PyVal.pr p1.1 p2.1) (val p1 p2)) acc) =
      fun acc p1 => ((fun p1 => B.map (fun p2 => (PyVal.pr p1.1 p2.1, val p1 p2))) p1).foldl
        (fun a2 q => dset a2 q.1 q.2) acc := by
    funext acc p1
    rw [List.foldl_map]
  rw [hbody, foldl_dset_join A _ [] (prJoin_keys_nodup A B val hA hB)
    (by intro k _; rw [dmem, dget?]; simp), List.nil_append]
  apply dget?_of_mem_nodup (prJoin_keys_nodup A B val hA hB)
  rw [List.mem_flatten]
  refine ⟨B.map (fun p2 => (PyVal.pr a p2.1, val (a, x) p2)), ?_, ?_⟩
  · rw [List.mem_map]
    exact ⟨(a, x), dget?_some_mem ha, rfl⟩
  · rw [List.mem_map]
    exact ⟨(b, y), dget?_some_mem hb, rfl⟩

/-! Shape of the working binary box product of box_product.py. -/

theorem dmem_iff {V : Type} (d : Dict V) (k : PyVal) :
    dmem d k = true ↔ k ∈ dkeys d := by
  constructor
  · intro h
    by_contra hk
    rw [dmem, (dget?_eq_none d k).2 hk] at h
    exact absurd h (by simp)
  · intro h
    rw [dmem]
    cases hd : dget? d k with
    | none => exact absurd ((dget?_eq_none d k).1 hd) (by simpa using h)
    | some w => rfl

theorem string_append_left_cancel {x y : String} (s : String)
    (h : x ++ s = y ++ s) : x = y := by
  have hd : x.data ++ s.data = y.data ++ s.data := congrArg String.data h
  have h2 : x.data = y.data := List.append_cancel_right hd
  cases x
  cases y
  exact congrArg String.mk h2

theorem dashM1_ne_dashM2 (x y : String) : x ++ "-M1" ≠ y ++ "-M2" := by
  intro h
  have hd : x.data ++ ['-', 'M', '1'] = y.data ++ ['-', 'M', '2'] :=
    congrArg String.data h
  have h1 := congrArg List.getLast? hd
  rw [List.getLast?_append_of_ne_nil _ (List.cons_ne_nil _ _),
    List.getLast?_append_of_ne_nil _ (List.cons_ne_nil _ _)] at h1
  exact absurd h1 (by decide)

theorem bpData0_eq_map (acts : StateActs) (l0 : String) (t : PyVal)
    (hnd : ((dkeys acts).map (fun a => pyFormat a ++ labelsDash l0)).Nodup) :
    bpData0 acts l0 t = acts.map (fun pa =>
      (PyVal.s (pyFormat pa.1 ++ labelsDash l0),
       ActionDesc.withReward
         (pa.2.measure.foldl (fun mm p => dset mm (PyVal.pr p.1 t) p.2) [])
         pa.2.reward)) := by
  have h1 : bpData0 acts l0 t =
      (acts.map (fun pa =>
        (PyVal.s (pyFormat pa.1 ++ labelsDash l0),
         ActionDesc.withReward
           (pa.2.measure.foldl (fun mm p => dset mm (PyVal.pr p.1 t) p.2) [])
           pa.2.reward))).foldl (fun a q => dset a q.1 q.2) [] := by
    rw [List.foldl_map]
    rfl
  rw [h1]
  apply foldl_dset_eq_self
  have h2 : dkeys (acts.map (fun pa =>
      (PyVal.s (pyFormat pa.1 ++ labelsDash l0),
       ActionDesc.withReward
         (pa.2.measure.foldl (fun mm p => dset mm (PyVal.pr p.1 t) p.2) [])
         pa.2.reward))) =
      ((dkeys acts).map (fun a => pyFormat a ++ labelsDash l0)).map PyVal.s := by
    rw [dkeys, List.map_map, dkeys, List.map_map, List.map_map]
    rfl
  rw [h2]
  exact List.Nodup.map PyVal_s_injective hnd

theorem bpData1_eq_map (acts : StateActs) (l1 : String) (s0 : PyVal)
    (hnd : ((dkeys acts).map (fun a => pyFormat a ++ labelsDash l1)).Nodup) :
    bpData1 acts l1 s0 = acts.map (fun pa =>
      (PyVal.s (pyFormat pa.1 ++ labelsDash l1),
       ActionDesc.withReward
         (pa.2.measure.foldl (fun mm p => dset mm (PyVal.pr s0 p.1) p.2) [])
         pa.2.reward)) := by
  have h1 : bpData1 acts l1 s0 =
      (acts.map (fun pa =>
        (PyVal.s (pyFormat pa.1 ++ labelsDash l1),
         ActionDesc.withReward
           (pa.2.measure.foldl (fun mm p => dset mm (PyVal.pr s0 p.1) p.2) [])
           pa.2.reward))).foldl (fun a q => dset a q.1 q.2) [] := by
    rw [List.foldl_map]
    rfl
  rw [h1]
  apply foldl_dset_eq_self
  have h2 : dkeys (acts.map (fun pa =>
      (PyVal.s (pyFormat pa.1 ++ labelsDash l1),
       ActionDesc.withReward
         (pa.2.measure.foldl (fun mm p => dset mm (PyVal.pr s0 p.1) p.2) [])
         pa.2.reward))) =
      ((dkeys acts).map (fun a => pyFormat a ++ labelsDash l1)).map PyVal.s := by
    rw [dkeys, List.map_map, dkeys, List.map_map, List.map_map]
    rfl
  rw [h2]
  exact List.Nodup.map PyVal_s_injective hnd

theorem dunion_eq_append {V : Type} (d1 d2 : Dict V)
    (hnd : (dkeys d2).Nodup)
    (hdisj : ∀ k ∈ dkeys d2, ¬ dmem d1 k) :
    dunion d1 d2 = d1 ++ d2 := by
  rw [dunion]
  exact foldl_dset_eq_append d2 d1 hnd hdisj

/-- C4: the box product exported by products.py raises on real models
(its _bp_action_data reads a label attribute off plain measure keys),
shown at two copies of path_mdp(2); the binary box product of
box_product.py has the claimed shape: at each product state one action
per component action carrying the operand-name suffix, reward copied
unchanged from the source action, and every transition moving only the
acting component's coordinate while the other coordinate keeps the
current state's label. -/
theorem C4_box_product_shape :
    boxProductProductsPy mdpP2 mdpP2 "M1" "M2" = none ∧
    ∀ (M1 M2 : MDP) (a b : PyVal) (acts1 acts2 : StateActs),
      (dkeys M1.states).Nodup → (dkeys M2.states).Nodup →
      dget? M1.states a = some acts1 → dget? M2.states b = some acts2 →
      ((dkeys acts1).map pyFormat).Nodup → ((dkeys acts2).map pyFormat).Nodup →
      ∃ entry, dget? (boxDesc M1 M2 "M1" "M2") (PyVal.pr a b) = some entry ∧
        entry.length = acts1.length + acts2.length ∧
        ∀ p ∈ entry,
          (∃ pa ∈ acts1, p.1 = PyVal.s (pyFormat pa.1 ++ "-M1") ∧
            ∃ m, p.2 = ActionDesc.withReward m pa.2.reward ∧
              ∀ q ∈ m, ∃ t w, q = (PyVal.pr t b, w) ∧ (t, w) ∈ pa.2.measure) ∨
          (∃ pa ∈ acts2, p.1 = PyVal.s (pyFormat pa.1 ++ "-M2") ∧
            ∃ m, p.2 = ActionDesc.withReward m pa.2.reward ∧
              ∀ q ∈ m, ∃ t w, q = (PyVal.pr a t, w) ∧ (t, w) ∈ pa.2.measure) := by
  constructor
  · rfl
  intro M1 M2 a b acts1 acts2 hnd1 hnd2 ha hb hfmt1 hfmt2
  have hdash1 : labelsDash "M1" = "-M1" := rfl
  have hdash2 : labelsDash "M2" = "-M2" := rfl
  have hsuf1 : ((dkeys acts1).map (fun x => pyFormat x ++ labelsDash "M1")).Nodup := by
    have : ((dkeys acts1).map (fun x => pyFormat x ++ labelsDash "M1")) =
        ((dkeys acts1).map pyFormat).map (fun x => x ++ "-M1") := by
      rw [List.map_map, hdash1]
      rfl
    rw [this]
    exact List.Nodup.map (fun x y h => string_append_left_cancel _ h) hfmt1
  have hsuf2 : ((dkeys acts2).map (fun x => pyFormat x ++ labelsDash "M2")).Nodup := by
    have : ((dkeys acts2).map (fun x => pyFormat x ++ labelsDash "M2")) =
        ((dkeys acts2).map pyFormat).map (fun x => x ++ "-M2") := by
      rw [List.map_map, hdash2]
      rfl
    rw [this]
    exact List.Nodup.map (fun x y h => string_append_left_cancel _ h) hfmt2
  have hb0 := bpData0_eq_map acts1 "M1" b hsuf1
  have hb1 := bpData1_eq_map acts2 "M2" a hsuf2
  have hkeys0 : dkeys (bpData0 acts1 "M1" b) =
      (dkeys acts1).map (fun x => PyVal.s (pyFormat x ++ labelsDash "M1")) := by
    rw [hb0, dkeys, List.map_map, dkeys, List.map_map]
    rfl
  have hkeys1 : dkeys (bpData1 acts2 "M2" a) =
      (dkeys acts2).map (fun x => PyVal.s (pyFormat x ++ labelsDash "M2")) := by
    rw [hb1, dkeys, List.map_map, dkeys, List.map_map]
    rfl
  have hdisj : ∀ k ∈ dkeys (bpData1 acts2 "M2" a), ¬ dmem (bpData0 acts1 "M1" b) k := by
    intro k hk hmem
    rw [dmem_iff, hkeys0] at hmem
    rw [hkeys1] at hk
    rcases List.mem_map.1 hk with ⟨x2, _, rfl⟩
    rcases List.mem_map.1 hmem with ⟨x1, _, he⟩
    have : pyFormat x1 ++ labelsDash "M1" = pyFormat x2 ++ labelsDash "M2" :=
      PyVal_s_injective he
    rw [hdash1, hdash2] at this
    exact dashM1_ne_dashM2 _ _ this
  have hkeynd1 : (dkeys (bpData1 acts2 "M2" a)).Nodup := by
    rw [hkeys1, show ((dkeys acts2).map (fun x => PyVal.s (pyFormat x ++ labelsDash "M2"))) =
        (((dkeys acts2).map (fun x => pyFormat x ++ labelsDash "M2")).map PyVal.s) from by
      rw [List.map_map]; rfl]
    exact List.Nodup.map PyVal_s_injective hsuf2
  have hentry : dget? (boxDesc M1 M2 "M1" "M2") (PyVal.pr a b) =
      some (dunion (bpData0 acts1 "M1" b) (bpData1 acts2 "M2" a)) :=
    dget?_prDesc M1.states M2.states
      (fun p1 p2 => dunion (bpData0 p1.2 "M1" p2.1) (bpData1 p2.2 "M2" p1.1))
      hnd1 hnd2 ha hb
  have happ : dunion (bpData0 acts1 "M1" b) (bpData1 acts2 "M2" a) =
      bpData0 acts1 "M1" b ++ bpData1 acts2 "M2" a :=
    dunion_eq_append _ _ hkeynd1 hdisj
  refine ⟨_, hentry, ?_, ?_⟩
  · rw [happ, List.length_append, hb0, hb1, List.length_map, List.length_map]
  · intro p hp
    rw [happ] at hp
    rcases List.mem_append.1 hp with hp1 | hp1
    · rw [hb0] at hp1
      rcases List.mem_map.1 hp1 with ⟨pa, hpa, rfl⟩
      refine Or.inl ⟨pa, hpa, by rw [hdash1], _, rfl, ?_⟩
      intro q hq
      have hfold : pa.2.measure.foldl (fun mm p => dset mm (PyVal.pr p.1 b) p.2) [] =
          (pa.2.measure.map (fun p => (PyVal.pr p.1 b, p.2))).foldl
            (fun a2 q2 => dset a2 q2.1 q2.2) [] := by
        rw [List.foldl_map]
      rw [hfold] at hq
      rcases mem_foldl_dset _ _ hq with h0 | h0
      · exact absurd h0 (List.not_mem_nil _)
      · rcases List.mem_map.1 h0 with ⟨r, hr, rfl⟩
        exact ⟨r.1, r.2, rfl, by simpa using hr⟩
    · rw [hb1] at hp1
      rcases List.mem_map.1 hp1 with ⟨pa, hpa, rfl⟩
      refine Or.inr ⟨pa, hpa, by rw [hdash2], _, rfl, ?_⟩
      intro q hq
      have hfold : pa.2.measure.foldl (fun mm p => dset mm (PyVal.pr a p.1) p.2) [] =
          (pa.2.measure.map (fun p => (PyVal.pr a p.1, p.2))).foldl
            (fun a2 q2 => dset a2 q2.1 q2.2) [] := by
        rw [List.foldl_map]
      rw [hfold] at hq
      rcases mem_foldl_dset _ _ hq with h0 | h0
      · exact absurd h0 (List.not_mem_nil _)
      · rcases List.mem_map.1 h0 with ⟨r, hr, rfl⟩
        exact ⟨r.1, r.2, rfl, by simpa using hr⟩

/-- Witness for the general part of C4 at path_mdp(2) boxed with itself:
the corner state (0, 0) has one action from each side. -/
theorem C4_box_product_shape_witness :
    ∃ entry, dget? (boxDesc mdpP2 mdpP2 "M1" "M2")
        (PyVal.pr (PyVal.i 0) (PyVal.i 0)) = some entry ∧
      entry.length = 1 + 1 ∧
      ∀ p ∈ entry,
        (∃ pa ∈ [((PyVal.s "next" : PyVal), ActionData.mk [(PyVal.i 1, 1)] 0)],
            p.1 = PyVal.s (pyFormat pa.1 ++ "-M1") ∧
          ∃ m, p.2 = ActionDesc.withReward m pa.2.reward ∧
            ∀ q ∈ m, ∃ t w, q = (PyVal.pr t (PyVal.i 0), w) ∧ (t, w) ∈ pa.2.measure) ∨
        (∃ pa ∈ [((PyVal.s "next" : PyVal), ActionData.mk [(PyVal.i 1, 1)] 0)],
            p.1 = PyVal.s (pyFormat pa.1 ++ "-M2") ∧
          ∃ m, p.2 = ActionDesc.withReward m pa.2.reward ∧
            ∀ q ∈ m, ∃ t w, q = (PyVal.pr (PyVal.i 0) t, w) ∧ (t, w) ∈ pa.2.measure) := by
  have h := C4_box_product_shape.2 mdpP2 mdpP2 (PyVal.i 0) (PyVal.i 0)
    [((PyVal.s "next" : PyVal), ActionData.mk [(PyVal.i 1, 1)] 0)]
    [((PyVal.s "next" : PyVal), ActionData.mk [(PyVal.i 1, 1)] 0)]
    (by decide) (by decide) (by decide) (by decide) (by decide) (by decide)
  rcases h with ⟨entry, h1, h2, h3⟩
  exact ⟨entry, h1, h2, h3⟩

/-! Shape of the intended cartesian product. -/

/-- A nested dict comprehension with globally distinct keys is the
flattening of its groups. -/
theorem nested_desc_eq_flatten {α β V : Type} (A : List α) (B : List β)
    (key : α → β → PyVal) (val : α → β → V)
    (hnd : (dkeys ((A.map (fun x => B.map (fun y => (key x y, val x y)))).flatten)).Nodup) :
    A.foldl (fun acc x => B.foldl (fun acc2 y => dset acc2 (key x y) (val x y)) acc) [] =
      (A.map (fun x => B.map (fun y => (key x y, val x y)))).flatten := by
  have hbody : (fun (acc : Dict V) (x : α) => B.foldl (fun acc2 y =>
      dset acc2 (key x y) (val x y)) acc) =
      fun acc x => ((fun x => B.map (fun y => (key x y, val x y))) x).foldl
        (fun a2 q => dset a2 q.1 q.2) acc := by
    funext acc x
    rw [List.foldl_map]
  rw [hbody, foldl_dset_join A _ [] hnd (by intro k _; rw [dmem, dget?]; simp),
    List.nil_append]

theorem length_flatten_const {α β γ : Type} (A : List α) (B : List β) (g : α → β → γ) :
    ((A.map (fun x => B.map (fun y => g x y))).flatten).length = A.length * B.length := by
  induction A with
  | nil => simp
  | cons x xs ih =>
    rw [List.map_cons, List.flatten_cons, List.length_append, List.length_map, ih,
      List.length_cons, Nat.succ_mul, Nat.add_comm]

/-- The separator-joined action labels of all pairs of component actions,
in the iteration order of the cartesian comprehension. -/
def joinedLabels (acts1 acts2 : StateActs) (sep : String) : List PyVal :=
  (acts1.map (fun pa1 => acts2.map (fun pa2 =>
    PyVal.s (pyFormat pa1.1 ++ sep ++ pyFormat pa2.1)))).flatten

/-- C3: the cartesian product of products.py raises on real models
(product_measure reads a label attribute off plain measure keys), shown
at two copies of path_mdp(2); the intended construction (that one slip
repaired) has the claimed shape: one action per pair of component
actions, labelled by the separator-joined component labels, whose
measure assigns to every pair of component targets the averaged weight
(w1 + w2) / 2. -/
theorem C3_cartesian_product_shape :
    cartesianProductPy mdpP2 mdpP2 "-" = none ∧
    ∀ (M1 M2 : MDP) (sep : String) (a b : PyVal) (acts1 acts2 : StateActs),
      M1.NodupKeys → M2.NodupKeys →
      dget? M1.states a = some acts1 → dget? M2.states b = some acts2 →
      (joinedLabels acts1 acts2 sep).Nodup →
      ∃ entry, dget? (cartesianDescFixed M1 M2 sep) (PyVal.pr a b) = some entry ∧
        entry.length = acts1.length * acts2.length ∧
        (∀ pa1 ∈ acts1, ∀ pa2 ∈ acts2,
          dget? entry (PyVal.s (pyFormat pa1.1 ++ sep ++ pyFormat pa2.1)) =
            some (ActionDesc.dist
              (product_measure_fixed pa1.2.measure pa2.2.measure))) ∧
        (∀ pa1 ∈ acts1, ∀ pa2 ∈ acts2, ∀ t1 w1 t2 w2,
          dget? pa1.2.measure t1 = some w1 → dget? pa2.2.measure t2 = some w2 →
          dget? (product_measure_fixed pa1.2.measure pa2.2.measure)
            (PyVal.pr t1 t2) = some ((w1 + w2) / 2)) := by
  constructor
  · rfl
  intro M1 M2 sep a b acts1 acts2 hn1 hn2 ha hb hlab
  have hentry : dget? (cartesianDescFixed M1 M2 sep) (PyVal.pr a b) =
      some (cartesianActs sep acts1 acts2) :=
    dget?_prDesc M1.states M2.states
      (fun p1 p2 => cartesianActs sep p1.2 p2.2)
      hn1.1 hn2.1 ha hb
  have hkeysflat : dkeys ((acts1.map (fun pa1 => acts2.map (fun pa2 =>
      (PyVal.s (pyFormat pa1.1 ++ sep ++ pyFormat pa2.1),
       ActionDesc.dist
         (product_measure_fixed pa1.2.measure pa2.2.measure))))).flatten) =
      joinedLabels acts1 acts2 sep := by
    rw [dkeys, List.map_flatten, List.map_map, joinedLabels]
    congr 1
    apply List.map_congr_left
    intro pa1 _
    simp only [Function.comp_apply, List.map_map]
    rfl
  have hflat : cartesianActs sep acts1 acts2 =
      (acts1.map (fun pa1 => acts2.map (fun pa2 =>
        (PyVal.s (pyFormat pa1.1 ++ sep ++ pyFormat pa2.1),
         ActionDesc.dist
           (product_measure_fixed pa1.2.measure pa2.2.measure))))).flatten :=
    nested_desc_eq_flatten acts1 acts2
      (fun pa1 pa2 => PyVal.s (pyFormat pa1.1 ++ sep ++ pyFormat pa2.1))
      (fun pa1 pa2 => ActionDesc.dist
        (product_measure_fixed pa1.2.measure pa2.2.measure))
      (by rw [hkeysflat]; exact hlab)
  refine ⟨_, hentry, ?_, ?_, ?_⟩
  · rw [hflat]
    exact length_flatten_const acts1 acts2 _
  · intro pa1 hpa1 pa2 hpa2
    rw [hflat]
    apply dget?_of_mem_nodup (by rw [hkeysflat]; exact hlab)
    rw [List.mem_flatten]
    refine ⟨acts2.map (fun p2 =>
      (PyVal.s (pyFormat pa1.1 ++ sep ++ pyFormat p2.1),
       ActionDesc.dist (product_measure_fixed pa1.2.measure p2.2.measure))), ?_, ?_⟩
    · rw [List.mem_map]
      exact ⟨pa1, hpa1, rfl⟩
    · rw [List.mem_map]
      exact ⟨pa2, hpa2, rfl⟩
  · intro pa1 hpa1 pa2 hpa2 t1 w1 t2 w2 ht1 ht2
    have hm1 : (dkeys pa1.2.measure).Nodup :=
      ((hn1.2 (a, acts1) (dget?_some_mem ha)).2 pa1 hpa1)
    have hm2 : (dkeys pa2.2.measure).Nodup :=
      ((hn2.2 (b, acts2) (dget?_some_mem hb)).2 pa2 hpa2)
    exact dget?_prDesc pa1.2.measure pa2.2.measure
      (fun p1 p2 => (p1.2 + p2.2) / 2) hm1 hm2 ht1 ht2

/-- Witness for the general part of C3 at path_mdp(2) squared, state
(0, 0). -/
theorem C3_cartesian_product_shape_witness :
    ∃ entry, dget? (cartesianDescFixed mdpP2 mdpP2 "-")
        (PyVal.pr (PyVal.i 0) (PyVal.i 0)) = some entry ∧
      entry.length = 1 * 1 ∧
      (∀ pa1 ∈ [((PyVal.s "next" : PyVal), ActionData.mk [(PyVal.i 1, 1)] 0)],
        ∀ pa2 ∈ [((PyVal.s "next" : PyVal), ActionData.mk [(PyVal.i 1, 1)] 0)],
        dget? entry (PyVal.s (pyFormat pa1.1 ++ "-" ++ pyFormat pa2.1)) =
          some (ActionDesc.dist
            (product_measure_fixed pa1.2.measure pa2.2.measure))) ∧
      (∀ pa1 ∈ [((PyVal.s "next" : PyVal), ActionData.mk [(PyVal.i 1, 1)] 0)],
        ∀ pa2 ∈ [((PyVal.s "next" : PyVal), ActionData.mk [(PyVal.i 1, 1)] 0)],
        ∀ t1 w1 t2 w2,
        dget? pa1.2.measure t1 = some w1 → dget? pa2.2.measure t2 = some w2 →
        dget? (product_measure_fixed pa1.2.measure pa2.2.measure)
          (PyVal.pr t1 t2) = some ((w1 + w2) / 2)) :=
  C3_cartesian_product_shape.2 mdpP2 mdpP2 "-" (PyVal.i 0) (PyVal.i 0)
    [((PyVal.s "next" : PyVal), ActionData.mk [(PyVal.i 1, 1)] 0)]
    [((PyVal.s "next" : PyVal), ActionData.mk [(PyVal.i 1, 1)] 0)]
    (by decide) (by decide) (by decide) (by decide) (by decide)

/-! Embedding of the Bisimulation Engine of ctmdp/quotient.py. -/

instance : Inhabited PyVal := ⟨PyVal.i 0⟩

/-- One step of filling a keyed group table: the element is appended to
the group of its key, a fresh key opening a new group at the end, exactly
as assignment into a defaultdict does. -/
def insertGroup {α κ : Type} [DecidableEq κ] (key : α → κ)
    (gs : List (κ × List α)) (x : α) : List (κ × List α) :=
  match gs with
  | [] => [(key x, [x])]
  | g :: rest =>
    if g.1 = key x then (g.1, g.2 ++ [x]) :: rest
    else g :: insertGroup key rest x

/-- The keyed group table of a list, filled in iteration order. -/
def groupPairs {α κ : Type} [DecidableEq κ] (key : α → κ) (l : List α) :
    List (κ × List α) :=
  l.foldl (insertGroup key) []

/-- Grouping of a list by a key function, as a defaultdict of sets is
filled in iteration order: groups appear in first-occurrence order of
their key and keep member order. -/
def groupByKey {α κ : Type} [DecidableEq κ] (key : α → κ) (l : List α) :
    List (List α) :=
  (groupPairs key l).map Prod.snd

/-- Action-set signature of the initial partition: Python groups states
by the sorted tuple of their action labels, which for the distinct keys
of a dict carries exactly the same information as the label set. -/
def actionKey (M : Dict StateActs) (s : PyVal) : Finset PyVal :=
  (dkeys (dgetD M s [])).toFinset

/-- The initial partition of bisimulation_partition_refinement: states
grouped by their action-label sets, in iteration order. -/
def initialPartition (M : Dict StateActs) : List (List PyVal) :=
  groupByKey (actionKey M) (dkeys M)

/-- Cumulative probability mass an action sends into one block:
sum(prob for (t, prob) in measure if t in blk). -/
def blockMass (measure : Dict ℚ) (blk : List PyVal) : ℚ :=
  ((measure.filter (fun p => p.1 ∈ blk)).map Prod.snd).sum

/-- Transition signature of a state with respect to the current
partition: for each action, the vector of block masses in partition
order; Python sorts the (label, vector) pairs by label, which for the
distinct keys of a dict carries exactly the same information as their
set; reward is computed but omitted, as in the source. -/
def sigKey (M : Dict StateActs) (P : List (List PyVal)) (s : PyVal) :
    Finset (PyVal × List ℚ) :=
  ((dgetD M s []).map (fun pa =>
    (pa.1, P.map (fun blk => blockMass pa.2.measure blk)))).toFinset

/-- Refinement of a single block: states grouped by signature. -/
def refineBlock (M : Dict StateActs) (P : List (List PyVal))
    (b : List PyVal) : List (List PyVal) :=
  groupByKey (sigKey M P) b

/-- One pass of the refinement loop body over the block list (the
partition P supplying the signatures stays fixed): singletons are kept,
a block whose members share one signature is kept, and a block with
several signatures is replaced by its signature groups, setting the
changed flag. -/
def refineList (M : Dict StateActs) (P : List (List PyVal)) :
    List (List PyVal) → List (List PyVal) × Bool
  | [] => ([], false)
  | b :: bs =>
    let rest := refineList M P bs
    if b.length == 1 then (b :: rest.1, rest.2)
    else
      let gs := refineBlock M P b
      if gs.length == 1 then (b :: rest.1, rest.2)
      else (gs ++ rest.1, true)

/-- One round of the outer refinement loop. -/
def refineOnce (M : Dict StateActs) (P : List (List PyVal)) :
    List (List PyVal) × Bool :=
  refineList M P P

/-- The while-changed loop, with fuel (the state count suffices, blocks
only ever split) and a counter of the rounds that produced a split. -/
def refineLoop (M : Dict StateActs) :
    ℕ → List (List PyVal) → ℕ → (List (List PyVal) × ℕ)
  | 0, P, k => (P, k)
  | n + 1, P, k =>
    let pc := refineOnce M P
    if pc.2 then refineLoop M n pc.1 (k + 1) else (pc.1, k)

/-- Embedding of bisimulation_partition_refinement. -/
def bisimPartition (M : Dict StateActs) : List (List PyVal) :=
  (refineLoop M (dkeys M).length (initialPartition M) 0).1

/-- Number of refinement rounds that produced a split. -/
def splitRounds (M : Dict StateActs) : ℕ :=
  (refineLoop M (dkeys M).length (initialPartition M) 0).2

/-- Embedding of the state_to_block mapping (canonical surjection): the
identifier of the block containing a state. -/
def blockIdOf (P : List (List PyVal)) (t : PyVal) : ℕ :=
  P.findIdx (fun b => t ∈ b)

/-- Quotient actions of one block of build_quotient_mdp: the arbitrary
representative is the first member; each of its actions keeps its label;
its per-target weights are accumulated per target block exactly as the
defaultdict loop does (the same get-add-set accumulation as pushforward),
and the reward is then stored under the extra key "reward" inside the
transition dict itself, which MDP.__init__ will read back as a bare
measure entry. -/
def quotientActs (M : Dict StateActs) (P : List (List PyVal))
    (b : List PyVal) : Dict ActionDesc :=
  (dgetD M b.headI []).foldl (fun ad pa =>
    dset ad pa.1 (ActionDesc.dist
      (dset (pushforward (fun t => PyVal.i (blockIdOf P t)) pa.2.measure)
        (PyVal.s "reward") pa.2.reward))) []

/-- Embedding of the quotient description of build_quotient_mdp: one
state per block identifier, in enumeration order. -/
def quotientDesc (M : Dict StateActs) : Desc :=
  (bisimPartition M).enum.foldl (fun acc ib =>
    dset acc (PyVal.i ib.1) (quotientActs M (bisimPartition M) ib.2)) []

/-- Embedding of build_quotient_mdp's final step, MDP(quotient_desc). -/
def quotientMDP (M : Dict StateActs) : Option MDP :=
  MDP.ofDesc (quotientDesc M)

/-- One-state model with a self-loop action of reward 5, a minimal input
exhibiting the quotient reward slip. -/
def descR : Desc :=
  [(PyVal.i 0, [(PyVal.s "go", ActionDesc.withReward [(PyVal.i 0, 1)] 5)])]

/-- C2: evaluation of build_quotient_mdp on the one-state model whose
only action has reward 5: the claim says the quotient action's measure
maps block identifiers to aggregated weights and nothing else and that
its reward equals the representative's reward, but the built quotient
action carries reward 0 and its measure holds the extra binding
("reward", 5), because the transition dict's "reward" key is not the
(measure, reward) tuple shape MDP.__init__ recognizes. -/
theorem C2_quotient_reward_slip :
    quotientMDP (buildStates descR) =
      some ⟨[(PyVal.i 0, [((PyVal.s "go" : PyVal),
        ActionData.mk [(PyVal.i 0, 1), (PyVal.s "reward", 5)] 0)])],
        PyVal.i 0, [PyVal.i 0]⟩ ∧
    dget? (buildStates descR) (PyVal.i 0) =
      some [((PyVal.s "go" : PyVal), ActionData.mk [(PyVal.i 0, 1)] 5)] ∧
    (5 : ℚ) ≠ 0 := by
  refine ⟨by with_unfolding_all decide, by decide, by norm_num⟩

/-! Lemmas about the keyed grouping used by the partition refinement. -/

theorem insertGroup_flatten_perm {α κ : Type} [DecidableEq κ] (key : α → κ)
    (gs : List (κ × List α)) (x : α) :
    List.Perm (((insertGroup key gs x).map Prod.snd).flatten)
      (((gs.map Prod.snd).flatten) ++ [x]) := by
  induction gs with
  | nil => simp [insertGroup]
  | cons g rest ih =>
    rw [insertGroup]
    by_cases hg : g.1 = key x
    · rw [if_pos hg]
      simp only [List.map_cons, List.flatten_cons]
      rw [List.append_assoc, List.append_assoc]
      exact List.Perm.append_left g.2 List.perm_append_comm
    · rw [if_neg hg]
      simp only [List.map_cons, List.flatten_cons]
      have h1 : List.Perm (g.2 ++ ((insertGroup key rest x).map Prod.snd).flatten)
          (g.2 ++ (((rest.map Prod.snd).flatten) ++ [x])) :=
        List.Perm.append_left _ ih
      rw [← List.append_assoc] at h1
      exact h1

theorem groupPairs_flatten_perm {α κ : Type} [DecidableEq κ] (key : α → κ)
    (l : List α) :
    List.Perm (((groupPairs key l).map Prod.snd).flatten) l := by
  suffices H : ∀ acc : List (κ × List α),
      List.Perm (((l.foldl (insertGroup key) acc).map Prod.snd).flatten)
        (((acc.map Prod.snd).flatten) ++ l) by
    simpa using H []
  induction l with
  | nil => intro acc; simp
  | cons x xs ih =>
    intro acc
    rw [List.foldl_cons]
    have h1 := ih (insertGroup key acc x)
    have h2 : List.Perm ((((insertGroup key acc x).map Prod.snd).flatten) ++ xs)
        ((((acc.map Prod.snd).flatten) ++ [x]) ++ xs) :=
      List.Perm.append_right xs (insertGroup_flatten_perm key acc x)
    have h3 := h1.trans h2
    rw [List.append_assoc] at h3
    exact h3

theorem groupByKey_flatten_perm {α κ : Type} [DecidableEq κ] (key : α → κ)
    (l : List α) : List.Perm ((groupByKey key l).flatten) l :=
  groupPairs_flatten_perm key l

/-- Invariant of the group table: groups are non-empty, hold only
elements of their key, and keys are pairwise distinct. -/
def GroupsWF {α κ : Type} (key : α → κ) (gs : List (κ × List α)) : Prop :=
  (∀ g ∈ gs, g.2 ≠ [] ∧ ∀ x ∈ g.2, key x = g.1) ∧ (gs.map Prod.fst).Nodup

theorem insertGroup_fsts {α κ : Type} [DecidableEq κ] (key : α → κ)
    (gs : List (κ × List α)) (x : α) :
    (insertGroup key gs x).map Prod.fst = gs.map Prod.fst ∨
      (insertGroup key gs x).map Prod.fst = gs.map Prod.fst ++ [key x] := by
  induction gs with
  | nil => right; simp [insertGroup]
  | cons g rest ih =>
    rw [insertGroup]
    by_cases hg : g.1 = key x
    · left; rw [if_pos hg]; rfl
    · rw [if_neg hg]
      rcases ih with h | h
      · left
        simp only [List.map_cons, h]
      · right
        simp only [List.map_cons, h]
        rfl

theorem insertGroup_wf {α κ : Type} [DecidableEq κ] (key : α → κ)
    (gs : List (κ × List α)) (x : α) (h : GroupsWF key gs) :
    GroupsWF key (insertGroup key gs x) := by
  induction gs with
  | nil =>
    constructor
    · intro g hg
      rw [insertGroup] at hg
      rcases List.mem_singleton.1 hg with rfl
      exact ⟨by simp, by intro y hy; rcases List.mem_singleton.1 hy with rfl; rfl⟩
    · simp [insertGroup]
  | cons g rest ih =>
    obtain ⟨h1, h2⟩ := h
    rw [List.map_cons, List.nodup_cons] at h2
    have hrest : GroupsWF key rest :=
      ⟨fun g2 hg2 => h1 g2 (List.mem_cons.2 (Or.inr hg2)), h2.2⟩
    rw [insertGroup]
    by_cases hg : g.1 = key x
    · rw [if_pos hg]
      constructor
      · intro g2 hg2
        rcases List.mem_cons.1 hg2 with rfl | hg3
        · refine ⟨by simp, ?_⟩
          intro y hy
          rcases List.mem_append.1 hy with hy1 | hy1
          · exact (h1 g (List.mem_cons_self _ _)).2 y hy1
          · rcases List.mem_singleton.1 hy1 with rfl
            exact hg.symm
        · exact h1 g2 (List.mem_cons.2 (Or.inr hg3))
      · rw [List.map_cons]
        exact List.nodup_cons.2 ⟨h2.1, h2.2⟩
    · rw [if_neg hg]
      obtain ⟨ih1, ih2⟩ := ih hrest
      constructor
      · intro g2 hg2
        rcases List.mem_cons.1 hg2 with rfl | hg3
        · exact h1 g2 (List.mem_cons_self _ _)
        · exact ih1 g2 hg3
      · rw [List.map_cons, List.nodup_cons]
        refine ⟨?_, ih2⟩
        intro hmem
        rcases insertGroup_fsts key rest x with he | he
        · rw [he] at hmem
          exact h2.1 hmem
        · rw [he] at hmem
          rcases List.mem_append.1 hmem with hm1 | hm1
          · exact h2.1 hm1
          · exact hg (List.mem_singleton.1 hm1)

theorem groupPairs_wf {α κ : Type} [DecidableEq κ] (key : α → κ) (l : List α) :
    GroupsWF key (groupPairs key l) := by
  suffices H : ∀ acc, GroupsWF key acc → GroupsWF key (l.foldl (insertGroup key) acc) by
    exact H [] ⟨by intro g hg; exact absurd hg (List.not_mem_nil _), by simp⟩
  induction l with
  | nil => intro acc h; exact h
  | cons x xs ih =>
    intro acc h
    rw [List.foldl_cons]
    exact ih _ (insertGroup_wf key acc x h)

theorem entry_eq_of_fst_eq {α κ : Type} {gs : List (κ × List α)}
    (hnd : (gs.map Prod.fst).Nodup) {g g' : κ × List α}
    (hg : g ∈ gs) (hg' : g' ∈ gs) (he : g.1 = g'.1) : g = g' := by
  induction gs with
  | nil => exact absurd hg (List.not_mem_nil _)
  | cons h0 rest ih =>
    rw [List.map_cons, List.nodup_cons] at hnd
    rcases List.mem_cons.1 hg with rfl | hg2
    · rcases List.mem_cons.1 hg' with rfl | hg2'
      · rfl
      · exact absurd (by rw [he]; exact List.mem_map.2 ⟨g', hg2', rfl⟩) hnd.1
    · rcases List.mem_cons.1 hg' with rfl | hg2'
      · exact absurd (by rw [← he]; exact List.mem_map.2 ⟨g, hg2, rfl⟩) hnd.1
      · exact ih hnd.2 hg2 hg2'

theorem groupByKey_mem_sub {α κ : Type} [DecidableEq κ] {key : α → κ}
    {l : List α} {g : List α} (hg : g ∈ groupByKey key l) {x : α}
    (hx : x ∈ g) : x ∈ l := by
  have : x ∈ (groupByKey key l).flatten := List.mem_flatten.2 ⟨g, hg, hx⟩
  exact (groupByKey_flatten_perm key l).mem_iff.1 this

theorem groupByKey_nonempty {α κ : Type} [DecidableEq κ] {key : α → κ}
    {l : List α} {g : List α} (hg : g ∈ groupByKey key l) : g ≠ [] := by
  rw [groupByKey] at hg
  rcases List.mem_map.1 hg with ⟨gp, hgp, rfl⟩
  exact ((groupPairs_wf key l).1 gp hgp).1

theorem groupByKey_key_const {α κ : Type} [DecidableEq κ] {key : α → κ}
    {l : List α} {g : List α} (hg : g ∈ groupByKey key l) {x y : α}
    (hx : x ∈ g) (hy : y ∈ g) : key x = key y := by
  rw [groupByKey] at hg
  rcases List.mem_map.1 hg with ⟨gp, hgp, rfl⟩
  rw [((groupPairs_wf key l).1 gp hgp).2 x hx,
    ((groupPairs_wf key l).1 gp hgp).2 y hy]

theorem groupByKey_same_group {α κ : Type} [DecidableEq κ] {key : α → κ}
    {l : List α} {x y : α} (hx : x ∈ l) (hy : y ∈ l)
    (he : key x = key y) : ∃ g ∈ groupByKey key l, x ∈ g ∧ y ∈ g := by
  have hwf := groupPairs_wf key l
  have hxf : x ∈ ((groupPairs key l).map Prod.snd).flatten :=
    (groupPairs_flatten_perm key l).mem_iff.2 hx
  have hyf : y ∈ ((groupPairs key l).map Prod.snd).flatten :=
    (groupPairs_flatten_perm key l).mem_iff.2 hy
  rcases List.mem_flatten.1 hxf with ⟨gx, hgx, hxg⟩
  rcases List.mem_flatten.1 hyf with ⟨gy, hgy, hyg⟩
  rcases List.mem_map.1 hgx with ⟨gpx, hgpx, rfl⟩
  rcases List.mem_map.1 hgy with ⟨gpy, hgpy, rfl⟩
  have hfst : gpx.1 = gpy.1 := by
    rw [← (hwf.1 gpx hgpx).2 x hxg, ← (hwf.1 gpy hgpy).2 y hyg]
    exact he
  have := entry_eq_of_fst_eq hwf.2 hgpx hgpy hfst
  subst this
  exact ⟨gpx.2, List.mem_map.2 ⟨gpx, hgpx, rfl⟩, hxg, hyg⟩

theorem groupByKey_ne_nil {α κ : Type} [DecidableEq κ] (key : α → κ)
    {l : List α} (hl : l ≠ []) : groupByKey key l ≠ [] := by
  intro h
  apply hl
  have hp := groupByKey_flatten_perm key l
  rw [h] at hp
  have hp2 : List.Perm ([] : List α) l := hp
  exact hp2.symm.eq_nil

/-! Properties of one refinement round. -/

/-- One partition refines another when every block of the first lies
inside a block of the second (blocks only ever split, never re-merge). -/
def Refines (Pnew Pold : List (List PyVal)) : Prop :=
  ∀ b' ∈ Pnew, ∃ b ∈ Pold, b' ⊆ b

/-- Well-formed partition of the label list S: non-empty blocks, no
duplicate members overall, covering exactly S. -/
def PartWF (S : List PyVal) (P : List (List PyVal)) : Prop :=
  (∀ b ∈ P, b ≠ []) ∧ P.flatten.Nodup ∧ ∀ x, x ∈ P.flatten ↔ x ∈ S

theorem block_eq_of_mem {P : List (List PyVal)} (hnd : P.flatten.Nodup)
    {b1 b2 : List PyVal} {x : PyVal} (h1 : b1 ∈ P) (h2 : b2 ∈ P)
    (hx1 : x ∈ b1) (hx2 : x ∈ b2) : b1 = b2 := by
  induction P with
  | nil => exact absurd h1 (List.not_mem_nil _)
  | cons b rest ih =>
    rw [List.flatten_cons, List.nodup_append] at hnd
    rcases List.mem_cons.1 h1 with rfl | hm1
    · rcases List.mem_cons.1 h2 with rfl | hm2
      · rfl
      · exact absurd (List.mem_flatten.2 ⟨b2, hm2, hx2⟩) (hnd.2.2 hx1)
    · rcases List.mem_cons.1 h2 with rfl | hm2
      · exact absurd (List.mem_flatten.2 ⟨b1, hm1, hx1⟩) (hnd.2.2 hx2)
      · exact ih hnd.2.1 hm1 hm2

theorem refineList_flatten_perm (M : Dict StateActs) (P : List (List PyVal)) :
    ∀ bs, List.Perm ((refineList M P bs).1.flatten) (bs.flatten) := by
  intro bs
  induction bs with
  | nil => simp [refineList]
  | cons b rest ih =>
    rw [refineList]
    by_cases hb : (b.length == 1) = true
    · rw [if_pos hb]
      exact List.Perm.append_left b ih
    · rw [if_neg hb]
      by_cases hg : ((refineBlock M P b).length == 1) = true
      · rw [if_pos hg]
        exact List.Perm.append_left b ih
      · rw [if_neg hg]
        show List.Perm ((refineBlock M P b ++ (refineList M P rest).1).flatten)
          ((b :: rest).flatten)
        rw [List.flatten_append, List.flatten_cons]
        exact List.Perm.append (groupByKey_flatten_perm _ b) ih

theorem refineList_nonempty (M : Dict StateActs) (P : List (List PyVal)) :
    ∀ bs, (∀ b ∈ bs, b ≠ []) →
    ∀ b' ∈ (refineList M P bs).1, b' ≠ [] := by
  intro bs
  induction bs with
  | nil => intro _ b' hb'; exact absurd hb' (List.not_mem_nil _)
  | cons b rest ih =>
    intro hne b' hb'
    have hner : ∀ c ∈ rest, c ≠ [] := fun c hc => hne c (List.mem_cons.2 (Or.inr hc))
    rw [refineList] at hb'
    by_cases hb : (b.length == 1) = true
    · rw [if_pos hb] at hb'
      rcases List.mem_cons.1 hb' with rfl | hm
      · exact hne b' (List.mem_cons_self _ _)
      · exact ih hner b' hm
    · rw [if_neg hb] at hb'
      by_cases hg : ((refineBlock M P b).length == 1) = true
      · rw [if_pos hg] at hb'
        rcases List.mem_cons.1 hb' with rfl | hm
        · exact hne b' (List.mem_cons_self _ _)
        · exact ih hner b' hm
      · rw [if_neg hg] at hb'
        have hb2 : b' ∈ refineBlock M P b ++ (refineList M P rest).1 := hb'
        rcases List.mem_append.1 hb2 with hm | hm
        · exact groupByKey_nonempty hm
        · exact ih hner b' hm

theorem refineList_refines (M : Dict StateActs) (P : List (List PyVal)) :
    ∀ bs, ∀ b' ∈ (refineList M P bs).1, ∃ b ∈ bs, b' ⊆ b := by
  intro bs
  induction bs with
  | nil => intro b' hb'; exact absurd hb' (List.not_mem_nil _)
  | cons b rest ih =>
    intro b' hb'
    rw [refineList] at hb'
    have hlift : b' ∈ (refineList M P rest).1 → ∃ c ∈ b :: rest, b' ⊆ c := by
      intro hm
      rcases ih b' hm with ⟨c, hc, hsub⟩
      exact ⟨c, List.mem_cons.2 (Or.inr hc), hsub⟩
    by_cases hb : (b.length == 1) = true
    · rw [if_pos hb] at hb'
      rcases List.mem_cons.1 hb' with rfl | hm
      · exact ⟨b', List.mem_cons_self _ _, fun x hx => hx⟩
      · exact hlift hm
    · rw [if_neg hb] at hb'
      by_cases hg : ((refineBlock M P b).length == 1) = true
      · rw [if_pos hg] at hb'
        rcases List.mem_cons.1 hb' with rfl | hm
        · exact ⟨b', List.mem_cons_self _ _, fun x hx => hx⟩
        · exact hlift hm
      · rw [if_neg hg] at hb'
        have hb2 : b' ∈ refineBlock M P b ++ (refineList M P rest).1 := hb'
        rcases List.mem_append.1 hb2 with hm | hm
        · exact ⟨b, List.mem_cons_self _ _, fun x hx => groupByKey_mem_sub hm hx⟩
        · exact hlift hm

theorem refineBlock_two_le (M : Dict StateActs) (P : List (List PyVal))
    {b : List PyVal} (hb : b ≠ [])
    (hg : ¬ ((refineBlock M P b).length == 1) = true) :
    2 ≤ (refineBlock M P b).length := by
  have h1 : refineBlock M P b ≠ [] := groupByKey_ne_nil _ hb
  have h2 : (refineBlock M P b).length ≠ 1 := by
    intro h
    exact hg (by simpa using h)
  have h3 : 1 ≤ (refineBlock M P b).length :=
    Nat.one_le_iff_ne_zero.2 (by simpa using h1)
  omega

theorem refineList_length (M : Dict StateActs) (P : List (List PyVal)) :
    ∀ bs, (∀ b ∈ bs, b ≠ []) →
    bs.length ≤ (refineList M P bs).1.length ∧
    ((refineList M P bs).2 = true →
      bs.length + 1 ≤ (refineList M P bs).1.length) := by
  intro bs
  induction bs with
  | nil => intro _; exact ⟨Nat.le_refl 0, by intro h; exact absurd h (by simp [refineList])⟩
  | cons b rest ih =>
    intro hne
    have hner : ∀ c ∈ rest, c ≠ [] := fun c hc => hne c (List.mem_cons.2 (Or.inr hc))
    obtain ⟨ih1, ih2⟩ := ih hner
    rw [refineList]
    by_cases hb : (b.length == 1) = true
    · rw [if_pos hb]
      exact ⟨by simpa using Nat.add_le_add_right ih1 1, by
        intro h
        simpa using Nat.add_le_add_right (ih2 h) 1⟩
    · rw [if_neg hb]
      by_cases hg : ((refineBlock M P b).length == 1) = true
      · rw [if_pos hg]
        exact ⟨by simpa using Nat.add_le_add_right ih1 1, by
          intro h
          simpa using Nat.add_le_add_right (ih2 h) 1⟩
      · rw [if_neg hg]
        have h2 := refineBlock_two_le M P (hne b (List.mem_cons_self _ _)) hg
        constructor
        · show (b :: rest).length ≤ (refineBlock M P b ++ (refineList M P rest).1).length
          rw [List.length_append, List.length_cons]
          omega
        · intro _
          show (b :: rest).length + 1 ≤
            (refineBlock M P b ++ (refineList M P rest).1).length
          rw [List.length_append, List.length_cons]
          omega

theorem refineList_unchanged_eq (M : Dict StateActs) (P : List (List PyVal)) :
    ∀ bs, (refineList M P bs).2 = false → (refineList M P bs).1 = bs := by
  intro bs
  induction bs with
  | nil => intro _; rfl
  | cons b rest ih =>
    intro h
    rw [refineList] at h ⊢
    by_cases hb : (b.length == 1) = true
    · rw [if_pos hb] at h ⊢
      rw [ih h]
    · rw [if_neg hb] at h ⊢
      by_cases hg : ((refineBlock M P b).length == 1) = true
      · rw [if_pos hg] at h ⊢
        rw [ih h]
      · rw [if_neg hg] at h
        exact absurd h (by simp)

theorem refineList_unchanged_sig (M : Dict StateActs) (P : List (List PyVal)) :
    ∀ bs, (refineList M P bs).2 = false →
    ∀ b ∈ bs, ∀ x ∈ b, ∀ y ∈ b, sigKey M P x = sigKey M P y := by
  intro bs
  induction bs with
  | nil => intro _ b hb; exact absurd hb (List.not_mem_nil _)
  | cons b rest ih =>
    intro h c hc x hx y hy
    rw [refineList] at h
    by_cases hb : (b.length == 1) = true
    · rw [if_pos hb] at h
      rcases List.mem_cons.1 hc with rfl | hm
      · rcases List.length_eq_one.1 (by simpa using hb) with ⟨z, rfl⟩
        rcases List.mem_singleton.1 hx with rfl
        rcases List.mem_singleton.1 hy with rfl
        rfl
      · exact ih h c hm x hx y hy
    · rw [if_neg hb] at h
      by_cases hg : ((refineBlock M P b).length == 1) = true
      · rw [if_pos hg] at h
        rcases List.mem_cons.1 hc with rfl | hm
        · rcases List.length_eq_one.1 (by simpa using hg) with ⟨g0, hg0⟩
          have hxg : x ∈ g0 := by
            have hxf : x ∈ (refineBlock M P c).flatten :=
              (groupByKey_flatten_perm _ c).mem_iff.2 hx
            rw [hg0] at hxf
            simpa using hxf
          have hyg : y ∈ g0 := by
            have hyf : y ∈ (refineBlock M P c).flatten :=
              (groupByKey_flatten_perm _ c).mem_iff.2 hy
            rw [hg0] at hyf
            simpa using hyf
          have hg0b : groupByKey (sigKey M P) c = [g0] := hg0
          have hgm : g0 ∈ groupByKey (sigKey M P) c := by
            rw [hg0b]
            exact List.mem_singleton_self _
          exact groupByKey_key_const hgm hxg hyg
        · exact ih h c hm x hx y hy
      · rw [if_neg hg] at h
        exact absurd h (by simp)

theorem refineList_kept_or_groups (M : Dict StateActs) (P : List (List PyVal)) :
    ∀ bs, ∀ b ∈ bs, b ∈ (refineList M P bs).1 ∨
      ∀ g ∈ refineBlock M P b, g ∈ (refineList M P bs).1 := by
  intro bs
  induction bs with
  | nil => intro b hb; exact absurd hb (List.not_mem_nil _)
  | cons b rest ih =>
    intro c hc
    rw [refineList]
    by_cases hb : (b.length == 1) = true
    · rw [if_pos hb]
      rcases List.mem_cons.1 hc with rfl | hm
      · exact Or.inl (List.mem_cons_self _ _)
      · rcases ih c hm with h | h
        · exact Or.inl (List.mem_cons.2 (Or.inr h))
        · exact Or.inr fun g hg => List.mem_cons.2 (Or.inr (h g hg))
    · rw [if_neg hb]
      by_cases hg2 : ((refineBlock M P b).length == 1) = true
      · rw [if_pos hg2]
        rcases List.mem_cons.1 hc with rfl | hm
        · exact Or.inl (List.mem_cons_self _ _)
        · rcases ih c hm with h | h
          · exact Or.inl (List.mem_cons.2 (Or.inr h))
          · exact Or.inr fun g hg => List.mem_cons.2 (Or.inr (h g hg))
      · rw [if_neg hg2]
        rcases List.mem_cons.1 hc with rfl | hm
        · exact Or.inr fun g hg =>
            List.mem_append.2 (Or.inl hg)
        · rcases ih c hm with h | h
          · exact Or.inl (List.mem_append.2 (Or.inr h))
          · exact Or.inr fun g hg => List.mem_append.2 (Or.inr (h g hg))

/-! Termination of the refinement loop. -/

theorem initialPartition_wf (M : Dict StateActs) (hnd : (dkeys M).Nodup) :
    PartWF (dkeys M) (initialPartition M) := by
  refine ⟨?_, ?_, ?_⟩
  · intro b hb
    exact groupByKey_nonempty hb
  · exact ((groupByKey_flatten_perm _ _).nodup_iff).2 hnd
  · intro x
    exact (groupByKey_flatten_perm _ _).mem_iff

theorem refineOnce_wf {S : List PyVal} (M : Dict StateActs)
    {P : List (List PyVal)} (h : PartWF S P) :
    PartWF S (refineOnce M P).1 := by
  obtain ⟨h1, h2, h3⟩ := h
  refine ⟨refineList_nonempty M P P h1, ?_, ?_⟩
  · exact ((refineList_flatten_perm M P P).nodup_iff).2 h2
  · intro x
    have hmem : x ∈ (refineOnce M P).1.flatten ↔ x ∈ P.flatten :=
      (refineList_flatten_perm M P P).mem_iff
    exact hmem.trans (h3 x)

theorem length_le_flatten_of_nonempty {P : List (List PyVal)}
    (h : ∀ b ∈ P, b ≠ []) : P.length ≤ P.flatten.length := by
  induction P with
  | nil => simp
  | cons b rest ih =>
    rw [List.flatten_cons, List.length_append, List.length_cons]
    have hb : 1 ≤ b.length := by
      have := h b (List.mem_cons_self _ _)
      cases b with
      | nil => exact absurd rfl this
      | cons x xs => simp
    have hr := ih (fun c hc => h c (List.mem_cons.2 (Or.inr hc)))
    omega

theorem partition_length_le {S : List PyVal} {P : List (List PyVal)}
    (hS : S.Nodup) (h : PartWF S P) : P.length ≤ S.length := by
  have h1 : P.length ≤ P.flatten.length := length_le_flatten_of_nonempty h.1
  have h2 : P.flatten.length ≤ S.length := by
    have hsub : P.flatten.toFinset ⊆ S.toFinset := by
      intro x hx
      rw [List.mem_toFinset] at hx ⊢
      exact (h.2.2 x).1 hx
    have e1 : P.flatten.toFinset.card = P.flatten.length :=
      List.toFinset_card_of_nodup h.2.1
    have e2 : S.toFinset.card = S.length := List.toFinset_card_of_nodup hS
    rw [← e1, ← e2]
    exact Finset.card_le_card hsub
  omega

theorem refines_trans {P1 P2 P3 : List (List PyVal)}
    (h12 : Refines P1 P2) (h23 : Refines P2 P3) : Refines P1 P3 := by
  intro b' hb'
  rcases h12 b' hb' with ⟨b2, hb2, hs1⟩
  rcases h23 b2 hb2 with ⟨b3, hb3, hs2⟩
  exact ⟨b3, hb3, fun x hx => hs2 (hs1 hx)⟩

theorem refineLoop_spec (M : Dict StateActs) {S : List PyVal} (hS : S.Nodup) :
    ∀ (fuel : ℕ) (P : List (List PyVal)) (k : ℕ), PartWF S P →
      S.length + 1 ≤ fuel + P.length →
      PartWF S (refineLoop M fuel P k).1 ∧
      refineOnce M (refineLoop M fuel P k).1 = ((refineLoop M fuel P k).1, false) ∧
      Refines (refineLoop M fuel P k).1 P ∧
      (refineLoop M fuel P k).2 ≤ k + (S.length - P.length) := by
  intro fuel
  induction fuel with
  | zero =>
    intro P k hwf hbound
    exfalso
    have := partition_length_le hS hwf
    omega
  | succ n ih =>
    intro P k hwf hbound
    rw [refineLoop]
    cases hc : (refineOnce M P).2 with
    | false =>
      simp only [hc, Bool.false_eq_true, if_false]
      have he : (refineOnce M P).1 = P := refineList_unchanged_eq M P P hc
      rw [he]
      refine ⟨hwf, ?_, fun b hb => ⟨b, hb, fun x hx => hx⟩, Nat.le_add_right _ _⟩
      have : refineOnce M P = ((refineOnce M P).1, (refineOnce M P).2) := rfl
      rw [this, he, hc]
    | true =>
      simp only [hc, if_true]
      have hwf2 : PartWF S (refineOnce M P).1 := refineOnce_wf M hwf
      have hc2 : (refineList M P P).2 = true := hc
      have hlen : P.length + 1 ≤ (refineOnce M P).1.length :=
        (refineList_length M P P hwf.1).2 hc2
      have hle2 : (refineOnce M P).1.length ≤ S.length :=
        partition_length_le hS hwf2
      obtain ⟨o1, o2, o3, o4⟩ := ih (refineOnce M P).1 (k + 1) hwf2 (by omega)
      refine ⟨o1, o2, refines_trans o3 (refineList_refines M P P), ?_⟩
      have hP : P.length ≤ S.length := partition_length_le hS hwf
      omega

/-- C6: on every model whose state labels are distinct, the refinement
loop reaches a partition the next round leaves unchanged (the
while-changed loop terminates), the number of rounds that produced a
split is at most the state count minus one, and every round only splits
blocks: each block of the new partition is contained in a block of the
old, so blocks are never re-merged. -/
theorem C6_refinement_terminates :
    ∀ M : MDP, (dkeys M.states).Nodup →
      splitRounds M.states ≤ (dkeys M.states).length - 1 ∧
      refineOnce M.states (bisimPartition M.states) =
        (bisimPartition M.states, false) ∧
      (∀ P, Refines (refineOnce M.states P).1 P) ∧
      Refines (bisimPartition M.states) (initialPartition M.states) := by
  intro M hnd
  have hsplit : ∀ P, Refines (refineOnce M.states P).1 P :=
    fun P => refineList_refines M.states P P
  by_cases hS : dkeys M.states = []
  · have hM : M.states = [] := by
      cases hE : M.states with
      | nil => rfl
      | cons p ps => rw [hE, dkeys_cons] at hS; exact absurd hS (List.cons_ne_nil _ _)
    constructor
    · rw [hM]
      exact Nat.zero_le _
    refine ⟨?_, hsplit, ?_⟩
    · rw [hM]
      rfl
    · rw [hM]
      intro b hb
      exact absurd hb (List.not_mem_nil _)
  · have h0 : initialPartition M.states ≠ [] :=
      groupByKey_ne_nil _ hS
    have h0len : 1 ≤ (initialPartition M.states).length := by
      cases hI : initialPartition M.states with
      | nil => exact absurd hI h0
      | cons b rest => simp
    have hSlen : 1 ≤ (dkeys M.states).length := by
      cases hE : dkeys M.states with
      | nil => exact absurd hE hS
      | cons x xs => simp
    obtain ⟨o1, o2, o3, o4⟩ := refineLoop_spec M.states hnd
      (dkeys M.states).length (initialPartition M.states) 0
      (initialPartition_wf M.states hnd) (by omega)
    refine ⟨?_, o2, hsplit, o3⟩
    calc splitRounds M.states ≤
        0 + ((dkeys M.states).length - (initialPartition M.states).length) := o4
      _ ≤ (dkeys M.states).length - 1 := by omega

/-- Witness for C6 at the two-state path model. -/
theorem C6_refinement_terminates_witness :
    splitRounds mdpP2.states ≤ (dkeys mdpP2.states).length - 1 ∧
    refineOnce mdpP2.states (bisimPartition mdpP2.states) =
      (bisimPartition mdpP2.states, false) ∧
    (∀ P, Refines (refineOnce mdpP2.states P).1 P) ∧
    Refines (bisimPartition mdpP2.states) (initialPartition mdpP2.states) :=
  C6_refinement_terminates mdpP2 (by decide)

/-! Bisimulations refine the refinement output. -/

/-- Well-formedness of a states dict (the shape MDP.__init__ produces):
unique state labels, unique action labels per state, unique measure keys
per action. -/
def StatesWF (M : Dict StateActs) : Prop :=
  (dkeys M).Nodup ∧
    ∀ ps ∈ M, (dkeys ps.2).Nodup ∧ ∀ pa ∈ ps.2, (dkeys pa.2.measure).Nodup

theorem nodupKeys_iff_statesWF (M : MDP) : M.NodupKeys ↔ StatesWF M.states :=
  Iff.rfl

theorem dget?_isSome_of_mem_dkeys {V : Type} {d : Dict V} {k : PyVal}
    (h : k ∈ dkeys d) : ∃ v, dget? d k = some v := by
  cases hd : dget? d k with
  | none => exact absurd ((dget?_eq_none d k).1 hd) (by simpa using h)
  | some v => exact ⟨v, rfl⟩

/-- Mass an action sends into the set described by a Boolean predicate. -/
def massP (measure : Dict ℚ) (C : PyVal → Bool) : ℚ :=
  ((measure.filter (fun p => C p.1)).map Prod.snd).sum

theorem blockMass_eq_massP (measure : Dict ℚ) (blk : List PyVal) :
    blockMass measure blk = massP measure (fun t => decide (t ∈ blk)) := rfl

/-- Measure of the action of label a at state s. -/
def measureOf (M : Dict StateActs) (s a : PyVal) : Dict ℚ :=
  (dgetD (dgetD M s []) a ⟨[], 0⟩).measure

/-- Two states lie in a common block of the partition. -/
def sameBlock (P : List (List PyVal)) (x y : PyVal) : Prop :=
  ∃ b ∈ P, x ∈ b ∧ y ∈ b

/-- A probabilistic bisimulation relation in the sense the refinement
computes: related states are states of the model, have the same action
label set, and for each action label send the same mass into every set
closed under the relation (reward is not constrained, as in the code). -/
def IsBisim (M : Dict StateActs) (E : PyVal → PyVal → Prop) : Prop :=
  (∀ s t, E s t → s ∈ dkeys M ∧ t ∈ dkeys M) ∧
  (∀ s t, E s t → actionKey M s = actionKey M t) ∧
  (∀ s t, E s t → ∀ a ∈ dkeys (dgetD M s []), ∀ C : PyVal → Bool,
    (∀ x y, E x y → C x = C y) →
    massP (measureOf M s a) C = massP (measureOf M t a) C)

theorem mem_closed_of_sameBlock {P : List (List PyVal)}
    (hnd : P.flatten.Nodup) {x y : PyVal} (h : sameBlock P x y)
    {blk : List PyVal} (hblk : blk ∈ P) : x ∈ blk ↔ y ∈ blk := by
  rcases h with ⟨b, hb, hx, hy⟩
  constructor
  · intro hxb
    have hbe : blk = b := block_eq_of_mem hnd hblk hb hxb hx
    rw [hbe]
    exact hy
  · intro hyb
    have hbe : blk = b := block_eq_of_mem hnd hblk hb hyb hy
    rw [hbe]
    exact hx

/-- Entry lookup inside a state dict with unique action labels. -/
theorem measureOf_of_mem {M : Dict StateActs} {s : PyVal} {acts : StateActs}
    (hs : dget? M s = some acts) {pa : PyVal × ActionData} (hpa : pa ∈ acts)
    (hnd : (dkeys acts).Nodup) : measureOf M s pa.1 = pa.2.measure := by
  obtain ⟨k, v⟩ := pa
  have hsd : dgetD M s [] = acts := by rw [dgetD, hs, Option.getD_some]
  rw [measureOf, hsd, dgetD, dget?_of_mem_nodup hnd hpa, Option.getD_some]

/-- Equal signatures for bisimilar states: same action label sets and,
for every action, equal mass into every block of the current partition. -/
theorem sig_eq_of_bisim {M : Dict StateActs} {E : PyVal → PyVal → Prop}
    (hM : StatesWF M) (hE : IsBisim M E) {S : List PyVal}
    {P : List (List PyVal)} (hwf : PartWF S P)
    (hIH : ∀ x y, E x y → sameBlock P x y)
    {s t : PyVal} (hst : E s t) : sigKey M P s = sigKey M P t := by
  obtain ⟨hdom, hact, hmass⟩ := hE
  obtain ⟨hsmem, htmem⟩ := hdom s t hst
  obtain ⟨sacts, hsacts⟩ := dget?_isSome_of_mem_dkeys hsmem
  obtain ⟨tacts, htacts⟩ := dget?_isSome_of_mem_dkeys htmem
  have hsd : dgetD M s [] = sacts := by rw [dgetD, hsacts, Option.getD_some]
  have htd : dgetD M t [] = tacts := by rw [dgetD, htacts, Option.getD_some]
  have hsnd : (dkeys sacts).Nodup := (hM.2 (s, sacts) (dget?_some_mem hsacts)).1
  have htnd : (dkeys tacts).Nodup := (hM.2 (t, tacts) (dget?_some_mem htacts)).1
  have hkeyssym : actionKey M s = actionKey M t := hact s t hst
  have hvec : ∀ a, a ∈ dkeys sacts → a ∈ dkeys tacts →
      P.map (fun blk => blockMass (measureOf M s a) blk) =
        P.map (fun blk => blockMass (measureOf M t a) blk) := by
    intro a ha _
    apply List.map_congr_left
    intro blk hblk
    rw [blockMass_eq_massP, blockMass_eq_massP]
    refine hmass s t hst a (by rw [hsd]; exact ha) _ ?_
    intro x y hxy
    have := mem_closed_of_sameBlock hwf.2.1 (hIH x y hxy) hblk
    by_cases hx : x ∈ blk
    · rw [decide_eq_true hx, decide_eq_true (this.1 hx)]
    · rw [decide_eq_false hx, decide_eq_false (fun hy => hx (this.2 hy))]
  have hkeyset : ∀ a, a ∈ dkeys sacts ↔ a ∈ dkeys tacts := by
    intro a
    have h1 : actionKey M s = (dkeys sacts).toFinset := by
      rw [actionKey, hsd]
    have h2 : actionKey M t = (dkeys tacts).toFinset := by
      rw [actionKey, htd]
    constructor
    · intro h
      have : a ∈ actionKey M s := by rw [h1, List.mem_toFinset]; exact h
      rw [hkeyssym, h2, List.mem_toFinset] at this
      exact this
    · intro h
      have : a ∈ actionKey M t := by rw [h2, List.mem_toFinset]; exact h
      rw [← hkeyssym, h1, List.mem_toFinset] at this
      exact this
  apply Finset.ext
  intro pr
  rw [sigKey, sigKey, hsd, htd, List.mem_toFinset, List.mem_toFinset]
  constructor
  · intro h
    rcases List.mem_map.1 h with ⟨pa, hpa, rfl⟩
    have ha : pa.1 ∈ dkeys sacts := List.mem_map.2 ⟨pa, hpa, rfl⟩
    have hat : pa.1 ∈ dkeys tacts := (hkeyset pa.1).1 ha
    rcases List.mem_map.1 hat with ⟨pb, hpb, hpb1⟩
    refine List.mem_map.2 ⟨pb, hpb, ?_⟩
    have hms : measureOf M s pa.1 = pa.2.measure := measureOf_of_mem hsacts hpa hsnd
    have hmt : measureOf M t pb.1 = pb.2.measure := measureOf_of_mem htacts hpb htnd
    have hv := hvec pa.1 ha hat
    rw [hms] at hv
    rw [hpb1] at hmt
    rw [hmt] at hv
    rw [hpb1]
    rw [Prod.ext_iff]
    exact ⟨rfl, hv.symm⟩
  · intro h
    rcases List.mem_map.1 h with ⟨pb, hpb, rfl⟩
    have hat : pb.1 ∈ dkeys tacts := List.mem_map.2 ⟨pb, hpb, rfl⟩
    have ha : pb.1 ∈ dkeys sacts := (hkeyset pb.1).2 hat
    rcases List.mem_map.1 ha with ⟨pa, hpa, hpa1⟩
    refine List.mem_map.2 ⟨pa, hpa, ?_⟩
    have hms : measureOf M s pa.1 = pa.2.measure := measureOf_of_mem hsacts hpa hsnd
    have hmt : measureOf M t pb.1 = pb.2.measure := measureOf_of_mem htacts hpb htnd
    have hv := hvec pb.1 ha hat
    rw [hmt] at hv
    rw [hpa1] at hms
    rw [hms] at hv
    rw [hpa1]
    rw [Prod.ext_iff]
    exact ⟨rfl, hv⟩

theorem bisim_sameBlock_initial {M : Dict StateActs} {E : PyVal → PyVal → Prop}
    (hE : IsBisim M E) {s t : PyVal} (hst : E s t) :
    sameBlock (initialPartition M) s t := by
  obtain ⟨hs, ht⟩ := hE.1 s t hst
  rcases groupByKey_same_group hs ht (hE.2.1 s t hst) with ⟨g, hg, hsg, htg⟩
  exact ⟨g, hg, hsg, htg⟩

theorem bisim_sameBlock_step {M : Dict StateActs} {E : PyVal → PyVal → Prop}
    (hM : StatesWF M) (hE : IsBisim M E) {S : List PyVal}
    {P : List (List PyVal)} (hwf : PartWF S P)
    (hIH : ∀ x y, E x y → sameBlock P x y) :
    ∀ x y, E x y → sameBlock (refineOnce M P).1 x y := by
  intro s t hst
  rcases hIH s t hst with ⟨b, hb, hsb, htb⟩
  rcases refineList_kept_or_groups M P P b hb with hkept | hgroups
  · exact ⟨b, hkept, hsb, htb⟩
  · have hsig : sigKey M P s = sigKey M P t :=
      sig_eq_of_bisim hM hE hwf hIH hst
    rcases groupByKey_same_group hsb htb hsig with ⟨g, hg, hsg, htg⟩
    exact ⟨g, hgroups g hg, hsg, htg⟩

theorem bisim_sameBlock_loop {M : Dict StateActs} {E : PyVal → PyVal → Prop}
    (hM : StatesWF M) (hE : IsBisim M E) {S : List PyVal} (hS : S.Nodup) :
    ∀ (fuel : ℕ) (P : List (List PyVal)) (k : ℕ), PartWF S P →
      (∀ x y, E x y → sameBlock P x y) →
      ∀ x y, E x y → sameBlock (refineLoop M fuel P k).1 x y := by
  intro fuel
  induction fuel with
  | zero => intro P k _ hIH x y hxy; exact hIH x y hxy
  | succ n ih =>
    intro P k hwf hIH x y hxy
    rw [refineLoop]
    cases hc : (refineOnce M P).2 with
    | false =>
      simp only [hc, Bool.false_eq_true, if_false]
      have he : (refineOnce M P).1 = P := refineList_unchanged_eq M P P hc
      rw [he]
      exact hIH x y hxy
    | true =>
      simp only [hc, if_true]
      exact ih (refineOnce M P).1 (k + 1) (refineOnce_wf M hwf)
        (bisim_sameBlock_step hM hE hwf hIH) x y hxy

/-- Every bisimulation refines the computed partition: related states
end in a common block of bisimulation_partition_refinement's output. -/
theorem bisim_sameBlock_bisimPartition {M : Dict StateActs}
    {E : PyVal → PyVal → Prop} (hM : StatesWF M) (hE : IsBisim M E)
    {x y : PyVal} (hxy : E x y) : sameBlock (bisimPartition M) x y :=
  bisim_sameBlock_loop hM hE hM.1 (dkeys M).length (initialPartition M) 0
    (initialPartition_wf M hM.1) (fun a b hab => bisim_sameBlock_initial hE hab)
    x y hxy

/-! Stability of the refinement output. -/

theorem bisimPartition_wf (M : Dict StateActs) (hnd : (dkeys M).Nodup) :
    PartWF (dkeys M) (bisimPartition M) := by
  by_cases hS : dkeys M = []
  · have hM : M = [] := by
      cases hE : M with
      | nil => rfl
      | cons p ps => rw [hE, dkeys_cons] at hS; exact absurd hS (List.cons_ne_nil _ _)
    rw [hM]
    refine ⟨?_, ?_, ?_⟩
    · intro b hb
      exact absurd hb (List.not_mem_nil _)
    · exact List.nodup_nil
    · intro x
      rfl
  · have h0 : initialPartition M ≠ [] := groupByKey_ne_nil _ hS
    have h0len : 1 ≤ (initialPartition M).length := by
      cases hI : initialPartition M with
      | nil => exact absurd hI h0
      | cons b rest => simp
    exact (refineLoop_spec M hnd (dkeys M).length (initialPartition M) 0
      (initialPartition_wf M hnd) (by omega)).1

theorem bisimPartition_stable (M : Dict StateActs) (hnd : (dkeys M).Nodup) :
    refineOnce M (bisimPartition M) = (bisimPartition M, false) := by
  by_cases hS : dkeys M = []
  · have hM : M = [] := by
      cases hE : M with
      | nil => rfl
      | cons p ps => rw [hE, dkeys_cons] at hS; exact absurd hS (List.cons_ne_nil _ _)
    rw [hM]
    rfl
  · have h0 : initialPartition M ≠ [] := groupByKey_ne_nil _ hS
    have h0len : 1 ≤ (initialPartition M).length := by
      cases hI : initialPartition M with
      | nil => exact absurd hI h0
      | cons b rest => simp
    exact (refineLoop_spec M hnd (dkeys M).length (initialPartition M) 0
      (initialPartition_wf M hnd) (by omega)).2.1

theorem bisimPartition_refines_initial (M : Dict StateActs)
    (hnd : (dkeys M).Nodup) :
    Refines (bisimPartition M) (initialPartition M) := by
  by_cases hS : dkeys M = []
  · have hM : M = [] := by
      cases hE : M with
      | nil => rfl
      | cons p ps => rw [hE, dkeys_cons] at hS; exact absurd hS (List.cons_ne_nil _ _)
    rw [hM]
    intro b hb
    exact absurd hb (List.not_mem_nil _)
  · have h0 : initialPartition M ≠ [] := groupByKey_ne_nil _ hS
    have h0len : 1 ≤ (initialPartition M).length := by
      cases hI : initialPartition M with
      | nil => exact absurd hI h0
      | cons b rest => simp
    exact (refineLoop_spec M hnd (dkeys M).length (initialPartition M) 0
      (initialPartition_wf M hnd) (by omega)).2.2.1

/-- Signature constancy inside each block of the stable output. -/
theorem bisim_sig_const (M : Dict StateActs) (hnd : (dkeys M).Nodup) :
    ∀ b ∈ bisimPartition M, ∀ x ∈ b, ∀ y ∈ b,
      sigKey M (bisimPartition M) x = sigKey M (bisimPartition M) y := by
  have hstable := bisimPartition_stable M hnd
  have hsnd : (refineList M (bisimPartition M) (bisimPartition M)).2 = false := by
    have : (refineOnce M (bisimPartition M)).2 = false := by rw [hstable]
    exact this
  exact refineList_unchanged_sig M (bisimPartition M) (bisimPartition M) hsnd

/-- Action-set constancy inside each block of the output partition. -/
theorem bisim_actionKey_const (M : Dict StateActs) (hnd : (dkeys M).Nodup) :
    ∀ b ∈ bisimPartition M, ∀ x ∈ b, ∀ y ∈ b, actionKey M x = actionKey M y := by
  intro b hb x hx y hy
  rcases bisimPartition_refines_initial M hnd b hb with ⟨b0, hb0, hsub⟩
  exact groupByKey_key_const hb0 (hsub hx) (hsub hy)

theorem map_eq_map_forall {α β : Type} {f g : α → β} :
    ∀ {l : List α}, l.map f = l.map g → ∀ a ∈ l, f a = g a := by
  intro l
  induction l with
  | nil => intro _ a ha; exact absurd ha (List.not_mem_nil _)
  | cons x xs ih =>
    intro h a ha
    rw [List.map_cons, List.map_cons] at h
    injection h with h1 h2
    rcases List.mem_cons.1 ha with rfl | hm
    · exact h1
    · exact ih h2 a hm

/-- Extraction from signature equality: equal action label sets and equal
per-block masses for every action of the first state. -/
theorem sig_vec_eq {M : Dict StateActs} (hM : StatesWF M)
    {P : List (List PyVal)} {x y : PyVal} {xacts yacts : StateActs}
    (hx : dget? M x = some xacts) (hy : dget? M y = some yacts)
    (hsig : sigKey M P x = sigKey M P y) {a : PyVal} (ha : a ∈ dkeys xacts) :
    a ∈ dkeys yacts ∧ ∀ blk ∈ P,
      blockMass (measureOf M x a) blk = blockMass (measureOf M y a) blk := by
  have hxd : dgetD M x [] = xacts := by rw [dgetD, hx, Option.getD_some]
  have hyd : dgetD M y [] = yacts := by rw [dgetD, hy, Option.getD_some]
  have hxnd : (dkeys xacts).Nodup := (hM.2 (x, xacts) (dget?_some_mem hx)).1
  have hynd : (dkeys yacts).Nodup := (hM.2 (y, yacts) (dget?_some_mem hy)).1
  rcases List.mem_map.1 ha with ⟨pa, hpa, rfl⟩
  have hmem : (pa.1, P.map (fun blk => blockMass pa.2.measure blk)) ∈ sigKey M P x := by
    rw [sigKey, hxd, List.mem_toFinset]
    exact List.mem_map.2 ⟨pa, hpa, rfl⟩
  rw [hsig, sigKey, hyd, List.mem_toFinset] at hmem
  rcases List.mem_map.1 hmem with ⟨pb, hpb, hpb1⟩
  obtain ⟨hfst, hsnd2⟩ := Prod.mk.inj hpb1
  have hmx : measureOf M x pa.1 = pa.2.measure := measureOf_of_mem hx hpa hxnd
  have hmy : measureOf M y pa.1 = pb.2.measure := by
    rw [← hfst]
    exact measureOf_of_mem hy hpb hynd
  constructor
  · rw [← hfst]
    exact List.mem_map.2 ⟨pb, hpb, rfl⟩
  · intro blk hblk
    rw [hmx, hmy]
    exact (map_eq_map_forall hsnd2 blk hblk).symm

/-! Structure of the built quotient model. -/

theorem blockIdOf_spec {P : List (List PyVal)} (hnd : P.flatten.Nodup) :
    ∀ {j : ℕ} (hj : j < P.length) {x : PyVal}, x ∈ P.get ⟨j, hj⟩ →
    blockIdOf P x = j := by
  induction P with
  | nil => intro j hj x _; exact absurd hj (Nat.not_lt_zero j)
  | cons b rest ih =>
    intro j hj x hx
    rw [List.flatten_cons, List.nodup_append] at hnd
    match j with
    | 0 =>
      have hxb : x ∈ b := hx
      rw [blockIdOf, List.findIdx_cons _ b rest, decide_eq_true hxb]
      rfl
    | j' + 1 =>
      have hj' : j' < rest.length := by
        rw [List.length_cons] at hj
        omega
      have hxr : x ∈ rest.get ⟨j', hj'⟩ := hx
      have hxf : x ∈ rest.flatten :=
        List.mem_flatten.2 ⟨rest.get ⟨j', hj'⟩, List.get_mem rest _ _, hxr⟩
      have hxb : x ∉ b := fun hb => hnd.2.2 hb hxf
      rw [blockIdOf, List.findIdx_cons _ b rest, decide_eq_false hxb]
      show (rest.findIdx fun c => decide (x ∈ c)) + 1 = j' + 1
      have := ih hnd.2.1 hj' hxr
      rw [blockIdOf] at this
      omega

theorem blockIdOf_lt {P : List (List PyVal)} {x : PyVal}
    (hx : x ∈ P.flatten) : blockIdOf P x < P.length := by
  rw [blockIdOf]
  apply List.findIdx_lt_length_of_exists
  rcases List.mem_flatten.1 hx with ⟨b, hb, hxb⟩
  exact ⟨b, hb, decide_eq_true hxb⟩

theorem mem_get_blockIdOf {P : List (List PyVal)} {x : PyVal}
    (hx : x ∈ P.flatten) :
    x ∈ P.get ⟨blockIdOf P x, blockIdOf_lt hx⟩ := by
  have hw : P.findIdx (fun b => decide (x ∈ b)) < P.length := blockIdOf_lt hx
  have h := @List.findIdx_get _ _ _ hw
  have h3 : x ∈ P.get ⟨P.findIdx (fun b => decide (x ∈ b)), hw⟩ := by
    simpa using h
  exact h3

theorem quotientMap_keys_nodup (M : Dict StateActs) :
    (dkeys ((bisimPartition M).enum.map (fun ib =>
      (PyVal.i ib.1, quotientActs M (bisimPartition M) ib.2)))).Nodup := by
  have h2 : dkeys ((bisimPartition M).enum.map (fun ib =>
      (PyVal.i ib.1, quotientActs M (bisimPartition M) ib.2))) =
      ((bisimPartition M).enum.map Prod.fst).map
        (fun n : ℕ => PyVal.i (Int.ofNat n)) := by
    rw [dkeys, List.map_map, List.map_map]
    apply List.map_congr_left
    intro ib _
    rfl
  rw [h2, List.enum_map_fst]
  refine List.Nodup.map ?_ (List.nodup_range _)
  intro a b hab
  injection hab with h
  exact Int.ofNat.inj h

theorem quotientDesc_eq_map (M : Dict StateActs) :
    quotientDesc M = (bisimPartition M).enum.map (fun ib =>
      (PyVal.i ib.1, quotientActs M (bisimPartition M) ib.2)) := by
  have h1 : quotientDesc M = ((bisimPartition M).enum.map (fun ib =>
      (PyVal.i ib.1, quotientActs M (bisimPartition M) ib.2))).foldl
      (fun a q => dset a q.1 q.2) [] := by
    rw [List.foldl_map]
    rfl
  rw [h1]
  exact foldl_dset_eq_self _ (quotientMap_keys_nodup M)

theorem dget?_quotientDesc (M : Dict StateActs) {j : ℕ}
    (hj : j < (bisimPartition M).length) :
    dget? (quotientDesc M) (PyVal.i j) =
      some (quotientActs M (bisimPartition M)
        ((bisimPartition M).get ⟨j, hj⟩)) := by
  rw [quotientDesc_eq_map]
  apply dget?_of_mem_nodup (quotientMap_keys_nodup M)
  apply List.mem_map.2
  refine ⟨(j, (bisimPartition M).get ⟨j, hj⟩), ?_, rfl⟩
  rw [List.mk_mem_enum_iff_getElem?]
  exact List.getElem?_eq_getElem hj

theorem dkeys_quotientDesc (M : Dict StateActs) :
    dkeys (quotientDesc M) =
      (List.range (bisimPartition M).length).map
        (fun n : ℕ => PyVal.i (Int.ofNat n)) := by
  rw [quotientDesc_eq_map]
  have h2 : dkeys ((bisimPartition M).enum.map (fun ib =>
      (PyVal.i ib.1, quotientActs M (bisimPartition M) ib.2))) =
      ((bisimPartition M).enum.map Prod.fst).map
        (fun n : ℕ => PyVal.i (Int.ofNat n)) := by
    rw [dkeys, List.map_map, List.map_map]
    apply List.map_congr_left
    intro ib _
    rfl
  rw [h2, List.enum_map_fst]

/-- Normal form of the quotient action dict of one block: the entries of
the representative's action dict, each with the block-aggregated measure,
the extra reward binding, and the label kept. -/
theorem quotientActs_eq_map (M : Dict StateActs)
    {P : List (List PyVal)} {b : List PyVal} {racts : StateActs}
    (hr : dget? M b.headI = some racts) (hnd : (dkeys racts).Nodup) :
    quotientActs M P b = racts.map (fun pa =>
      (pa.1, ActionDesc.dist
        (dset (pushforward (fun t => PyVal.i (blockIdOf P t)) pa.2.measure)
          (PyVal.s "reward") pa.2.reward))) := by
  have hrd : dgetD M b.headI [] = racts := by rw [dgetD, hr, Option.getD_some]
  have h1 : quotientActs M P b = (racts.map (fun pa =>
      (pa.1, ActionDesc.dist
        (dset (pushforward (fun t => PyVal.i (blockIdOf P t)) pa.2.measure)
          (PyVal.s "reward") pa.2.reward)))).foldl (fun a q => dset a q.1 q.2) [] := by
    rw [List.foldl_map, quotientActs, hrd]
  rw [h1]
  apply foldl_dset_eq_self
  have h2 : dkeys (racts.map (fun pa =>
      (pa.1, ActionDesc.dist
        (dset (pushforward (fun t => PyVal.i (blockIdOf P t)) pa.2.measure)
          (PyVal.s "reward") pa.2.reward)))) = dkeys racts := by
    rw [dkeys, dkeys, List.map_map]
    apply List.map_congr_left
    intro pa _
    rfl
  rw [h2]
  exact hnd

/-! Decomposition of masses over partition blocks. -/

theorem massP_cons (p : PyVal × ℚ) (μ : Dict ℚ) (C : PyVal → Bool) :
    massP (p :: μ) C = (if C p.1 then p.2 else 0) + massP μ C := by
  rw [massP, massP]
  cases hC : C p.1
  · rw [List.filter_cons_of_neg (by simp [hC]), if_neg (by simp)]
    ring
  · rw [List.filter_cons_of_pos (by simp [hC]), if_pos rfl, List.map_cons, List.sum_cons]

theorem blockMass_cons (p : PyVal × ℚ) (μ : Dict ℚ) (blk : List PyVal) :
    blockMass (p :: μ) blk = (if p.1 ∈ blk then p.2 else 0) + blockMass μ blk := by
  rw [blockMass_eq_massP, blockMass_eq_massP, massP_cons]
  by_cases h : p.1 ∈ blk
  · rw [if_pos h, if_pos (decide_eq_true h)]
  · rw [if_neg h, if_neg (by simp [h])]

theorem sum_map_add {α : Type} (l : List α) (f g : α → ℚ) :
    (l.map (fun x => f x + g x)).sum = (l.map f).sum + (l.map g).sum := by
  induction l with
  | nil => simp
  | cons x xs ih =>
    rw [List.map_cons, List.map_cons, List.map_cons, List.sum_cons, List.sum_cons,
      List.sum_cons, ih]
    ring

theorem sum_indicator_filter (P : List (List PyVal)) (C : PyVal → Bool)
    (hnd : P.flatten.Nodup) (hne : ∀ b ∈ P, b ≠ [])
    (hconst : ∀ b ∈ P, ∀ x ∈ b, ∀ y ∈ b, C x = C y)
    (x : PyVal) (w : ℚ) (hx : x ∈ P.flatten ∨ C x = false) :
    ((P.filter (fun b => C b.headI)).map (fun b => if x ∈ b then w else 0)).sum =
      if C x then w else 0 := by
  induction P with
  | nil =>
    rcases hx with hx | hx
    · exact absurd hx (List.not_mem_nil _)
    · rw [hx]
      simp
  | cons b rest ih =>
    rw [List.flatten_cons, List.nodup_append] at hnd
    have hner : ∀ c ∈ rest, c ≠ [] := fun c hc => hne c (List.mem_cons.2 (Or.inr hc))
    have hconstr : ∀ c ∈ rest, ∀ u ∈ c, ∀ v ∈ c, C u = C v :=
      fun c hc u hu v hv => hconst c (List.mem_cons.2 (Or.inr hc)) u hu v hv
    have hheadb : b.headI ∈ b := by
      have := hne b (List.mem_cons_self _ _)
      cases b with
      | nil => exact absurd rfl this
      | cons z zs => exact List.mem_cons_self _ _
    by_cases hxb : x ∈ b
    · have hCx : C x = C b.headI :=
        hconst b (List.mem_cons_self _ _) x hxb b.headI hheadb
      have hzero : ((rest.filter (fun c => C c.headI)).map
          (fun c => if x ∈ c then w else 0)).sum = 0 := by
        apply List.sum_eq_zero
        intro q hq
        rcases List.mem_map.1 hq with ⟨c, hc, rfl⟩
        have hcr : c ∈ rest := (List.mem_filter.1 hc).1
        have hxc : x ∉ c := by
          intro hmem
          exact hnd.2.2 hxb (List.mem_flatten.2 ⟨c, hcr, hmem⟩)
        rw [if_neg hxc]
      cases hCb : C b.headI
      · rw [List.filter_cons_of_neg (by simp [hCb]), hzero]
        rw [hCx, hCb]
        simp
      · rw [List.filter_cons_of_pos (by simp [hCb]), List.map_cons, List.sum_cons,
          if_pos hxb, hzero, hCx, hCb]
        simp
    · have hx2 : x ∈ rest.flatten ∨ C x = false := by
        rcases hx with hx | hx
        · rcases List.mem_append.1 hx with h | h
          · exact absurd h hxb
          · exact Or.inl h
        · exact Or.inr hx
      have ihr := ih hnd.2.1 hner hconstr hx2
      cases hCb : C b.headI
      · rw [List.filter_cons_of_neg (by simp [hCb])]
        exact ihr
      · rw [List.filter_cons_of_pos (by simp [hCb]), List.map_cons, List.sum_cons,
          if_neg hxb, ihr]
        ring

/-- Mass into a predicate that is constant on blocks decomposes as the
sum of the block masses of the blocks where it holds. -/
theorem massP_eq_sum_blocks (μ : Dict ℚ) (C : PyVal → Bool)
    (P : List (List PyVal)) (hnd : P.flatten.Nodup)
    (hne : ∀ b ∈ P, b ≠ [])
    (hconst : ∀ b ∈ P, ∀ x ∈ b, ∀ y ∈ b, C x = C y)
    (hkeys : ∀ k ∈ dkeys μ, k ∈ P.flatten ∨ C k = false) :
    massP μ C =
      ((P.filter (fun b => C b.headI)).map (fun b => blockMass μ b)).sum := by
  induction μ with
  | nil =>
    rw [massP]
    simp only [List.filter_nil, List.map_nil, List.sum_nil]
    symm
    apply List.sum_eq_zero
    intro q hq
    rcases List.mem_map.1 hq with ⟨c, _, rfl⟩
    rw [blockMass]
    simp
  | cons p μ2 ih =>
    have hkeys2 : ∀ k ∈ dkeys μ2, k ∈ P.flatten ∨ C k = false :=
      fun k hk => hkeys k (by rw [dkeys_cons]; exact List.mem_cons.2 (Or.inr hk))
    have hkp : p.1 ∈ P.flatten ∨ C p.1 = false :=
      hkeys p.1 (by rw [dkeys_cons]; exact List.mem_cons_self _ _)
    rw [massP_cons, ih hkeys2]
    have hmapeq : (P.filter (fun b => C b.headI)).map (fun b => blockMass (p :: μ2) b) =
        (P.filter (fun b => C b.headI)).map
          (fun b => (if p.1 ∈ b then p.2 else 0) + blockMass μ2 b) := by
      apply List.map_congr_left
      intro b _
      rw [blockMass_cons]
    rw [hmapeq, sum_map_add, sum_indicator_filter P C hnd hne hconst p.1 p.2 hkp]

/-- Lift of a predicate on states to the corresponding quotient block
identifiers. -/
def liftPred (P : List (List PyVal)) (C : PyVal → Bool) : PyVal → Bool :=
  fun v => P.enum.any (fun ib => decide (v = PyVal.i ib.1) && C ib.2.headI)

theorem liftPred_i (P : List (List PyVal)) (C : PyVal → Bool) {j : ℕ}
    (hj : j < P.length) :
    liftPred P C (PyVal.i j) = C (P.get ⟨j, hj⟩).headI := by
  simp only [liftPred]
  cases hC : C (P.get ⟨j, hj⟩).headI
  · apply List.any_eq_false.2
    rintro ⟨a, b⟩ hib
    rw [Bool.and_eq_true, decide_eq_true_eq]
    rintro ⟨h1, h2⟩
    have hj2 : (j : ℤ) = (a : ℤ) := by injection h1
    have hje : j = a := by exact_mod_cast hj2
    rw [List.mk_mem_enum_iff_getElem?] at hib
    subst hje
    have hg : P[j]? = some (P.get ⟨j, hj⟩) := List.getElem?_eq_getElem hj
    rw [hib] at hg
    have hb : b = P.get ⟨j, hj⟩ := Option.some.inj hg
    rw [hb] at h2
    exact absurd h2 (by rw [hC]; exact Bool.false_ne_true)
  · apply List.any_eq_true.2
    refine ⟨(j, P.get ⟨j, hj⟩), ?_, ?_⟩
    · rw [List.mk_mem_enum_iff_getElem?]
      exact List.getElem?_eq_getElem hj
    · rw [Bool.and_eq_true, decide_eq_true_eq]
      exact ⟨rfl, hC⟩

theorem liftPred_s (P : List (List PyVal)) (C : PyVal → Bool) (str : String) :
    liftPred P C (PyVal.s str) = false := by
  simp only [liftPred]
  apply List.any_eq_false.2
  intro ib _
  rw [Bool.and_eq_true, decide_eq_true_eq]
  rintro ⟨h1, _⟩
  exact PyVal.noConfusion h1

theorem massP_append (a b : Dict ℚ) (C : PyVal → Bool) :
    massP (a ++ b) C = massP a C + massP b C := by
  rw [massP, massP, massP, List.filter_append, List.map_append, List.sum_append]

theorem massP_congr_keys {d : Dict ℚ} {C1 C2 : PyVal → Bool}
    (h : ∀ k ∈ dkeys d, C1 k = C2 k) : massP d C1 = massP d C2 := by
  rw [massP, massP]
  have : d.filter (fun p => C1 p.1) = d.filter (fun p => C2 p.1) := by
    apply List.filter_congr
    intro p hp
    exact h p.1 (List.mem_map.2 ⟨p, hp, rfl⟩)
  rw [this]

theorem massP_map_update {d : Dict ℚ} {k : PyVal} (v : ℚ) (C : PyVal → Bool)
    (hnd : (dkeys d).Nodup) (hk : k ∈ dkeys d) :
    massP (d.map (fun p => if p.1 = k then (k, v) else p)) C =
      massP d C - (if C k then dgetD d k 0 else 0) + (if C k then v else 0) := by
  induction d with
  | nil => exact absurd hk (List.not_mem_nil _)
  | cons p d2 ih =>
    rw [dkeys_cons, List.nodup_cons] at hnd
    rw [List.map_cons]
    by_cases hp : p.1 = k
    · rw [if_pos hp]
      have hrest : d2.map (fun q => if q.1 = k then (k, v) else q) = d2 := by
        conv_rhs => rw [← List.map_id d2]
        apply List.map_congr_left
        intro q hq
        have hqk : q.1 ≠ k := by
          intro hqk
          have hqmem : q.1 ∈ dkeys d2 := List.mem_map.2 ⟨q, hq, rfl⟩
          rw [hqk, ← hp] at hqmem
          exact hnd.1 hqmem
        rw [if_neg hqk]
        rfl
      rw [hrest, massP_cons, massP_cons, dgetD_cons, if_pos hp, hp]
      have h1 : ((k, v) : PyVal × ℚ).1 = k := rfl
      have h2 : ((k, v) : PyVal × ℚ).2 = v := rfl
      rw [h1, h2]
      cases hC : C k
      · rw [if_neg Bool.false_ne_true, if_neg Bool.false_ne_true]
        ring
      · rw [if_pos rfl, if_pos rfl]
        ring
    · rw [if_neg hp]
      have hkd2 : k ∈ dkeys d2 := by
        rcases List.mem_cons.1 (by rw [← dkeys_cons]; exact hk :
          k ∈ p.1 :: dkeys d2) with he | hm
        · exact absurd he.symm hp
        · exact hm
      rw [massP_cons, massP_cons, ih hnd.2 hkd2, dgetD_cons, if_neg hp]
      ring

theorem massP_dset {d : Dict ℚ} (k : PyVal) (v : ℚ) (C : PyVal → Bool)
    (hnd : (dkeys d).Nodup) :
    massP (dset d k v) C =
      massP d C - (if C k then dgetD d k 0 else 0) + (if C k then v else 0) := by
  by_cases hm : dmem d k
  · have hk : k ∈ dkeys d := by
      rw [dmem] at hm
      rcases Option.isSome_iff_exists.1 hm with ⟨w, hw⟩
      rcases dget?_some_mem hw with hmem
      exact List.mem_map.2 ⟨(k, w), hmem, rfl⟩
    rw [dset, if_pos hm]
    exact massP_map_update v C hnd hk
  · have hget : dgetD d k 0 = 0 := by
      rw [dgetD]
      cases hd : dget? d k with
      | none => rfl
      | some w => rw [dmem, hd] at hm; exact absurd rfl hm
    have happ : massP (d ++ [(k, v)]) C = massP d C + (if C k then v else 0) := by
      rw [massP_append]
      have h1 : massP [(k, v)] C = (if C k then v else 0) + massP [] C :=
        massP_cons (k, v) [] C
      have h0 : massP ([] : Dict ℚ) C = 0 := rfl
      rw [h1, h0]
      ring
    rw [dset, if_neg hm, happ, hget]
    cases hC : C k
    · rw [if_neg Bool.false_ne_true, if_neg Bool.false_ne_true]
      ring
    · rw [if_pos rfl, if_pos rfl]
      ring

theorem massP_dset_false {d : Dict ℚ} {k : PyVal} (v : ℚ) {C : PyVal → Bool}
    (hnd : (dkeys d).Nodup) (hC : C k = false) :
    massP (dset d k v) C = massP d C := by
  rw [massP_dset k v C hnd, if_neg (by rw [hC]; exact Bool.false_ne_true),
    if_neg (by rw [hC]; exact Bool.false_ne_true)]
  ring

/-! The pushforward seen through masses. -/

theorem dkeys_dset_nodup {V : Type} {d : Dict V} (k : PyVal) (v : V)
    (hnd : (dkeys d).Nodup) : (dkeys (dset d k v)).Nodup := by
  rw [dkeys_dset]
  by_cases hm : dmem d k
  · rw [if_pos hm]
    exact hnd
  · rw [if_neg hm]
    rw [List.nodup_append]
    refine ⟨hnd, List.nodup_singleton k, ?_⟩
    intro x hx hxk
    have hxk2 : x = k := by
      rcases List.mem_singleton.1 hxk with rfl
      rfl
    rw [hxk2] at hx
    rcases dget?_isSome_of_mem_dkeys hx with ⟨w, hw⟩
    rw [dmem, hw] at hm
    exact hm rfl

theorem pushforward_keys_nodup (f : PyVal → PyVal) (μ : Dict ℚ) :
    (dkeys (pushforward f μ)).Nodup := by
  suffices H : ∀ (l : Dict ℚ) (acc : Dict ℚ), (dkeys acc).Nodup →
      (dkeys (l.foldl (fun a p => dset a (f p.1) (dgetD a (f p.1) 0 + p.2)) acc)).Nodup by
    exact H μ [] List.nodup_nil
  intro l
  induction l with
  | nil => intro acc h; exact h
  | cons p ps ih =>
    intro acc h
    rw [List.foldl_cons]
    exact ih _ (dkeys_dset_nodup _ _ h)

theorem pushforward_keys_form (f : PyVal → PyVal) (μ : Dict ℚ) :
    ∀ k ∈ dkeys (pushforward f μ), ∃ t ∈ dkeys μ, k = f t := by
  suffices H : ∀ (l : Dict ℚ) (acc : Dict ℚ),
      ∀ k ∈ dkeys (l.foldl (fun a p => dset a (f p.1) (dgetD a (f p.1) 0 + p.2)) acc),
        k ∈ dkeys acc ∨ ∃ t ∈ dkeys l, k = f t by
    intro k hk
    rcases H μ [] k hk with h | h
    · exact absurd h (List.not_mem_nil _)
    · exact h
  intro l
  induction l with
  | nil => intro acc k hk; exact Or.inl hk
  | cons p ps ih =>
    intro acc k hk
    rw [List.foldl_cons] at hk
    rcases ih _ k hk with h | h
    · rw [dkeys_dset] at h
      by_cases hm : dmem acc (f p.1)
      · rw [if_pos hm] at h
        exact Or.inl h
      · rw [if_neg hm] at h
        rcases List.mem_append.1 h with h2 | h2
        · exact Or.inl h2
        · rcases List.mem_singleton.1 h2 with rfl
          exact Or.inr ⟨p.1, by rw [dkeys_cons]; exact List.mem_cons_self _ _, rfl⟩
    · rcases h with ⟨t, ht, rfl⟩
      exact Or.inr ⟨t, by rw [dkeys_cons]; exact List.mem_cons.2 (Or.inr ht), rfl⟩

/-- Mass of a pushforward against a predicate is the mass of the original
measure against the pulled-back predicate. -/
theorem massP_pushforward (f : PyVal → PyVal) (μ : Dict ℚ) (C : PyVal → Bool) :
    massP (pushforward f μ) C = massP μ (fun t => C (f t)) := by
  suffices H : ∀ (l : Dict ℚ) (acc : Dict ℚ), (dkeys acc).Nodup →
      massP (l.foldl (fun a p => dset a (f p.1) (dgetD a (f p.1) 0 + p.2)) acc) C =
        massP acc C + massP l (fun t => C (f t)) by
    have h := H μ [] List.nodup_nil
    rw [pushforward, h, massP]
    simp
  intro l
  induction l with
  | nil =>
    intro acc _
    have h0 : massP ([] : Dict ℚ) (fun t => C (f t)) = 0 := rfl
    show massP acc C = massP acc C + massP [] fun t => C (f t)
    rw [h0, add_zero]
  | cons p ps ih =>
    intro acc h
    rw [List.foldl_cons, ih _ (dkeys_dset_nodup _ _ h), massP_dset _ _ C h]
    have hmc : massP (p :: ps) (fun t => C (f t)) =
        (if C (f p.1) then p.2 else 0) + massP ps (fun t => C (f t)) :=
      massP_cons p ps (fun t => C (f t))
    rw [hmc]
    cases hC : C (f p.1)
    · rw [if_neg Bool.false_ne_true, if_neg Bool.false_ne_true,
        if_neg Bool.false_ne_true]
      ring
    · rw [if_pos rfl, if_pos rfl, if_pos rfl]
      ring

/-! Claim C5: structure of the built quotient model as a states dict. -/

/-- Every transition target is itself a state of the model: the shape
build_quotient_mdp requires, since state_to_block is read at every
target of every action. -/
def TargetsClosed (N : Dict StateActs) : Prop :=
  ∀ ps ∈ N, ∀ pa ∈ ps.2, ∀ q ∈ pa.2.measure, q.1 ∈ dkeys N

instance (N : Dict StateActs) : Decidable (TargetsClosed N) := by
  unfold TargetsClosed
  infer_instance

theorem headI_mem {b : List PyVal} (h : b ≠ []) : b.headI ∈ b := by
  cases b with
  | nil => exact absurd rfl h
  | cons z zs => exact List.mem_cons_self _ _

theorem block_nodup_of_flatten {P : List (List PyVal)}
    (hnd : P.flatten.Nodup) {b : List PyVal} (hb : b ∈ P) : b.Nodup := by
  induction P with
  | nil => exact absurd hb (List.not_mem_nil _)
  | cons c rest ih =>
    rw [List.flatten_cons, List.nodup_append] at hnd
    rcases List.mem_cons.1 hb with rfl | hm
    · exact hnd.1
    · exact ih hnd.2.1 hm

theorem foldl_dset_keys_nodup {V : Type} (l : List (PyVal × V)) :
    ∀ acc : Dict V, (dkeys acc).Nodup →
      (dkeys (l.foldl (fun a q => dset a q.1 q.2) acc)).Nodup := by
  induction l with
  | nil => intro acc h; exact h
  | cons q qs ih =>
    intro acc h
    rw [List.foldl_cons]
    exact ih _ (dkeys_dset_nodup _ _ h)

theorem resolveActs_keys_nodup (acts : Dict ActionDesc) :
    (dkeys (resolveActs acts)).Nodup := by
  have h1 : resolveActs acts =
      (acts.map (fun q => (q.1, resolveAction q.2))).foldl
        (fun a q => dset a q.1 q.2) [] := by
    rw [List.foldl_map]
    rfl
  rw [h1]
  exact foldl_dset_keys_nodup _ [] List.nodup_nil

theorem quotientActs_foldl_form (N : Dict StateActs) (P : List (List PyVal))
    (b : List PyVal) :
    quotientActs N P b = ((dgetD N b.headI []).map (fun pa =>
      (pa.1, ActionDesc.dist
        (dset (pushforward (fun t => PyVal.i (blockIdOf P t)) pa.2.measure)
          (PyVal.s "reward") pa.2.reward)))).foldl (fun a q => dset a q.1 q.2) [] := by
  rw [List.foldl_map]
  rfl

theorem quotientActs_keys_nodup (N : Dict StateActs) (P : List (List PyVal))
    (b : List PyVal) : (dkeys (quotientActs N P b)).Nodup := by
  rw [quotientActs_foldl_form]
  exact foldl_dset_keys_nodup _ [] List.nodup_nil

theorem mem_quotientActs (N : Dict StateActs) (P : List (List PyVal))
    (b : List PyVal) {p : PyVal × ActionDesc} (hp : p ∈ quotientActs N P b) :
    ∃ pa ∈ dgetD N b.headI [], p = (pa.1, ActionDesc.dist
      (dset (pushforward (fun t => PyVal.i (blockIdOf P t)) pa.2.measure)
        (PyVal.s "reward") pa.2.reward)) := by
  rw [quotientActs_foldl_form] at hp
  rcases mem_foldl_dset _ _ hp with h | h
  · exact absurd h (List.not_mem_nil _)
  · rcases List.mem_map.1 h with ⟨pa, hpa, rfl⟩
    exact ⟨pa, hpa, rfl⟩

theorem quotientDesc_keys_nodup (N : Dict StateActs) :
    (dkeys (quotientDesc N)).Nodup := by
  rw [dkeys_quotientDesc]
  refine List.Nodup.map ?_ (List.nodup_range _)
  intro a b hab
  injection hab with h
  exact Int.ofNat.inj h

theorem dkeys_quotientStates (N : Dict StateActs) :
    dkeys (buildStates (quotientDesc N)) =
      (List.range (bisimPartition N).length).map
        (fun n : ℕ => PyVal.i (Int.ofNat n)) := by
  rw [buildStates_keys _ (quotientDesc_keys_nodup N), dkeys_quotientDesc]

theorem pyI_natCast (n : ℕ) : PyVal.i (Int.ofNat n) = PyVal.i n := rfl

theorem mem_dkeys_quotientStates (N : Dict StateActs) {z : PyVal} :
    z ∈ dkeys (buildStates (quotientDesc N)) ↔
      ∃ j : ℕ, j < (bisimPartition N).length ∧ z = PyVal.i j := by
  rw [dkeys_quotientStates]
  constructor
  · intro h
    rcases List.mem_map.1 h with ⟨n, hn, rfl⟩
    exact ⟨n, List.mem_range.1 hn, (pyI_natCast n).symm⟩
  · rintro ⟨j, hj, rfl⟩
    exact List.mem_map.2 ⟨j, List.mem_range.2 hj, pyI_natCast j⟩

theorem dget?_quotientStates (N : Dict StateActs) {j : ℕ}
    (hj : j < (bisimPartition N).length) :
    dget? (buildStates (quotientDesc N)) (PyVal.i j) =
      some (resolveActs (quotientActs N (bisimPartition N)
        ((bisimPartition N).get ⟨j, hj⟩))) := by
  rw [buildStates_get _ (quotientDesc_keys_nodup N), dget?_quotientDesc N hj]
  rfl

/-- The built quotient model's states dict is well formed without any
hypothesis: its keys are the block identifiers, each state's action dict
is a comprehension, and each measure is a dict-set over a pushforward. -/
theorem statesWF_quotientStates (N : Dict StateActs) :
    StatesWF (buildStates (quotientDesc N)) := by
  constructor
  · rw [dkeys_quotientStates]
    refine List.Nodup.map ?_ (List.nodup_range _)
    intro a b hab
    injection hab with h
    exact Int.ofNat.inj h
  · intro ps hps
    rw [buildStates_eq_map _ (quotientDesc_keys_nodup N)] at hps
    rcases List.mem_map.1 hps with ⟨q, hq, rfl⟩
    constructor
    · exact resolveActs_keys_nodup _
    · intro pa hpa
      have h1 : resolveActs q.2 =
          (q.2.map (fun r => (r.1, resolveAction r.2))).foldl
            (fun a r => dset a r.1 r.2) [] := by
        rw [List.foldl_map]
        rfl
      rw [h1] at hpa
      rcases mem_foldl_dset _ _ hpa with h | h
      · exact absurd h (List.not_mem_nil _)
      · rcases List.mem_map.1 h with ⟨r, hr, rfl⟩
        rw [quotientDesc_eq_map] at hq
        rcases List.mem_map.1 hq with ⟨ib, _, rfl⟩
        rcases mem_quotientActs N _ _ hr with ⟨pa2, _, rfl⟩
        exact dkeys_dset_nodup _ _ (pushforward_keys_nodup _ _)

theorem resolveActs_quotientActs {N : Dict StateActs} {P : List (List PyVal)}
    {b : List PyVal} {racts : StateActs}
    (hr : dget? N b.headI = some racts) (hnd : (dkeys racts).Nodup) :
    resolveActs (quotientActs N P b) = racts.map (fun pa =>
      (pa.1, ActionData.mk
        (dset (pushforward (fun t => PyVal.i (blockIdOf P t)) pa.2.measure)
          (PyVal.s "reward") pa.2.reward) 0)) := by
  rw [quotientActs_eq_map N hr hnd]
  have hk : dkeys (racts.map (fun pa =>
      (pa.1, ActionDesc.dist
        (dset (pushforward (fun t => PyVal.i (blockIdOf P t)) pa.2.measure)
          (PyVal.s "reward") pa.2.reward)))) = dkeys racts := by
    rw [dkeys, dkeys, List.map_map]
    apply List.map_congr_left
    intro pa _
    rfl
  rw [resolveActs_eq_map _ (by rw [hk]; exact hnd), List.map_map]
  apply List.map_congr_left
  intro pa _
  rfl

theorem dkeys_resolveActs_quotientActs {N : Dict StateActs}
    {P : List (List PyVal)} {b : List PyVal} {racts : StateActs}
    (hr : dget? N b.headI = some racts) (hnd : (dkeys racts).Nodup) :
    dkeys (resolveActs (quotientActs N P b)) = dkeys racts := by
  rw [resolveActs_quotientActs hr hnd, dkeys, dkeys, List.map_map]
  apply List.map_congr_left
  intro pa _
  rfl

theorem actionKey_quotientStates (N : Dict StateActs) {j : ℕ}
    (hj : j < (bisimPartition N).length) {racts : StateActs}
    (hr : dget? N ((bisimPartition N).get ⟨j, hj⟩).headI = some racts)
    (hnd : (dkeys racts).Nodup) :
    actionKey (buildStates (quotientDesc N)) (PyVal.i j) =
      (dkeys racts).toFinset := by
  rw [actionKey, dgetD, dget?_quotientStates N hj, Option.getD_some,
    dkeys_resolveActs_quotientActs hr hnd]

theorem measureOf_quotientStates (N : Dict StateActs) {j : ℕ}
    (hj : j < (bisimPartition N).length) {racts : StateActs}
    (hr : dget? N ((bisimPartition N).get ⟨j, hj⟩).headI = some racts)
    (hnd : (dkeys racts).Nodup) {pa : PyVal × ActionData} (hpa : pa ∈ racts) :
    measureOf (buildStates (quotientDesc N)) (PyVal.i j) pa.1 =
      dset (pushforward (fun t => PyVal.i (blockIdOf (bisimPartition N) t))
        pa.2.measure) (PyVal.s "reward") pa.2.reward := by
  have hs := dget?_quotientStates N hj
  have hmem : (pa.1, ActionData.mk
      (dset (pushforward (fun t => PyVal.i (blockIdOf (bisimPartition N) t))
        pa.2.measure) (PyVal.s "reward") pa.2.reward) 0) ∈
      resolveActs (quotientActs N (bisimPartition N)
        ((bisimPartition N).get ⟨j, hj⟩)) := by
    rw [resolveActs_quotientActs hr hnd]
    exact List.mem_map.2 ⟨pa, hpa, rfl⟩
  have hndq : (dkeys (resolveActs (quotientActs N (bisimPartition N)
      ((bisimPartition N).get ⟨j, hj⟩)))).Nodup := resolveActs_keys_nodup _
  exact measureOf_of_mem hs hmem hndq

/-! Claim C5: transfer of masses between a model and its quotient. -/

theorem measureOf_keys_closed {M : Dict StateActs} (hM : StatesWF M)
    (hT : TargetsClosed M) {x : PyVal} {xacts : StateActs}
    (hx : dget? M x = some xacts) {a : PyVal} (ha : a ∈ dkeys xacts) :
    ∀ k ∈ dkeys (measureOf M x a), k ∈ dkeys M := by
  rcases List.mem_map.1 ha with ⟨pa, hpa, rfl⟩
  have hnd : (dkeys xacts).Nodup := (hM.2 (x, xacts) (dget?_some_mem hx)).1
  rw [measureOf_of_mem hx hpa hnd]
  intro k hk
  rcases List.mem_map.1 hk with ⟨q, hq, rfl⟩
  exact hT (x, xacts) (dget?_some_mem hx) pa hpa q hq

/-- States with equal signatures send equal masses into every predicate
that is constant on the partition's blocks and false off the keys. -/
theorem massP_eq_of_sig {M : Dict StateActs} (hM : StatesWF M)
    {P : List (List PyVal)} (hPne : ∀ b ∈ P, b ≠ []) (hPnd : P.flatten.Nodup)
    {x y : PyVal} {xacts yacts : StateActs}
    (hx : dget? M x = some xacts) (hy : dget? M y = some yacts)
    (hsig : sigKey M P x = sigKey M P y) {a : PyVal} (ha : a ∈ dkeys xacts)
    {C : PyVal → Bool}
    (hconst : ∀ b ∈ P, ∀ u ∈ b, ∀ v ∈ b, C u = C v)
    (hkx : ∀ k ∈ dkeys (measureOf M x a), k ∈ P.flatten ∨ C k = false)
    (hky : ∀ k ∈ dkeys (measureOf M y a), k ∈ P.flatten ∨ C k = false) :
    massP (measureOf M x a) C = massP (measureOf M y a) C := by
  obtain ⟨-, hblk⟩ := sig_vec_eq hM hx hy hsig ha
  rw [massP_eq_sum_blocks _ C P hPnd hPne hconst hkx,
    massP_eq_sum_blocks _ C P hPnd hPne hconst hky]
  refine congrArg List.sum (List.map_congr_left ?_)
  intro blk hblkm
  exact hblk blk (List.mem_filter.1 hblkm).1

theorem mem_dkeys_dset {V : Type} {d : Dict V} {key : PyVal} {v : V}
    {k : PyVal} (h : k ∈ dkeys (dset d key v)) : k ∈ dkeys d ∨ k = key := by
  rw [dkeys_dset] at h
  by_cases hm : dmem d key
  · rw [if_pos hm] at h
    exact Or.inl h
  · rw [if_neg hm] at h
    rcases List.mem_append.1 h with h1 | h1
    · exact Or.inl h1
    · exact Or.inr (List.mem_singleton.1 h1)

/-- The mass an original action sends into a block-closed set equals the
mass the corresponding quotient action sends into the lifted set. -/
theorem massP_bridge (N : Dict StateActs) (hN : StatesWF N)
    (hT : TargetsClosed N) {j : ℕ} (hj : j < (bisimPartition N).length)
    {racts : StateActs}
    (hr : dget? N ((bisimPartition N).get ⟨j, hj⟩).headI = some racts)
    {pa : PyVal × ActionData} (hpa : pa ∈ racts) {C : PyVal → Bool}
    (hconst : ∀ blk ∈ bisimPartition N, ∀ u ∈ blk, ∀ v ∈ blk, C u = C v) :
    massP (measureOf N ((bisimPartition N).get ⟨j, hj⟩).headI pa.1) C =
      massP (measureOf (buildStates (quotientDesc N)) (PyVal.i j) pa.1)
        (liftPred (bisimPartition N) C) := by
  have hnd : (dkeys racts).Nodup :=
    (hN.2 (_, racts) (dget?_some_mem hr)).1
  have hPwf := bisimPartition_wf N hN.1
  rw [measureOf_of_mem hr hpa hnd,
    measureOf_quotientStates N hj hr hnd hpa,
    massP_dset_false _ (pushforward_keys_nodup _ _) (liftPred_s _ _ _),
    massP_pushforward]
  apply massP_congr_keys
  intro k hk
  rcases List.mem_map.1 hk with ⟨q, hq, rfl⟩
  have hkN : q.1 ∈ dkeys N := hT (_, racts) (dget?_some_mem hr) pa hpa q hq
  have hkF : q.1 ∈ (bisimPartition N).flatten := (hPwf.2.2 q.1).2 hkN
  have hlt : blockIdOf (bisimPartition N) q.1 < (bisimPartition N).length :=
    blockIdOf_lt hkF
  have hblk : (bisimPartition N).get
      ⟨blockIdOf (bisimPartition N) q.1, hlt⟩ ∈ bisimPartition N :=
    List.get_mem _ _ _
  show C q.1 = liftPred (bisimPartition N) C
    (PyVal.i (blockIdOf (bisimPartition N) q.1))
  rw [liftPred_i _ _ hlt]
  exact hconst _ hblk q.1 (mem_get_blockIdOf hkF) _ (headI_mem (hPwf.1 _ hblk))

/-! Claim C5: pulling the second refinement back along block identifiers. -/

/-- Two states of N are related when their block identifiers lie in a
common block of the refinement computed on the built quotient model. -/
def pullbackRel (N : Dict StateActs) (u v : PyVal) : Prop :=
  (u ∈ dkeys N ∧ v ∈ dkeys N) ∧
    sameBlock (bisimPartition (buildStates (quotientDesc N)))
      (PyVal.i (blockIdOf (bisimPartition N) u))
      (PyVal.i (blockIdOf (bisimPartition N) v))

/-- Data of the block of a state: its index bound, the state's and the
representative's membership in the block, and the representative being a
state. -/
theorem state_block_data (N : Dict StateActs) (hN : StatesWF N) {u : PyVal}
    (hu : u ∈ dkeys N) :
    ∃ hlt : blockIdOf (bisimPartition N) u < (bisimPartition N).length,
      u ∈ (bisimPartition N).get ⟨blockIdOf (bisimPartition N) u, hlt⟩ ∧
      ((bisimPartition N).get ⟨blockIdOf (bisimPartition N) u, hlt⟩).headI ∈
        (bisimPartition N).get ⟨blockIdOf (bisimPartition N) u, hlt⟩ ∧
      ((bisimPartition N).get
        ⟨blockIdOf (bisimPartition N) u, hlt⟩).headI ∈ dkeys N := by
  have hPwf := bisimPartition_wf N hN.1
  have hf : u ∈ (bisimPartition N).flatten := (hPwf.2.2 u).2 hu
  have hh : ((bisimPartition N).get
      ⟨blockIdOf (bisimPartition N) u, blockIdOf_lt hf⟩).headI ∈
      (bisimPartition N).get ⟨blockIdOf (bisimPartition N) u, blockIdOf_lt hf⟩ :=
    headI_mem (hPwf.1 _ (List.get_mem _ _ _))
  refine ⟨blockIdOf_lt hf, mem_get_blockIdOf hf, hh, ?_⟩
  exact (hPwf.2.2 _).1 (List.mem_flatten.2 ⟨_, List.get_mem _ _ _, hh⟩)

/-- A predicate closed under the pullback relation is constant on the
blocks of the first refinement. -/
theorem pullback_blockConst (N : Dict StateActs) (hN : StatesWF N)
    {C : PyVal → Bool} (hC : ∀ u v, pullbackRel N u v → C u = C v) :
    ∀ blk ∈ bisimPartition N, ∀ u ∈ blk, ∀ v ∈ blk, C u = C v := by
  intro blk hblk u hu v hv
  have hPwf := bisimPartition_wf N hN.1
  have hRwf := bisimPartition_wf _ (statesWF_quotientStates N).1
  rcases List.mem_iff_get.1 hblk with ⟨⟨jb, hjb⟩, hget⟩
  have huN : u ∈ dkeys N := (hPwf.2.2 u).1 (List.mem_flatten.2 ⟨blk, hblk, hu⟩)
  have hvN : v ∈ dkeys N := (hPwf.2.2 v).1 (List.mem_flatten.2 ⟨blk, hblk, hv⟩)
  have hbu : blockIdOf (bisimPartition N) u = jb :=
    blockIdOf_spec hPwf.2.1 hjb (by rw [hget]; exact hu)
  have hbv : blockIdOf (bisimPartition N) v = jb :=
    blockIdOf_spec hPwf.2.1 hjb (by rw [hget]; exact hv)
  have hQmem : PyVal.i jb ∈ dkeys (buildStates (quotientDesc N)) :=
    (mem_dkeys_quotientStates N).2 ⟨jb, hjb, rfl⟩
  have hRf : PyVal.i jb ∈
      (bisimPartition (buildStates (quotientDesc N))).flatten :=
    (hRwf.2.2 _).2 hQmem
  rcases List.mem_flatten.1 hRf with ⟨rb, hrb, hjrb⟩
  apply hC
  exact ⟨⟨huN, hvN⟩, by rw [hbu, hbv]; exact ⟨rb, hrb, hjrb, hjrb⟩⟩

/-- The lift of a pullback-closed predicate is constant on the blocks of
the second refinement. -/
theorem liftPred_blockConst (N : Dict StateActs) (hN : StatesWF N)
    {C : PyVal → Bool} (hC : ∀ u v, pullbackRel N u v → C u = C v) :
    ∀ blk ∈ bisimPartition (buildStates (quotientDesc N)), ∀ z ∈ blk,
      ∀ w ∈ blk,
      liftPred (bisimPartition N) C z = liftPred (bisimPartition N) C w := by
  intro blk hblk z hz w hw
  have hPwf := bisimPartition_wf N hN.1
  have hRwf := bisimPartition_wf _ (statesWF_quotientStates N).1
  have hzQ : z ∈ dkeys (buildStates (quotientDesc N)) :=
    (hRwf.2.2 z).1 (List.mem_flatten.2 ⟨blk, hblk, hz⟩)
  have hwQ : w ∈ dkeys (buildStates (quotientDesc N)) :=
    (hRwf.2.2 w).1 (List.mem_flatten.2 ⟨blk, hblk, hw⟩)
  rcases (mem_dkeys_quotientStates N).1 hzQ with ⟨jz, hjz, rfl⟩
  rcases (mem_dkeys_quotientStates N).1 hwQ with ⟨jw, hjw, rfl⟩
  rw [liftPred_i _ _ hjz, liftPred_i _ _ hjw]
  have hzrep : ((bisimPartition N).get ⟨jz, hjz⟩).headI ∈
      (bisimPartition N).get ⟨jz, hjz⟩ :=
    headI_mem (hPwf.1 _ (List.get_mem _ _ _))
  have hwrep : ((bisimPartition N).get ⟨jw, hjw⟩).headI ∈
      (bisimPartition N).get ⟨jw, hjw⟩ :=
    headI_mem (hPwf.1 _ (List.get_mem _ _ _))
  have hzN : ((bisimPartition N).get ⟨jz, hjz⟩).headI ∈ dkeys N :=
    (hPwf.2.2 _).1 (List.mem_flatten.2 ⟨_, List.get_mem _ _ _, hzrep⟩)
  have hwN : ((bisimPartition N).get ⟨jw, hjw⟩).headI ∈ dkeys N :=
    (hPwf.2.2 _).1 (List.mem_flatten.2 ⟨_, List.get_mem _ _ _, hwrep⟩)
  have hbz : blockIdOf (bisimPartition N)
      ((bisimPartition N).get ⟨jz, hjz⟩).headI = jz :=
    blockIdOf_spec hPwf.2.1 hjz hzrep
  have hbw : blockIdOf (bisimPartition N)
      ((bisimPartition N).get ⟨jw, hjw⟩).headI = jw :=
    blockIdOf_spec hPwf.2.1 hjw hwrep
  apply hC
  refine ⟨⟨hzN, hwN⟩, ?_⟩
  rw [hbz, hbw]
  exact ⟨blk, hblk, hz, hw⟩

/-- Keys of a quotient action's measure are either second-refinement
states or the slipped reward key, on which the lifted predicate is
false. -/
theorem measure_keys_quotient (N : Dict StateActs) (hN : StatesWF N)
    (hT : TargetsClosed N) {j : ℕ} (hj : j < (bisimPartition N).length)
    {racts : StateActs}
    (hr : dget? N ((bisimPartition N).get ⟨j, hj⟩).headI = some racts)
    {pa : PyVal × ActionData} (hpa : pa ∈ racts) (C : PyVal → Bool) :
    ∀ k ∈ dkeys (measureOf (buildStates (quotientDesc N)) (PyVal.i j) pa.1),
      k ∈ (bisimPartition (buildStates (quotientDesc N))).flatten ∨
        liftPred (bisimPartition N) C k = false := by
  have hnd : (dkeys racts).Nodup := (hN.2 (_, racts) (dget?_some_mem hr)).1
  have hPwf := bisimPartition_wf N hN.1
  have hRwf := bisimPartition_wf _ (statesWF_quotientStates N).1
  rw [measureOf_quotientStates N hj hr hnd hpa]
  intro k hk
  rcases mem_dkeys_dset hk with h1 | h1
  · rcases pushforward_keys_form _ _ k h1 with ⟨t, ht, rfl⟩
    rcases List.mem_map.1 ht with ⟨q, hq, rfl⟩
    have htN : q.1 ∈ dkeys N := hT (_, racts) (dget?_some_mem hr) pa hpa q hq
    have htF : q.1 ∈ (bisimPartition N).flatten := (hPwf.2.2 q.1).2 htN
    refine Or.inl ((hRwf.2.2 _).2 ?_)
    exact (mem_dkeys_quotientStates N).2
      ⟨blockIdOf (bisimPartition N) q.1, blockIdOf_lt htF, rfl⟩
  · rw [h1]
    exact Or.inr (liftPred_s _ _ _)

/-- The pullback relation is a probabilistic bisimulation on N. -/
theorem pullbackRel_isBisim (N : Dict StateActs) (hN : StatesWF N)
    (hT : TargetsClosed N) : IsBisim N (pullbackRel N) := by
  have hPwf := bisimPartition_wf N hN.1
  have hQW := statesWF_quotientStates N
  have hRwf := bisimPartition_wf _ hQW.1
  have hKey : ∀ s t, pullbackRel N s t → actionKey N s = actionKey N t := by
    rintro s t ⟨⟨hsN, htN⟩, hsb⟩
    obtain ⟨hjs, hsmem, hrep1mem, hrep1N⟩ := state_block_data N hN hsN
    obtain ⟨hjt, htmem, hrep2mem, hrep2N⟩ := state_block_data N hN htN
    obtain ⟨racts1, hr1⟩ := dget?_isSome_of_mem_dkeys hrep1N
    obtain ⟨racts2, hr2⟩ := dget?_isSome_of_mem_dkeys hrep2N
    have hnd1 : (dkeys racts1).Nodup := (hN.2 _ (dget?_some_mem hr1)).1
    have hnd2 : (dkeys racts2).Nodup := (hN.2 _ (dget?_some_mem hr2)).1
    have hA1 : actionKey N s = actionKey N
        ((bisimPartition N).get ⟨blockIdOf (bisimPartition N) s, hjs⟩).headI :=
      bisim_actionKey_const N hN.1 _ (List.get_mem _ _ _) s hsmem _ hrep1mem
    have hA2 : actionKey N t = actionKey N
        ((bisimPartition N).get ⟨blockIdOf (bisimPartition N) t, hjt⟩).headI :=
      bisim_actionKey_const N hN.1 _ (List.get_mem _ _ _) t htmem _ hrep2mem
    have hB1 : actionKey N
        ((bisimPartition N).get ⟨blockIdOf (bisimPartition N) s, hjs⟩).headI =
        (dkeys racts1).toFinset := by
      rw [actionKey, dgetD, hr1, Option.getD_some]
    have hB2 : actionKey N
        ((bisimPartition N).get ⟨blockIdOf (bisimPartition N) t, hjt⟩).headI =
        (dkeys racts2).toFinset := by
      rw [actionKey, dgetD, hr2, Option.getD_some]
    rcases hsb with ⟨rb, hrb, hz1, hz2⟩
    have hQ : actionKey (buildStates (quotientDesc N))
        (PyVal.i (blockIdOf (bisimPartition N) s)) =
        actionKey (buildStates (quotientDesc N))
          (PyVal.i (blockIdOf (bisimPartition N) t)) :=
      bisim_actionKey_const _ hQW.1 rb hrb _ hz1 _ hz2
    rw [actionKey_quotientStates N hjs hr1 hnd1,
      actionKey_quotientStates N hjt hr2 hnd2] at hQ
    rw [hA1, hA2, hB1, hB2, hQ]
  refine ⟨fun s t hst => hst.1, hKey, ?_⟩
  rintro s t hst a ha C hC
  obtain ⟨⟨hsN, htN⟩, hsb⟩ := hst
  obtain ⟨hjs, hsmem, hrep1mem, hrep1N⟩ := state_block_data N hN hsN
  obtain ⟨hjt, htmem, hrep2mem, hrep2N⟩ := state_block_data N hN htN
  obtain ⟨sacts, hsacts⟩ := dget?_isSome_of_mem_dkeys hsN
  obtain ⟨tacts, htacts⟩ := dget?_isSome_of_mem_dkeys htN
  obtain ⟨racts1, hr1⟩ := dget?_isSome_of_mem_dkeys hrep1N
  obtain ⟨racts2, hr2⟩ := dget?_isSome_of_mem_dkeys hrep2N
  have hnd1 : (dkeys racts1).Nodup := (hN.2 _ (dget?_some_mem hr1)).1
  have hnd2 : (dkeys racts2).Nodup := (hN.2 _ (dget?_some_mem hr2)).1
  have hCP : ∀ blk ∈ bisimPartition N, ∀ u ∈ blk, ∀ v ∈ blk, C u = C v :=
    pullback_blockConst N hN hC
  have ha' : a ∈ dkeys sacts := by
    rw [dgetD, hsacts, Option.getD_some] at ha
    exact ha
  have hat' : a ∈ dkeys tacts := by
    have h := hKey s t ⟨⟨hsN, htN⟩, hsb⟩
    rw [actionKey, actionKey, dgetD, dgetD, hsacts, htacts,
      Option.getD_some, Option.getD_some] at h
    have h2 : a ∈ (dkeys sacts).toFinset := List.mem_toFinset.2 ha'
    rw [h] at h2
    exact List.mem_toFinset.1 h2
  have hsig1 : sigKey N (bisimPartition N) s = sigKey N (bisimPartition N)
      ((bisimPartition N).get ⟨blockIdOf (bisimPartition N) s, hjs⟩).headI :=
    bisim_sig_const N hN.1 _ (List.get_mem _ _ _) s hsmem _ hrep1mem
  have hsig2 : sigKey N (bisimPartition N) t = sigKey N (bisimPartition N)
      ((bisimPartition N).get ⟨blockIdOf (bisimPartition N) t, hjt⟩).headI :=
    bisim_sig_const N hN.1 _ (List.get_mem _ _ _) t htmem _ hrep2mem
  have hak1 : a ∈ dkeys racts1 := (sig_vec_eq hN hsacts hr1 hsig1 ha').1
  have hak2 : a ∈ dkeys racts2 := (sig_vec_eq hN htacts hr2 hsig2 hat').1
  have hclosed : ∀ (x : PyVal) (xacts : StateActs),
      dget? N x = some xacts → a ∈ dkeys xacts →
      ∀ k ∈ dkeys (measureOf N x a),
        k ∈ (bisimPartition N).flatten ∨ C k = false :=
    fun x xacts hx hax k hk =>
      Or.inl ((hPwf.2.2 k).2 (measureOf_keys_closed hN hT hx hax k hk))
  have hA1 : massP (measureOf N s a) C = massP (measureOf N
      ((bisimPartition N).get ⟨blockIdOf (bisimPartition N) s, hjs⟩).headI a)
      C :=
    massP_eq_of_sig hN hPwf.1 hPwf.2.1 hsacts hr1 hsig1 ha' hCP
      (hclosed s sacts hsacts ha') (hclosed _ racts1 hr1 hak1)
  have hA2 : massP (measureOf N t a) C = massP (measureOf N
      ((bisimPartition N).get ⟨blockIdOf (bisimPartition N) t, hjt⟩).headI a)
      C :=
    massP_eq_of_sig hN hPwf.1 hPwf.2.1 htacts hr2 hsig2 hat' hCP
      (hclosed t tacts htacts hat') (hclosed _ racts2 hr2 hak2)
  rcases List.mem_map.1 hak1 with ⟨pa1, hpa1, hpa1e⟩
  rcases List.mem_map.1 hak2 with ⟨pa2, hpa2, hpa2e⟩
  have hB1 : massP (measureOf N
      ((bisimPartition N).get ⟨blockIdOf (bisimPartition N) s, hjs⟩).headI
      pa1.1) C =
      massP (measureOf (buildStates (quotientDesc N))
        (PyVal.i (blockIdOf (bisimPartition N) s)) pa1.1)
        (liftPred (bisimPartition N) C) :=
    massP_bridge N hN hT hjs hr1 hpa1 hCP
  have hB2 : massP (measureOf N
      ((bisimPartition N).get ⟨blockIdOf (bisimPartition N) t, hjt⟩).headI
      pa2.1) C =
      massP (measureOf (buildStates (quotientDesc N))
        (PyVal.i (blockIdOf (bisimPartition N) t)) pa2.1)
        (liftPred (bisimPartition N) C) :=
    massP_bridge N hN hT hjt hr2 hpa2 hCP
  rw [hpa1e] at hB1
  rw [hpa2e] at hB2
  rcases hsb with ⟨rb, hrb, hz1, hz2⟩
  have hsigQ : sigKey (buildStates (quotientDesc N))
      (bisimPartition (buildStates (quotientDesc N)))
      (PyVal.i (blockIdOf (bisimPartition N) s)) =
      sigKey (buildStates (quotientDesc N))
        (bisimPartition (buildStates (quotientDesc N)))
        (PyVal.i (blockIdOf (bisimPartition N) t)) :=
    bisim_sig_const _ hQW.1 rb hrb _ hz1 _ hz2
  have haQ : a ∈ dkeys (resolveActs (quotientActs N (bisimPartition N)
      ((bisimPartition N).get ⟨blockIdOf (bisimPartition N) s, hjs⟩))) := by
    rw [dkeys_resolveActs_quotientActs hr1 hnd1]
    exact hak1
  have hkxQ : ∀ k ∈ dkeys (measureOf (buildStates (quotientDesc N))
      (PyVal.i (blockIdOf (bisimPartition N) s)) a),
      k ∈ (bisimPartition (buildStates (quotientDesc N))).flatten ∨
        liftPred (bisimPartition N) C k = false := by
    rw [← hpa1e]
    exact measure_keys_quotient N hN hT hjs hr1 hpa1 C
  have hkyQ : ∀ k ∈ dkeys (measureOf (buildStates (quotientDesc N))
      (PyVal.i (blockIdOf (bisimPartition N) t)) a),
      k ∈ (bisimPartition (buildStates (quotientDesc N))).flatten ∨
        liftPred (bisimPartition N) C k = false := by
    rw [← hpa2e]
    exact measure_keys_quotient N hN hT hjt hr2 hpa2 C
  have hMid : massP (measureOf (buildStates (quotientDesc N))
      (PyVal.i (blockIdOf (bisimPartition N) s)) a)
      (liftPred (bisimPartition N) C) =
      massP (measureOf (buildStates (quotientDesc N))
        (PyVal.i (blockIdOf (bisimPartition N) t)) a)
        (liftPred (bisimPartition N) C) :=
    massP_eq_of_sig hQW hRwf.1 hRwf.2.1 (dget?_quotientStates N hjs)
      (dget?_quotientStates N hjt) hsigQ haQ
      (liftPred_blockConst N hN hC) hkxQ hkyQ
  rw [hA1, hA2, hB1, hB2]
  exact hMid

/-- Every block of the refinement of the built quotient model is a
singleton. -/
theorem quotient_refinement_singletons (N : Dict StateActs)
    (hN : StatesWF N) (hT : TargetsClosed N) :
    ∀ b ∈ bisimPartition (buildStates (quotientDesc N)), ∃ z, b = [z] := by
  intro b hb
  have hPwf := bisimPartition_wf N hN.1
  have hQW := statesWF_quotientStates N
  have hRwf := bisimPartition_wf _ hQW.1
  have hbne : b ≠ [] := hRwf.1 b hb
  have hbnd : b.Nodup := block_nodup_of_flatten hRwf.2.1 hb
  have hall : ∀ z ∈ b, ∀ w ∈ b, z = w := by
    intro z hz w hw
    have hzQ : z ∈ dkeys (buildStates (quotientDesc N)) :=
      (hRwf.2.2 z).1 (List.mem_flatten.2 ⟨b, hb, hz⟩)
    have hwQ : w ∈ dkeys (buildStates (quotientDesc N)) :=
      (hRwf.2.2 w).1 (List.mem_flatten.2 ⟨b, hb, hw⟩)
    rcases (mem_dkeys_quotientStates N).1 hzQ with ⟨jz, hjz, rfl⟩
    rcases (mem_dkeys_quotientStates N).1 hwQ with ⟨jw, hjw, rfl⟩
    have hzrep : ((bisimPartition N).get ⟨jz, hjz⟩).headI ∈
        (bisimPartition N).get ⟨jz, hjz⟩ :=
      headI_mem (hPwf.1 _ (List.get_mem _ _ _))
    have hwrep : ((bisimPartition N).get ⟨jw, hjw⟩).headI ∈
        (bisimPartition N).get ⟨jw, hjw⟩ :=
      headI_mem (hPwf.1 _ (List.get_mem _ _ _))
    have hzN : ((bisimPartition N).get ⟨jz, hjz⟩).headI ∈ dkeys N :=
      (hPwf.2.2 _).1 (List.mem_flatten.2 ⟨_, List.get_mem _ _ _, hzrep⟩)
    have hwN : ((bisimPartition N).get ⟨jw, hjw⟩).headI ∈ dkeys N :=
      (hPwf.2.2 _).1 (List.mem_flatten.2 ⟨_, List.get_mem _ _ _, hwrep⟩)
    have hbz : blockIdOf (bisimPartition N)
        ((bisimPartition N).get ⟨jz, hjz⟩).headI = jz :=
      blockIdOf_spec hPwf.2.1 hjz hzrep
    have hbw : blockIdOf (bisimPartition N)
        ((bisimPartition N).get ⟨jw, hjw⟩).headI = jw :=
      blockIdOf_spec hPwf.2.1 hjw hwrep
    have hE : pullbackRel N ((bisimPartition N).get ⟨jz, hjz⟩).headI
        ((bisimPartition N).get ⟨jw, hjw⟩).headI := by
      refine ⟨⟨hzN, hwN⟩, ?_⟩
      rw [hbz, hbw]
      exact ⟨b, hb, hz, hw⟩
    have hsame := bisim_sameBlock_bisimPartition hN
      (pullbackRel_isBisim N hN hT) hE
    rcases hsame with ⟨blk, hblk, hz2, hw2⟩
    rcases List.mem_iff_get.1 hblk with ⟨⟨jb, hjb⟩, hget⟩
    have h1 : blockIdOf (bisimPartition N)
        ((bisimPartition N).get ⟨jz, hjz⟩).headI = jb :=
      blockIdOf_spec hPwf.2.1 hjb (by rw [hget]; exact hz2)
    have h2 : blockIdOf (bisimPartition N)
        ((bisimPartition N).get ⟨jw, hjw⟩).headI = jb :=
      blockIdOf_spec hPwf.2.1 hjb (by rw [hget]; exact hw2)
    have hje : jz = jw := by
      rw [hbz] at h1
      rw [hbw] at h2
      rw [h1, h2]
    rw [hje]
  cases b with
  | nil => exact absurd rfl hbne
  | cons z rest =>
    cases rest with
    | nil => exact ⟨z, rfl⟩
    | cons w rest2 =>
      have hzw : z = w := hall z (List.mem_cons_self _ _) w
        (List.mem_cons.2 (Or.inr (List.mem_cons_self _ _)))
      rw [List.nodup_cons] at hbnd
      exact absurd (by rw [hzw]; exact List.mem_cons_self _ _) hbnd.1

/-- C5: re-running the bisimulation partition refinement on the quotient
model built from a model's own refinement yields only singleton blocks
(the quotient is a fixpoint of the refinement), for every model whose
dicts have unique keys and whose transition targets are all states (the
shape build_quotient_mdp's state_to_block lookups require). -/
theorem C5_quotient_refinement_fixpoint (M : MDP) (hM : M.NodupKeys)
    (hT : TargetsClosed M.states) :
    ∀ Q : MDP, quotientMDP M.states = some Q →
      ∀ b ∈ bisimPartition Q.states, ∃ z, b = [z] := by
  intro Q hQ
  have hQ2 : MDP.ofDesc (quotientDesc M.states) = some Q := hQ
  rw [MDP.ofDesc] at hQ2
  have hst : Q.states = buildStates (quotientDesc M.states) := by
    cases hf : firstState? (buildStates (quotientDesc M.states)) with
    | none =>
      rw [hf] at hQ2
      cases hl : lastState? (buildStates (quotientDesc M.states)) with
      | none => rw [hl] at hQ2; exact absurd hQ2 (by simp)
      | some l => rw [hl] at hQ2; exact absurd hQ2 (by simp)
    | some f =>
      cases hl : lastState? (buildStates (quotientDesc M.states)) with
      | none => rw [hf, hl] at hQ2; exact absurd hQ2 (by simp)
      | some l =>
        rw [hf, hl] at hQ2
        have hQ3 : some (MDP.mk (buildStates (quotientDesc M.states)) f [l]) =
            some Q := hQ2
        injection hQ3 with h
        rw [← h]
  rw [hst]
  exact quotient_refinement_singletons M.states
    ((nodupKeys_iff_statesWF M).1 hM) hT

/-- Witness for C5 at the two-state path model. -/
theorem C5_quotient_refinement_fixpoint_witness :
    ∃ Q : MDP, quotientMDP mdpP2.states = some Q ∧
      ∀ b ∈ bisimPartition Q.states, ∃ z, b = [z] := by
  cases hQ : quotientMDP mdpP2.states with
  | none => exact absurd hQ (by with_unfolding_all decide)
  | some Q =>
    exact ⟨Q, rfl, C5_quotient_refinement_fixpoint mdpP2
      (by with_unfolding_all decide) (by with_unfolding_all decide) Q hQ⟩

/-! Claim C1: the twisted automaton product of twisted.py. -/

/-- Embedding of the Automaton of twisted.py: the transition table keyed
by (state, symbol) pairs, the initial state and the optional sink (the
states, alphabet and accepting set are never read by the build). -/
structure Automaton where
  transitions : Dict PyVal
  initial : PyVal
  sink : Option PyVal

/-- Embedding of Automaton.delta: the table entry if present, else the
sink when one is defined (the q-equals-sink test returns the sink in
both of its branches), else None. -/
def delta (A : Automaton) (q sigma : PyVal) : Option PyVal :=
  match dget? A.transitions (PyVal.pr q sigma) with
  | some nxt => some nxt
  | none =>
    match A.sink with
    | some sk => some sk
    | none => none

/-- The inner measure loop of _build_twisted_mdp for one base action at
automaton state autoLabel: each target whose labeled symbol has a
defined automaton successor contributes the pair key carrying the
original weight. -/
def twistPairMeasure (A : Automaton) (labelF : PyVal → PyVal)
    (autoLabel : PyVal) (measure : Dict ℚ) : Dict ℚ :=
  measure.foldl (fun acc q =>
    match delta A autoLabel (labelF q.1) with
    | some nxt => dset acc (PyVal.pr q.1 nxt) q.2
    | none => acc) []

/-- Processing of one dequeued pair in _build_twisted_mdp as written:
the measure loops complete, and then every path raises. If some action's
twisted measure is non-empty, the call
ctmdp.mdp.Action(action_label, twisted_state, measure, action.reward)
passes four positional arguments to Action.__init__(self, state,
measure, reward=0) and raises TypeError; if every measure is empty, the
final self.states[twisted_state.label] read raises AttributeError,
because twisted_state was constructed as State((base_label, auto_label))
and the label property reads self.mdp.state_labels off that tuple. -/
def twistVisitPy (A : Automaton) (labelF : PyVal → PyVal)
    (autoLabel : PyVal) (acts : StateActs) : Option StateActs :=
  if acts.all (fun pa =>
      (twistPairMeasure A labelF autoLabel pa.2.measure).isEmpty)
  then none
  else none

/-- Embedding of TwistedMDP.__init__ / _build_twisted_mdp: the initial
pair joins the first base state with the automaton's initial state (an
empty base model raises StopIteration at next(iter(...))), and the first
loop iteration processes that pair; the search would continue from the
processed state, but the processing never returns. -/
def twistedBuildPy (base : Dict StateActs) (A : Automaton)
    (labelF : PyVal → PyVal) : Option (Dict StateActs) :=
  (firstState? base).bind fun b0 =>
    (twistVisitPy A labelF A.initial (dgetD base b0 [])).bind fun _ => none

theorem dset_fresh {V : Type} {d : Dict V} {k : PyVal} (v : V)
    (h : k ∉ dkeys d) : dset d k v = d ++ [(k, v)] := by
  have hm : dmem d k = false := by
    rw [dmem, (dget?_eq_none d k).2 h]
    rfl
  rw [dset, if_neg (by rw [hm]; exact Bool.false_ne_true)]

/-- Characterization of the inner loop: with distinct targets it is the
filter-map keeping exactly the synchronizing targets, in order, each
with its original weight. -/
theorem twistPairMeasure_eq_filterMap (A : Automaton)
    (labelF : PyVal → PyVal) (q0 : PyVal) (μ : Dict ℚ)
    (hnd : (dkeys μ).Nodup) :
    twistPairMeasure A labelF q0 μ = μ.filterMap (fun p =>
      match delta A q0 (labelF p.1) with
      | some nxt => some (PyVal.pr p.1 nxt, p.2)
      | none => none) := by
  suffices H : ∀ (l : Dict ℚ) (acc : Dict ℚ), (dkeys l).Nodup →
      (∀ k ∈ dkeys acc, ∀ t ∈ dkeys l, ∀ x : PyVal, k ≠ PyVal.pr t x) →
      l.foldl (fun acc q =>
        match delta A q0 (labelF q.1) with
        | some nxt => dset acc (PyVal.pr q.1 nxt) q.2
        | none => acc) acc = acc ++ l.filterMap (fun p =>
          match delta A q0 (labelF p.1) with
          | some nxt => some (PyVal.pr p.1 nxt, p.2)
          | none => none) by
    rw [twistPairMeasure,
      H μ [] hnd (fun k hk => absurd hk (List.not_mem_nil _)),
      List.nil_append]
  intro l
  induction l with
  | nil =>
    intro acc _ _
    rw [List.foldl_nil, List.filterMap_nil, List.append_nil]
  | cons p ps ih =>
    intro acc hnd2 hacc
    rw [dkeys_cons, List.nodup_cons] at hnd2
    rw [List.foldl_cons, List.filterMap_cons]
    cases hd : delta A q0 (labelF p.1) with
    | none =>
      simp only [hd]
      exact ih acc hnd2.2 (fun k hk t ht x =>
        hacc k hk t (by rw [dkeys_cons]; exact List.mem_cons.2 (Or.inr ht)) x)
    | some nxt =>
      simp only [hd]
      have hfresh : PyVal.pr p.1 nxt ∉ dkeys acc := fun hk =>
        hacc _ hk p.1 (by rw [dkeys_cons]; exact List.mem_cons_self _ _) nxt rfl
      rw [dset_fresh p.2 hfresh,
        ih (acc ++ [(PyVal.pr p.1 nxt, p.2)]) hnd2.2 ?_, List.append_assoc]
      · rfl
      · intro k hk t ht x
        rw [dkeys_append] at hk
        rcases List.mem_append.1 hk with h1 | h1
        · exact hacc k h1 t (by rw [dkeys_cons]; exact List.mem_cons.2 (Or.inr ht)) x
        · have hke : k = PyVal.pr p.1 nxt := by
            rcases List.mem_singleton.1 h1 with rfl
            rfl
          rw [hke]
          intro hpe
          injection hpe with h2 h3
          rw [h2] at hnd2
          exact hnd2.1 ht

/-- C1: the claim describes the breadth-first twisted build (twisted
measures carry the original weights over synchronizing targets, rewards
are copied, non-synchronizing actions are elided), but as written every
TwistedMDP construction raises before producing any state: the Action
constructor is called with an extra positional argument (TypeError) as
soon as one action has a synchronizing target, and otherwise the label
read of a State built from a bare tuple raises AttributeError. The
inner measure loop, which does complete before the crash, computes
exactly the claimed measure. -/
theorem C1_twisted_construction_crashes :
    (∀ (base : Dict StateActs) (A : Automaton) (labelF : PyVal → PyVal),
      twistedBuildPy base A labelF = none) ∧
    (∀ (A : Automaton) (labelF : PyVal → PyVal) (q0 : PyVal) (μ : Dict ℚ),
      (dkeys μ).Nodup →
      twistPairMeasure A labelF q0 μ = μ.filterMap (fun p =>
        match delta A q0 (labelF p.1) with
        | some nxt => some (PyVal.pr p.1 nxt, p.2)
        | none => none)) := by
  constructor
  · intro base A labelF
    rw [twistedBuildPy]
    cases hf : firstState? base with
    | none => rfl
    | some b0 =>
      show (twistVisitPy A labelF A.initial (dgetD base b0 [])).bind
        (fun _ => none) = none
      rw [twistVisitPy]
      by_cases h : (dgetD base b0 []).all (fun pa =>
          (twistPairMeasure A labelF A.initial pa.2.measure).isEmpty) = true
      · rw [if_pos h]
        rfl
      · rw [if_neg h]
        rfl
  · intro A labelF q0 μ hnd
    exact twistPairMeasure_eq_filterMap A labelF q0 μ hnd

/-- A two-state automaton reading the path model's labels: from state 0
the symbol 1 moves to state 1; no sink. -/
def autoEx : Automaton :=
  ⟨[(PyVal.pr (PyVal.i 0) (PyVal.i 1), PyVal.i 1)], PyVal.i 0, none⟩

/-- Witness for C1: the build crashes on the two-state path model with
the concrete automaton, while the inner loop on the path action's
measure produces the claimed synchronized pair measure. -/
theorem C1_twisted_construction_crashes_witness :
    twistedBuildPy (buildStates descEx) autoEx (fun l => l) = none ∧
    (dkeys ([(PyVal.i 1, (1 : ℚ))] : Dict ℚ)).Nodup ∧
    twistPairMeasure autoEx (fun l => l) (PyVal.i 0) [(PyVal.i 1, 1)] =
      [(PyVal.pr (PyVal.i 1) (PyVal.i 1), 1)] := by
  refine ⟨C1_twisted_construction_crashes.1 _ _ _, by decide, ?_⟩
  rw [C1_twisted_construction_crashes.2 autoEx (fun l => l) (PyVal.i 0)
    [(PyVal.i 1, 1)] (by decide)]
  decide

/-! Claim C8: the heuristic morphism search of metric.py. One trial's
randomly initialized maps are modeled as a given pair of functions, and
num_trials as the length of the list of drawn pairs; float("inf") is
modeled as the absent value of an Option. -/

/-- One trial's score in domain_specific_generalization: the running
maximum over every source action of dR(R1, R2) + W(pushed, T2); a
KeyError on a target lookup sets the score to infinity (and the running
maximum then stays there). -/
def trialError (dR : ℚ → ℚ → ℚ) (W : Dict ℚ → Dict ℚ → ℚ)
    (M G : Dict StateActs) (f g : PyVal → PyVal) : Option ℚ :=
  M.foldl (fun acc ps =>
    ps.2.foldl (fun acc2 pa =>
      match acc2 with
      | none => none
      | some e0 =>
        match dget? G (f ps.1) with
        | none => none
        | some gacts =>
          match dget? gacts (g pa.1) with
          | none => none
          | some a2 =>
            some (max e0 (dR pa.2.reward a2.reward +
              W (pushforward f pa.2.measure) a2.measure))) acc) (some 0)

/-- One update of a best-so-far slot: a scored item replaces the slot
when the slot is empty or the new score is strictly smaller (both the
inner trial loop and the outer candidate loop of
domain_specific_generalization have this shape, with an empty slot
standing for the initial float("inf") with unassigned variables). -/
def foldBestStep {α β : Type} (sc : α → Option (ℚ × β))
    (best : Option (ℚ × β)) (x : α) : Option (ℚ × β) :=
  match sc x with
  | none => best
  | some ep =>
    match best with
    | none => some ep
    | some eb => if ep.1 < eb.1 then some ep else some eb

/-- The strict-improvement minimum of a scored list, empty-initialized. -/
def foldBest {α β : Type} (sc : α → Option (ℚ × β)) (l : List α) :
    Option (ℚ × β) :=
  l.foldl (foldBestStep sc) none

/-- The inner trial loop for one candidate: the lowest-error pair of
maps over the drawn trials, if any trial scored below infinity. -/
def runTrials (dR : ℚ → ℚ → ℚ) (W : Dict ℚ → Dict ℚ → ℚ)
    (M G : Dict StateActs)
    (trials : List ((PyVal → PyVal) × (PyVal → PyVal))) :
    Option (ℚ × ((PyVal → PyVal) × (PyVal → PyVal))) :=
  foldBest (fun fg => (trialError dR W M G fg.1 fg.2).map (fun e => (e, fg)))
    trials

/-- The outer candidate loop: the best candidate with its kept maps. -/
def bestChoice (dR : ℚ → ℚ → ℚ) (W : Dict ℚ → Dict ℚ → ℚ)
    (M : Dict StateActs)
    (Gs : List (Dict StateActs × List ((PyVal → PyVal) × (PyVal → PyVal)))) :
    Option (ℚ × (Dict StateActs × ((PyVal → PyVal) × (PyVal → PyVal)))) :=
  foldBest (fun Gt => (runTrials dR W M Gt.1 Gt.2).map
    (fun ep => (ep.1, (Gt.1, ep.2)))) Gs

/-- Embedding of find_state_of_action: the first state whose action dict
contains the label, None standing for the ValueError. -/
def findStateOfAction (M : Dict StateActs) (a : PyVal) : Option PyVal :=
  (M.find? (fun ps => dmem ps.2 a)).map Prod.fst

/-- Embedding of the epsilon function the returned morphism carries:
per-action reward distance plus distribution distance of the pushed
measure, failing on an unlocatable action (ValueError) or a missing
target lookup (KeyError). -/
def epsilonFn (dR : ℚ → ℚ → ℚ) (W : Dict ℚ → Dict ℚ → ℚ)
    (M G : Dict StateActs) (f g : PyVal → PyVal) (a : PyVal) : Option ℚ :=
  match findStateOfAction M a with
  | none => none
  | some s =>
    match dget? (dgetD M s []) a with
    | none => none
    | some a1 =>
      match dget? G (f s) with
      | none => none
      | some gacts =>
        match dget? gacts (g a) with
        | none => none
        | some a2 =>
          some (dR a1.reward a2.reward +
            W (pushforward f a1.measure) a2.measure)

/-- Embedding of domain_specific_generalization: if no candidate's
variables were ever assigned (no trial scored below infinity), the final
read of G_best raises UnboundLocalError and nothing is returned;
otherwise the morphism (G_best, f_best, g_best, epsilon_fn) is built. -/
def dsg (dR : ℚ → ℚ → ℚ) (W : Dict ℚ → Dict ℚ → ℚ) (M : Dict StateActs)
    (Gs : List (Dict StateActs × List ((PyVal → PyVal) × (PyVal → PyVal)))) :
    Option (Dict StateActs × (PyVal → PyVal) × (PyVal → PyVal) ×
      (PyVal → Option ℚ)) :=
  (bestChoice dR W M Gs).map (fun ep =>
    (ep.2.1, ep.2.2.1, ep.2.2.2, epsilonFn dR W M ep.2.1 ep.2.2.1 ep.2.2.2))

theorem foldBestStep_of_none {α β : Type} {sc : α → Option (ℚ × β)}
    {best : Option (ℚ × β)} {x : α} (h : sc x = none) :
    foldBestStep sc best x = best := by
  simp only [foldBestStep, h]

theorem foldBestStep_none_some {α β : Type} {sc : α → Option (ℚ × β)}
    {x : α} {ep : ℚ × β} (h : sc x = some ep) :
    foldBestStep sc none x = some ep := by
  simp only [foldBestStep, h]

theorem foldBestStep_some_lt {α β : Type} {sc : α → Option (ℚ × β)}
    {x : α} {ep eb : ℚ × β} (h : sc x = some ep) (hlt : ep.1 < eb.1) :
    foldBestStep sc (some eb) x = some ep := by
  simp only [foldBestStep, h]
  rw [if_pos hlt]

theorem foldBestStep_some_ge {α β : Type} {sc : α → Option (ℚ × β)}
    {x : α} {ep eb : ℚ × β} (h : sc x = some ep) (hlt : ¬ ep.1 < eb.1) :
    foldBestStep sc (some eb) x = some eb := by
  simp only [foldBestStep, h]
  rw [if_neg hlt]

theorem foldBestStep_isSome {α β : Type} {sc : α → Option (ℚ × β)}
    {best : Option (ℚ × β)} {x : α} {ep : ℚ × β} (h : sc x = some ep) :
    ∃ q, foldBestStep sc best x = some q := by
  cases best with
  | none => exact ⟨ep, foldBestStep_none_some h⟩
  | some eb =>
    by_cases hlt : ep.1 < eb.1
    · exact ⟨ep, foldBestStep_some_lt h hlt⟩
    · exact ⟨eb, foldBestStep_some_ge h hlt⟩

theorem foldBest_aux_none {α β : Type} (sc : α → Option (ℚ × β)) :
    ∀ (l : List α) (acc : Option (ℚ × β)),
      l.foldl (foldBestStep sc) acc = none ↔
        (acc = none ∧ ∀ x ∈ l, sc x = none) := by
  intro l
  induction l with
  | nil =>
    intro acc
    rw [List.foldl_nil]
    constructor
    · intro h
      exact ⟨h, fun x hx => absurd hx (List.not_mem_nil _)⟩
    · intro h
      exact h.1
  | cons x xs ih =>
    intro acc
    rw [List.foldl_cons]
    cases hsc : sc x with
    | none =>
      rw [foldBestStep_of_none hsc, ih, List.forall_mem_cons]
      constructor
      · rintro ⟨h1, h2⟩
        exact ⟨h1, hsc, h2⟩
      · rintro ⟨h1, _, h3⟩
        exact ⟨h1, h3⟩
    | some ep =>
      rcases @foldBestStep_isSome _ _ _ acc _ _ hsc with ⟨q, hq⟩
      rw [hq, ih, List.forall_mem_cons]
      constructor
      · rintro ⟨h1, _⟩
        exact absurd h1 (Option.noConfusion)
      · rintro ⟨_, h2, _⟩
        rw [hsc] at h2
        exact absurd h2 (Option.noConfusion)

theorem foldBest_none_iff {α β : Type} (sc : α → Option (ℚ × β))
    (l : List α) : foldBest sc l = none ↔ ∀ x ∈ l, sc x = none := by
  rw [foldBest, foldBest_aux_none]
  constructor
  · intro h
    exact h.2
  · intro h
    exact ⟨rfl, h⟩

theorem foldBest_aux_spec {α β : Type} (sc : α → Option (ℚ × β)) :
    ∀ (l : List α) (acc : Option (ℚ × β)) (e : ℚ) (p : β),
      l.foldl (foldBestStep sc) acc = some (e, p) →
      (acc = some (e, p) ∨ ∃ x ∈ l, sc x = some (e, p)) ∧
      (∀ e0 p0, acc = some (e0, p0) → e ≤ e0) ∧
      (∀ x ∈ l, ∀ e' p', sc x = some (e', p') → e ≤ e') := by
  intro l
  induction l with
  | nil =>
    intro acc e p h
    rw [List.foldl_nil] at h
    refine ⟨Or.inl h, ?_, ?_⟩
    · intro e0 p0 h0
      rw [h] at h0
      injection h0 with h1
      injection h1 with h2 _
      exact le_of_eq h2
    · intro x hx
      exact absurd hx (List.not_mem_nil _)
  | cons x xs ih =>
    intro acc e p h
    rw [List.foldl_cons] at h
    cases hsc : sc x with
    | none =>
      rw [foldBestStep_of_none hsc] at h
      obtain ⟨horig, hacc, hxs⟩ := ih acc e p h
      refine ⟨?_, hacc, ?_⟩
      · rcases horig with h1 | ⟨y, hy, hsy⟩
        · exact Or.inl h1
        · exact Or.inr ⟨y, List.mem_cons.2 (Or.inr hy), hsy⟩
      · intro y hy e' p' hsy
        rcases List.mem_cons.1 hy with rfl | hym
        · rw [hsc] at hsy
          exact absurd hsy (Option.noConfusion)
        · exact hxs y hym e' p' hsy
    | some ep =>
      cases acc with
      | none =>
        rw [foldBestStep_none_some hsc] at h
        obtain ⟨horig, hacc, hxs⟩ := ih (some ep) e p h
        have hbound : e ≤ ep.1 := hacc ep.1 ep.2 (by rw [Prod.mk.eta])
        refine ⟨?_, ?_, ?_⟩
        · rcases horig with h1 | ⟨y, hy, hsy⟩
          · refine Or.inr ⟨x, List.mem_cons_self _ _, ?_⟩
            rw [hsc, ← h1]
          · exact Or.inr ⟨y, List.mem_cons.2 (Or.inr hy), hsy⟩
        · intro e0 p0 h0
          exact absurd h0 (Option.noConfusion)
        · intro y hy e' p' hsy
          rcases List.mem_cons.1 hy with rfl | hym
          · rw [hsc] at hsy
            injection hsy with h1
            have h2 : ep.1 = e' := congrArg Prod.fst h1
            rw [← h2]
            exact hbound
          · exact hxs y hym e' p' hsy
      | some eb =>
        by_cases hlt : ep.1 < eb.1
        · rw [foldBestStep_some_lt hsc hlt] at h
          obtain ⟨horig, hacc, hxs⟩ := ih (some ep) e p h
          have hbound : e ≤ ep.1 := hacc ep.1 ep.2 (by rw [Prod.mk.eta])
          refine ⟨?_, ?_, ?_⟩
          · rcases horig with h1 | ⟨y, hy, hsy⟩
            · refine Or.inr ⟨x, List.mem_cons_self _ _, ?_⟩
              rw [hsc, ← h1]
            · exact Or.inr ⟨y, List.mem_cons.2 (Or.inr hy), hsy⟩
          · intro e0 p0 h0
            injection h0 with h1
            have h2 : eb.1 = e0 := congrArg Prod.fst h1
            rw [← h2]
            exact le_trans hbound (le_of_lt hlt)
          · intro y hy e' p' hsy
            rcases List.mem_cons.1 hy with rfl | hym
            · rw [hsc] at hsy
              injection hsy with h1
              have h2 : ep.1 = e' := congrArg Prod.fst h1
              rw [← h2]
              exact hbound
            · exact hxs y hym e' p' hsy
        · rw [foldBestStep_some_ge hsc hlt] at h
          obtain ⟨horig, hacc, hxs⟩ := ih (some eb) e p h
          have hbound : e ≤ eb.1 := hacc eb.1 eb.2 (by rw [Prod.mk.eta])
          refine ⟨?_, ?_, ?_⟩
          · rcases horig with h1 | ⟨y, hy, hsy⟩
            · exact Or.inl h1
            · exact Or.inr ⟨y, List.mem_cons.2 (Or.inr hy), hsy⟩
          · intro e0 p0 h0
            injection h0 with h1
            have h2 : eb.1 = e0 := congrArg Prod.fst h1
            rw [← h2]
            exact hbound
          · intro y hy e' p' hsy
            rcases List.mem_cons.1 hy with rfl | hym
            · rw [hsc] at hsy
              injection hsy with h1
              have h2 : ep.1 = e' := congrArg Prod.fst h1
              rw [← h2]
              exact le_trans hbound (not_lt.1 hlt)
            · exact hxs y hym e' p' hsy

theorem foldBest_spec {α β : Type} (sc : α → Option (ℚ × β)) (l : List α)
    {e : ℚ} {p : β} (h : foldBest sc l = some (e, p)) :
    (∃ x ∈ l, sc x = some (e, p)) ∧
    (∀ x ∈ l, ∀ e' p', sc x = some (e', p') → e ≤ e') := by
  obtain ⟨horig, -, hxs⟩ := foldBest_aux_spec sc l none e p h
  rcases horig with h1 | h1
  · exact absurd h1 (Option.noConfusion)
  · exact ⟨h1, hxs⟩

/-- The search returns nothing exactly when every trial of every
candidate scored infinity (then G_best is never assigned and the final
read raises UnboundLocalError). -/
theorem dsg_none_iff (dR : ℚ → ℚ → ℚ) (W : Dict ℚ → Dict ℚ → ℚ)
    (M : Dict StateActs)
    (Gs : List (Dict StateActs × List ((PyVal → PyVal) × (PyVal → PyVal)))) :
    dsg dR W M Gs = none ↔
      ∀ Gt ∈ Gs, ∀ fg ∈ Gt.2, trialError dR W M Gt.1 fg.1 fg.2 = none := by
  constructor
  · intro h Gt hGt fg hfg
    have h1 : bestChoice dR W M Gs = none := Option.map_eq_none'.1 h
    have h2 : (runTrials dR W M Gt.1 Gt.2).map
        (fun ep => (ep.1, (Gt.1, ep.2))) = none :=
      (foldBest_none_iff _ Gs).1 h1 Gt hGt
    have h3 : runTrials dR W M Gt.1 Gt.2 = none := Option.map_eq_none'.1 h2
    have h4 : (trialError dR W M Gt.1 fg.1 fg.2).map (fun e => (e, fg)) =
        none := (foldBest_none_iff _ Gt.2).1 h3 fg hfg
    exact Option.map_eq_none'.1 h4
  · intro h
    apply Option.map_eq_none'.2
    apply (foldBest_none_iff _ Gs).2
    intro Gt hGt
    apply Option.map_eq_none'.2
    apply (foldBest_none_iff _ Gt.2).2
    intro fg hfg
    apply Option.map_eq_none'.2
    exact h Gt hGt fg hfg

/-- A returned morphism carries the embedded epsilon function, its maps
come from a trial of the chosen candidate achieving its score, and that
score is minimal over all trials of all candidates. -/
theorem dsg_some_spec (dR : ℚ → ℚ → ℚ) (W : Dict ℚ → Dict ℚ → ℚ)
    (M : Dict StateActs)
    (Gs : List (Dict StateActs × List ((PyVal → PyVal) × (PyVal → PyVal))))
    (G : Dict StateActs) (f g : PyVal → PyVal) (eps : PyVal → Option ℚ)
    (h : dsg dR W M Gs = some (G, f, g, eps)) :
    eps = epsilonFn dR W M G f g ∧
    ∃ e : ℚ,
      (∃ Gt ∈ Gs, Gt.1 = G ∧ (f, g) ∈ Gt.2 ∧
        trialError dR W M G f g = some e) ∧
      (∀ Gt ∈ Gs, ∀ fg ∈ Gt.2, ∀ e',
        trialError dR W M Gt.1 fg.1 fg.2 = some e' → e ≤ e') := by
  rcases Option.map_eq_some'.1 h with ⟨ep, hep, hmap⟩
  obtain ⟨hG, hf, hg, heps⟩ : ep.2.1 = G ∧ ep.2.2.1 = f ∧ ep.2.2.2 = g ∧
      epsilonFn dR W M ep.2.1 ep.2.2.1 ep.2.2.2 = eps := by
    injection hmap with a1 rest
    injection rest with a2 rest2
    injection rest2 with a3 a4
    exact ⟨a1, a2, a3, a4⟩
  have hfg : ep.2.2 = (f, g) := by
    rw [← hf, ← hg]
  constructor
  · rw [← heps, hG, hf, hg]
  · have hep2 : foldBest (fun Gt => (runTrials dR W M Gt.1 Gt.2).map
        (fun q => (q.1, (Gt.1, q.2)))) Gs = some (ep.1, ep.2) := by
      rw [Prod.mk.eta]
      exact hep
    obtain ⟨⟨Gt, hGt, hscGt⟩, hmin⟩ := foldBest_spec _ Gs hep2
    rcases Option.map_eq_some'.1 hscGt with ⟨epL, hrunL, hmapL⟩
    have hL1 : epL.1 = ep.1 := congrArg Prod.fst hmapL
    have hL2 : (Gt.1, epL.2) = ep.2 := congrArg Prod.snd hmapL
    have hGt1 : Gt.1 = G := by
      have := congrArg Prod.fst hL2
      rw [← hG]
      exact this
    have hrunL2 : foldBest (fun fg => (trialError dR W M Gt.1 fg.1 fg.2).map
        (fun e => (e, fg))) Gt.2 = some (epL.1, epL.2) := by
      rw [Prod.mk.eta]
      exact hrunL
    obtain ⟨⟨fgw, hfgw, hscw⟩, hminL⟩ := foldBest_spec _ Gt.2 hrunL2
    rcases Option.map_eq_some'.1 hscw with ⟨ew, hew, hmapw⟩
    have hw1 : ew = epL.1 := congrArg Prod.fst hmapw
    have hw2 : fgw = epL.2 := congrArg Prod.snd hmapw
    have hfgw2 : fgw = (f, g) := by
      rw [hw2]
      have := congrArg Prod.snd hL2
      rw [← hfg]
      exact this
    refine ⟨ep.1, ⟨Gt, hGt, hGt1, ?_, ?_⟩, ?_⟩
    · rw [← hfgw2]
      exact hfgw
    · have h5 : trialError dR W M Gt.1 fgw.1 fgw.2 = some ew := hew
      rw [hfgw2, hGt1] at h5
      rw [hw1, hL1] at h5
      exact h5
    · intro Gt' hGt' fg' hfg' e' htr
      have hscfg' : (fun fg => (trialError dR W M Gt'.1 fg.1 fg.2).map
          (fun e => (e, fg))) fg' = some (e', fg') := by
        show (trialError dR W M Gt'.1 fg'.1 fg'.2).map (fun e => (e, fg')) =
          some (e', fg')
        rw [htr]
        rfl
      cases hrn : runTrials dR W M Gt'.1 Gt'.2 with
      | none =>
        have h6 : (trialError dR W M Gt'.1 fg'.1 fg'.2).map
            (fun e => (e, fg')) = none :=
          (foldBest_none_iff _ Gt'.2).1 hrn fg' hfg'
        rw [htr] at h6
        exact absurd h6 (Option.noConfusion)
      | some epL' =>
        have hrn2 : foldBest (fun fg =>
            (trialError dR W M Gt'.1 fg.1 fg.2).map (fun e => (e, fg)))
            Gt'.2 = some (epL'.1, epL'.2) := by
          rw [Prod.mk.eta]
          exact hrn
        have hinner : epL'.1 ≤ e' :=
          (foldBest_spec _ Gt'.2 hrn2).2 fg' hfg' e' fg' hscfg'
        have hscGt' : (fun Gt => (runTrials dR W M Gt.1 Gt.2).map
            (fun q => (q.1, (Gt.1, q.2)))) Gt' =
            some (epL'.1, (Gt'.1, epL'.2)) := by
          show (runTrials dR W M Gt'.1 Gt'.2).map
            (fun q => (q.1, (Gt'.1, q.2))) = some (epL'.1, (Gt'.1, epL'.2))
          rw [hrn]
          rfl
        have houter : ep.1 ≤ epL'.1 :=
          hmin Gt' hGt' epL'.1 (Gt'.1, epL'.2) hscGt'
        exact le_trans houter hinner

/-- C8: the claim says the heuristic morphism search always returns a
best-effort morphism triple and never raises; in fact the best-candidate
variables are assigned only when some trial scores strictly below the
running infinity, so with zero trials (shown concretely), an empty
candidate list, or all trials scoring infinity, the final read of G_best
raises UnboundLocalError and nothing is returned. When it does return,
the triple carries the per-action epsilon function and maps drawn from a
trial achieving the minimum worst-case score over all candidates'
trials. -/
theorem C8_heuristic_search_argmin :
    (dsg (fun _ _ => (0 : ℚ)) (fun _ _ => 0) (buildStates descEx)
      [(buildStates descEx, [])] = none) ∧
    (∀ (dR : ℚ → ℚ → ℚ) (W : Dict ℚ → Dict ℚ → ℚ) (M : Dict StateActs)
      (Gs : List (Dict StateActs × List ((PyVal → PyVal) × (PyVal → PyVal)))),
      (dsg dR W M Gs = none ↔ ∀ Gt ∈ Gs, ∀ fg ∈ Gt.2,
        trialError dR W M Gt.1 fg.1 fg.2 = none) ∧
      (∀ (G : Dict StateActs) (f g : PyVal → PyVal)
        (eps : PyVal → Option ℚ), dsg dR W M Gs = some (G, f, g, eps) →
        eps = epsilonFn dR W M G f g ∧
        ∃ e : ℚ,
          (∃ Gt ∈ Gs, Gt.1 = G ∧ (f, g) ∈ Gt.2 ∧
            trialError dR W M G f g = some e) ∧
          (∀ Gt ∈ Gs, ∀ fg ∈ Gt.2, ∀ e',
            trialError dR W M Gt.1 fg.1 fg.2 = some e' → e ≤ e'))) :=
  ⟨rfl, fun dR W M Gs =>
    ⟨dsg_none_iff dR W M Gs,
     fun G f g eps h => dsg_some_spec dR W M Gs G f g eps h⟩⟩

/-- Counterexample to C8 as claimed: with one candidate model and
num_trials = 0 the best-candidate variables are never assigned, the
return line's read of G_best raises UnboundLocalError, and no morphism
is returned — the search does not "always succeed with some result". -/
theorem C8_zero_trials_counterexample :
    dsg (fun _ _ => (0 : ℚ)) (fun _ _ => 0) (buildStates descEx)
      [(buildStates descEx,
        ([] : List ((PyVal → PyVal) × (PyVal → PyVal))))] = none := rfl

/-- Witness for C8: the search with one candidate and zero trials
(num_trials = 0) returns nothing. -/
theorem C8_heuristic_search_argmin_witness :
    dsg (fun _ _ => (0 : ℚ)) (fun _ _ => 0) (buildStates descEx)
      [(buildStates descEx,
        ([] : List ((PyVal → PyVal) × (PyVal → PyVal))))] = none := by
  refine ((C8_heuristic_search_argmin.2 _ _ _ _).1).2 ?_
  intro Gt hGt fg hfg
  rcases List.mem_singleton.1 hGt with rfl
  exact absurd hfg (List.not_mem_nil _)

/-! Claim C9: the operators allocate a fresh model and only read their
inputs. The object heap is modeled as a store of models; every Python
write in the three operators targets a dict or object created inside the
call, which the store-passing embedding renders as appending one fresh
cell and leaving every existing cell untouched. -/

/-- A heap of constructed models, addressed by allocation index. -/
abbrev Store := List MDP

/-- Store-passing box product (box_product.py): read the two operands,
build the fresh model, allocate it. -/
def boxOp (st : Store) (i j : ℕ) (l0 l1 : String) : Option (Store × ℕ) :=
  (st[i]?).bind fun M1 => (st[j]?).bind fun M2 =>
    (boxProductPy M1 M2 l0 l1).map fun B => (st ++ [B], st.length)

/-- Store-passing cartesian product (products.py): as written it raises
before constructing the model whenever a measure is non-empty. -/
def cartOp (st : Store) (i j : ℕ) (sep : String) : Option (Store × ℕ) :=
  (st[i]?).bind fun M1 => (st[j]?).bind fun M2 =>
    (cartesianProductPy M1 M2 sep).map fun Cp => (st ++ [Cp], st.length)

/-- Store-passing quotient (build_quotient_mdp): read the operand, build
the quotient model, allocate it. -/
def quotOp (st : Store) (i : ℕ) : Option (Store × ℕ) :=
  (st[i]?).bind fun M =>
    (quotientMDP M.states).map fun Q => (st ++ [Q], st.length)

/-- C9: the box product and the quotient return a freshly allocated
model and leave every existing model — its state set, per-state action
sets, measures and rewards — exactly as it was; the cartesian product,
however, never returns a model on real inputs (its measure code raises
AttributeError, see C3), shown concretely on two copies of the two-state
path model. -/
theorem C9_operators_no_mutation :
    (∀ (st : Store) (i j : ℕ) (l0 l1 : String) (st' : Store) (r : ℕ),
      boxOp st i j l0 l1 = some (st', r) →
      (∀ k : ℕ, k < st.length → st'[k]? = st[k]?) ∧ r = st.length ∧
      ∃ M1 M2 : MDP, st[i]? = some M1 ∧ st[j]? = some M2 ∧
        st'[r]? = boxProductPy M1 M2 l0 l1) ∧
    (∀ (st : Store) (i : ℕ) (st' : Store) (r : ℕ),
      quotOp st i = some (st', r) →
      (∀ k : ℕ, k < st.length → st'[k]? = st[k]?) ∧ r = st.length ∧
      ∃ M : MDP, st[i]? = some M ∧ st'[r]? = quotientMDP M.states) ∧
    cartOp [mdpP2, mdpP2] 0 1 "," = none := by
  refine ⟨?_, ?_, ?_⟩
  · intro st i j l0 l1 st' r h
    rw [boxOp] at h
    cases hi : st[i]? with
    | none =>
      rw [hi, Option.none_bind] at h
      exact absurd h (Option.noConfusion)
    | some M1 =>
      rw [hi, Option.some_bind] at h
      cases hj : st[j]? with
      | none =>
        rw [hj, Option.none_bind] at h
        exact absurd h (Option.noConfusion)
      | some M2 =>
        rw [hj, Option.some_bind] at h
        rcases Option.map_eq_some'.1 h with ⟨B, hB, hBe⟩
        injection hBe with h1 h2
        refine ⟨?_, h2.symm, M1, M2, rfl, rfl, ?_⟩
        · intro k hk
          rw [← h1]
          exact List.getElem?_append_left hk
        · rw [← h1, ← h2, hB]
          rw [List.getElem?_append_right (le_refl st.length), Nat.sub_self]
          rfl
  · intro st i st' r h
    rw [quotOp] at h
    cases hi : st[i]? with
    | none =>
      rw [hi, Option.none_bind] at h
      exact absurd h (Option.noConfusion)
    | some M =>
      rw [hi, Option.some_bind] at h
      rcases Option.map_eq_some'.1 h with ⟨Q, hQ, hQe⟩
      injection hQe with h1 h2
      refine ⟨?_, h2.symm, M, rfl, ?_⟩
      · intro k hk
        rw [← h1]
        exact List.getElem?_append_left hk
      · rw [← h1, ← h2, hQ]
        rw [List.getElem?_append_right (le_refl st.length), Nat.sub_self]
        rfl
  · rfl

/-- Witness for C9: boxing the two-state path model with itself on a
two-cell store allocates cell 2 and leaves cells 0 and 1 untouched. -/
theorem C9_operators_no_mutation_witness :
    ∃ (st' : Store) (r : ℕ),
      boxOp [mdpP2, mdpP2] 0 1 "M1" "M2" = some (st', r) ∧
      (∀ k : ℕ, k < 2 → st'[k]? = ([mdpP2, mdpP2] : Store)[k]?) ∧
      r = 2 := by
  cases hB : boxOp [mdpP2, mdpP2] 0 1 "M1" "M2" with
  | none => exact absurd hB (by with_unfolding_all decide)
  | some sr =>
    obtain ⟨s1, r1⟩ := sr
    obtain ⟨hpres, hr, -⟩ := C9_operators_no_mutation.1 [mdpP2, mdpP2] 0 1
      "M1" "M2" s1 r1 hB
    exact ⟨s1, r1, rfl, fun k hk => hpres k hk, hr⟩

end Ctmdp
